import Mathlib

/-!
# Anderson post-processing (FOAM-FSI, `src/fsi/AndersonPostProcessing.C`)

A shallow embedding of `fsi::AndersonPostProcessing` in exact rational
arithmetic.

* `fsi::vector` is a list of rationals, `fsi::matrix` a row count together
  with the list of its columns.
* Members of the base class `PostProcessing` and of the derived class are two
  records that are passed explicitly; the solver object `fsi` is an abstract
  state `E` that only the external operations can inspect.
* `assert`, `std::deque::at` and a fault of the evaluator end a call with a
  `Status` other than `converged` or `exhausted`; the outcome keeps the
  values every variable had at that moment.
* Eigen, the evaluator, `isConvergence` and `iterationsConverged` are not part
  of the translated file; they are fields of `Env`.
-/

namespace fsi

/-! ## Vectors and matrices -/

/-- The type `fsi::vector`: a dense column of scalars. -/
abbrev Vec := List ℚ

/-- The type `fsi::matrix`: `rows()` and the columns, left to right. -/
structure Mat where
  rows : Nat
  colv : List Vec
deriving DecidableEq

/-- Subtraction `a - b` of two vectors (Eigen requires equal sizes). -/
def vsub (a b : Vec) : Vec := List.zipWith (fun x y => x - y) a b

/-- Addition `a + b` of two vectors (Eigen requires equal sizes). -/
def vadd (a b : Vec) : Vec := List.zipWith (fun x y => x + y) a b

/-- Product `c * v` of a scalar and a vector. -/
def vsmul (c : ℚ) (v : Vec) : Vec := v.map (fun x => c * x)

/-- Compound assignment on `vec.head( k )`: `f` is applied to the first `k`
entries (Eigen requires `k ≤ size`). -/
def onHead (k : Nat) (f : ℚ → ℚ) (v : Vec) : Vec :=
  (v.take k).map f ++ v.drop k

/-- Compound assignment on `vec.tail( k )`: `f` is applied to the last `k`
entries (Eigen requires `k ≤ size`). -/
def onTail (k : Nat) (f : ℚ → ℚ) (v : Vec) : Vec :=
  v.take (v.length - k) ++ (v.drop (v.length - k)).map f

namespace Mat

/-- Number of columns, `cols()`. -/
def cols (A : Mat) : Nat := A.colv.length

/-- Coefficient `A( i, j )`; `0` outside the stored range. -/
def entry (A : Mat) (i j : Nat) : ℚ := (A.colv.getD j []).getD i 0

/-- The `r × c` matrix with coefficients `f i j`. -/
def ofFn (r c : Nat) (f : Nat → Nat → ℚ) : Mat :=
  ⟨r, (List.range c).map (fun j => (List.range r).map (fun i => f i j))⟩

/-- Matrix product `A * B` (Eigen requires `A.cols() == B.rows()`). -/
def mul (A B : Mat) : Mat :=
  ofFn A.rows B.cols
    (fun i j => ((List.range A.cols).map (fun l => A.entry i l * B.entry l j)).sum)

/-- Sum `A + B` (Eigen requires equal shapes). -/
def add (A B : Mat) : Mat := ofFn A.rows A.cols (fun i j => A.entry i j + B.entry i j)

/-- Difference `A - B` (Eigen requires equal shapes). -/
def sub (A B : Mat) : Mat := ofFn A.rows A.cols (fun i j => A.entry i j - B.entry i j)

/-- The transposed matrix, `A.transpose()`. -/
def transpose (A : Mat) : Mat := ofFn A.cols A.rows (fun i j => A.entry j i)

/-- The identity, `fsi::matrix::Identity( n, n )`. -/
def identity (n : Nat) : Mat := ofFn n n (fun i j => if i = j then 1 else 0)

/-- The diagonal matrix `v.asDiagonal()`. -/
def asDiagonal (v : Vec) : Mat :=
  ofFn v.length v.length (fun i j => if i = j then v.getD i 0 else 0)

/-- Matrix-vector product `A * v` (Eigen requires `A.cols() == v.rows()`). -/
def mulVec (A : Mat) (v : Vec) : Vec :=
  (List.range A.rows).map
    (fun i => ((List.range A.cols).map (fun l => A.entry i l * v.getD l 0)).sum)

/-- Product `c * A` of a scalar and a matrix. -/
def smul (c : ℚ) (A : Mat) : Mat := ofFn A.rows A.cols (fun i j => c * A.entry i j)

/-- A default-constructed `fsi::matrix`, also the result of `resize( 0, 0 )`. -/
def empty : Mat := ⟨0, []⟩

end Mat

/-- Result of `Eigen::JacobiSVD` with thin `U` and `V`. -/
structure SVD where
  matrixU : Mat
  singularValues : Vec
  matrixV : Mat

/-! ## Object state -/

/-- The members of the base class `PostProcessing` that
`AndersonPostProcessing.C` reads or writes. -/
structure PostProcessing (E : Type) where
  fsi : E
  initialRelaxation : ℚ
  maxIter : Int
  maxUsedIterations : Int
  nbReuse : Int
  reuseInformationStartingFromTimeIndex : Int
  timeIndex : Int
  initStage_ : Bool
  stageIndex : Int
  k : Int
  sols : List Vec
  residuals : List Vec
  solsList : List (List Vec)
  solsStageList : List (List (List Vec))
  residualsStageList : List (List (List Vec))
  solsTimeList : List (List (List (List Vec)))
  residualsTimeList : List (List (List (List Vec)))

/-- The members `AndersonPostProcessing` adds to its base class;
`scalingFactors` is the two-entry vector `(scalingFactors0, scalingFactors1)`. -/
structure Anderson where
  scaling : Bool
  beta : ℚ
  singularityLimit : ℚ
  updateJacobian : Bool
  scalingFactors0 : ℚ
  scalingFactors1 : ℚ
  Jprev : Mat
  sizeVar0 : Nat
  sizeVar1 : Nat

/-- What the translated file calls but does not define: the coupled solver
`fsi` (its `evaluate` may fault, which is `none`; otherwise it returns the new
solver state, `output` and `R`, which it overwrites), the base-class
operations `isConvergence` (a check that may update the solver state) and
`iterationsConverged` (which may change any base-class member), and the Eigen
routines `norm` and `JacobiSVD`. -/
structure Env (E : Type) where
  evaluate : E → Vec → Option (E × Vec × Vec)
  isConvergence : E → Vec → Vec → Bool → E × Bool
  iterationsConverged : Bool → PostProcessing E → PostProcessing E
  fluidInit : E → Bool
  solidInit : E → Bool
  iter : E → Int
  solidCouplingGridSize : E → Nat
  solidDim : E → Nat
  fluidCouplingGridSize : E → Nat
  fluidDim : E → Nat
  norm : Vec → ℚ
  svd : Mat → SVD

/-- How a call of `performPostProcessing` ends. -/
inductive Status where
  | converged
  | exhausted
  | evaluationFault
  | assertionFailure
  | outOfRange
deriving DecidableEq

/-- One completed evaluation: the argument and the results of
`fsi->evaluate`, and the current window right after the two `push_front`. -/
structure EvalRecord where
  input : Vec
  output : Vec
  residual : Vec
  sols : List Vec
  residuals : List Vec

/-- The variables that are live across loop iterations. `calls` (arguments of
every `fsi->evaluate` call, latest first) and `trace` (completed evaluations,
latest first) only observe the run. -/
structure Locals (E : Type) where
  base : PostProcessing E
  self : Anderson
  xk : Vec
  yk : Vec
  J : Mat
  R : Vec
  calls : List Vec
  trace : List EvalRecord

/-- The state in which a call ends. -/
structure Outcome (E : Type) where
  status : Status
  final : Locals E

/-! ## Scaling (lines 43-78) -/

/-- `applyScaling( vector & )`, lines 43-47. -/
def applyScaling (self : Anderson) (vec : Vec) : Vec :=
  onTail self.sizeVar1 (fun x => x / self.scalingFactors1)
    (onHead self.sizeVar0 (fun x => x / self.scalingFactors0) vec)

/-- `applyScaling( matrix & )`, lines 49-53: the top `sizeVar0` rows and the
bottom `sizeVar1` rows of all columns. -/
def applyScalingMat (self : Anderson) (mat : Mat) : Mat :=
  ⟨mat.rows, mat.colv.map (fun c =>
    onTail self.sizeVar1 (fun x => x / self.scalingFactors1)
      (onHead self.sizeVar0 (fun x => x / self.scalingFactors0) c))⟩

/-- The two statements that leave scaled space, lines 102-103 and 341-342. -/
def removeScaling (self : Anderson) (dx : Vec) : Vec :=
  onTail self.sizeVar1 (fun x => x * self.scalingFactors1)
    (onHead self.sizeVar0 (fun x => x * self.scalingFactors0) dx)

/-- The loop of lines 68-70 for one factor. -/
def floorFactor (f : ℚ) : ℚ := if |f| < 1 / 10 ^ 13 then 1 else f

/-- `determineScalingFactors`, lines 55-78. `Except.error` is a failure of
the assertion of line 63 and carries the members as they are at that moment. -/
def determineScalingFactors {E : Type} (env : Env E) (base : PostProcessing E)
    (self : Anderson) (output : Vec) : Except Anderson Anderson :=
  if self.scaling && decide (base.timeIndex ≤ base.reuseInformationStartingFromTimeIndex) then
    let s1 : Anderson :=
      { self with
        sizeVar0 := env.solidCouplingGridSize base.fsi * env.solidDim base.fsi
        sizeVar1 := env.fluidCouplingGridSize base.fsi * env.fluidDim base.fsi }
    if output.length ≠ s1.sizeVar0 + s1.sizeVar1 then .error s1
    else
      .ok { s1 with
        scalingFactors0 := floorFactor (env.norm (output.take s1.sizeVar0))
        scalingFactors1 := floorFactor (env.norm (output.drop (output.length - s1.sizeVar1)))
        Jprev := Mat.empty }
  else .ok self

/-! ## Zero-history step (lines 80-107) -/

/-- The correction `dx` of `fixedUnderRelaxation` in scaled space, lines 89-98. -/
def relaxationStep {E : Type} (base : PostProcessing E) (self : Anderson)
    (R yk : Vec) : Vec :=
  if self.updateJacobian && decide (self.Jprev.rows = yk.length) then
    self.Jprev.mulVec (vsub yk R)
  else
    vsmul base.initialRelaxation (vsub R yk)

/-- `fixedUnderRelaxation`, lines 80-107; returns the new `xk`. -/
def fixedUnderRelaxation {E : Type} (base : PostProcessing E) (self : Anderson)
    (xk R yk : Vec) : Vec :=
  let dx := relaxationStep base self R yk
  let dx := if self.scaling then removeScaling self dx else dx
  vadd xk dx

/-! ## Number of columns (lines 195-213) -/

/-- The term `sols.size() - 1` added to the `int` counter: the unsigned
difference converted back to `int` is `size - 1`, also for an empty window. -/
def windowColumns (sols : List Vec) : Int := (sols.length : Int) - 1

/-- The value of `nbCols` after line 211, for a vector of `xkRows` entries.
The counter is an `int`; the samples held in memory are far fewer than `2^31`,
so its arithmetic is exact and no wrap-around is modelled. -/
def countColumns {E : Type} (base : PostProcessing E) (xkRows : Nat) : Int :=
  let nbCols : Int := (base.residuals.length : Int) - 1
  let nbCols := max nbCols 0
  let nbCols := base.solsStageList.reverse.foldl
    (fun acc stage => stage.foldl (fun acc sols => acc + windowColumns sols) acc) nbCols
  let nbCols := base.solsTimeList.foldl
    (fun acc solsStageList => solsStageList.foldl
      (fun acc solsStage => solsStage.foldl (fun acc sols => acc + windowColumns sols) acc) acc)
    nbCols
  let nbCols := min (xkRows : Int) nbCols
  min nbCols base.maxUsedIterations

/-! ## Construction of V and W (lines 225-288) -/

/-- The columns of `V` and `W` and the counter `colIndex`. `writes` (the
column indices assigned so far, latest first) only observes the loops. -/
structure Fill where
  V : List Vec
  W : List Vec
  colIndex : Nat
  writes : List Nat

/-- Body of the first fill loop, lines 237-242, for loop index `i`. -/
def fillCurrent (residuals sols : List Vec) (f : Fill) (i : Nat) : Except Status Fill :=
  if f.colIndex ≥ f.V.length then .ok f
  else
    match residuals[i]?, residuals[i + 1]?, sols[i]?, sols[i + 1]? with
    | some r0, some r1, some s0, some s1 =>
      .ok ⟨f.V.set i (vsub r0 r1), f.W.set i (vsub s0 s1), f.colIndex + 1, i :: f.writes⟩
    | _, _, _, _ => .error .outOfRange

/-- Body of the innermost loops over a retained window, lines 255-260 and
277-282, for loop index `k`; `sw` is the window of the solution history at
the same position, if there is one. -/
def fillStep (rw : List Vec) (sw : Option (List Vec)) (f : Fill) (k : Nat) :
    Except Status Fill :=
  if f.colIndex ≥ f.V.length then .ok f
  else
    match rw[k]?, rw[k + 1]?, sw.bind (fun w => w[k]?), sw.bind (fun w => w[k + 1]?) with
    | some r0, some r1, some s0, some s1 =>
      .ok ⟨f.V.set f.colIndex (vsub r0 r1), f.W.set f.colIndex (vsub s0 s1), f.colIndex + 1,
        f.colIndex :: f.writes⟩
    | _, _, _, _ => .error .outOfRange

/-- One retained window: the assertion `size() >= 2` and the loop over its
consecutive pairs, lines 251-261 and 273-284. -/
def fillWindow (rw : List Vec) (sw : Option (List Vec)) (f : Fill) : Except Status Fill :=
  if rw.length < 2 then .error .assertionFailure
  else (List.range (rw.length - 1)).foldlM (fun f k => fillStep rw sw f k) f

/-- One stage group: its windows in ascending index, lines 249-262 and
271-285. `ss` is the group of the solution history at the same position. -/
def fillGroup (rs : List (List Vec)) (ss : Option (List (List Vec))) (f : Fill) :
    Except Status Fill :=
  (List.range rs.length).foldlM
    (fun f j => fillWindow (rs.getD j []) (ss.bind (fun g => g[j]?)) f) f

/-- The stage history, lines 247-263: groups from the last index down. -/
def fillStages (residualsStageList solsStageList : List (List (List Vec))) (f : Fill) :
    Except Status Fill :=
  (List.range residualsStageList.length).reverse.foldlM
    (fun f i => fillGroup (residualsStageList.getD i []) solsStageList[i]? f) f

/-- The time history, lines 267-286: time steps in ascending index, the
groups of each from the last index down. -/
def fillTimes (residualsTimeList solsTimeList : List (List (List (List Vec)))) (f : Fill) :
    Except Status Fill :=
  (List.range residualsTimeList.length).foldlM
    (fun f i => fillStages (residualsTimeList.getD i []) ((solsTimeList[i]?).getD []) f) f

/-- Lines 226-286: the three fill loops for `nbCols` columns. Eigen leaves a
new matrix uninitialised; the model starts from zero columns, and every column
is overwritten when the assertion of line 288 holds. -/
def fillLoops {E : Type} (base : PostProcessing E) (xkRows nbCols : Nat) :
    Except Status Fill :=
  let blank : List Vec := List.replicate nbCols (List.replicate xkRows 0)
  let nbColsCurrentTimeStep : Int := max (windowColumns base.sols) 0
  let nbColsCurrentTimeStep := min nbColsCurrentTimeStep (nbCols : Int)
  do
    let f ← (List.range nbColsCurrentTimeStep.toNat).foldlM
      (fun f i => fillCurrent base.residuals base.sols f i) (⟨blank, blank, 0, []⟩ : Fill)
    let f ← fillStages base.residualsStageList base.solsStageList f
    fillTimes base.residualsTimeList base.solsTimeList f

/-- Lines 226-288: the matrices `V` and `W` before scaling, for `nbCols`
columns: the fill loops and the assertion `colIndex == nbCols`. -/
def constructVW {E : Type} (base : PostProcessing E) (xkRows nbCols : Nat) :
    Except Status (Mat × Mat) :=
  do
    let f ← fillLoops base xkRows nbCols
    if f.colIndex ≠ nbCols then .error .assertionFailure
    else .ok (⟨xkRows, f.V⟩, ⟨xkRows, f.W⟩)

/-! ## Truncated singular value decomposition (lines 300-335) -/

/-- The vector `singularValues_inv` after the loop of lines 304-310. -/
def singularValuesInv (singularityLimit : ℚ) (singularValues : Vec) : Vec :=
  singularValues.map (fun sigma => if sigma > singularityLimit then 1 / sigma else 0)

/-- The matrix `Vinverse` of line 316. -/
def Vinverse (singularityLimit : ℚ) (svd : SVD) : Mat :=
  ((svd.matrixV.mul (Mat.asDiagonal (singularValuesInv singularityLimit svd.singularValues))).mul
    svd.matrixU.transpose)

/-- The coefficient vector `c` of line 333 for the right-hand side `b = yk - R`. -/
def coefficients (singularityLimit : ℚ) (svd : SVD) (b : Vec) : Vec :=
  svd.matrixV.mulVec
    ((Mat.asDiagonal (singularValuesInv singularityLimit svd.singularValues)).mulVec
      (svd.matrixU.transpose.mulVec b))

/-- Lines 314-329: the Jacobian `J` in update mode. -/
def jacobian (self : Anderson) (svd : SVD) (V W : Mat) (R : Vec) : Mat :=
  let Vinv := Vinverse self.singularityLimit svd
  let I := Mat.identity V.rows
  if self.Jprev.cols = R.length then
    self.Jprev.add ((W.sub (self.Jprev.mul V)).mul Vinv)
  else
    ((V.add W).mul Vinv).sub I

/-- Lines 312-335: the correction `dx` in scaled space and the value of `J`
afterwards. -/
def correction {E : Type} (env : Env E) (self : Anderson) (V W : Mat) (R yk : Vec)
    (J : Mat) : Vec × Mat :=
  let svd := env.svd V
  if self.updateJacobian then
    let J := jacobian self svd V W R
    (J.mulVec (vsub yk R), J)
  else
    let c := coefficients self.singularityLimit svd (vsub yk R)
    (vadd (vadd (vsmul self.beta (vsub R yk)) (W.mulVec c)) ((V.smul self.beta).mulVec c), J)

/-! ## The fixed-point loop (lines 136-383) -/

/-- Lines 219-346: the branch `nbCols > 0`; returns the new `xk` and `J`. -/
def andersonUpdate {E : Type} (env : Env E) (base : PostProcessing E) (self : Anderson)
    (xk R yk : Vec) (J : Mat) (nbCols : Nat) : Except Status (Vec × Mat) :=
  match constructVW base xk.length nbCols with
  | .error e => .error e
  | .ok (V, W) =>
    let V := if self.scaling then applyScalingMat self V else V
    let W := if self.scaling then applyScalingMat self W else W
    let (dx, J) := correction env self V W R yk J
    let dx := if self.scaling then removeScaling self dx else dx
    .ok (vadd xk dx, J)

/-- The outcome with status `s` in state `l`. -/
def stop {E : Type} (s : Status) (l : Locals E) : Outcome E := ⟨s, l⟩

/-- Lines 177-183 and 359-368 once `isConvergence` has returned `true`: the
call of `iterationsConverged` and, inside the loop (`inLoop`), the caching of
the Jacobian. -/
def convergedState {E : Type} (env : Env E) (residualCriterium inLoop : Bool)
    (l : Locals E) : Locals E :=
  let keepIterations := residualCriterium || decide (l.base.solsList.length = 0)
  let base := env.iterationsConverged keepIterations l.base
  let self :=
    if inLoop && (l.self.updateJacobian && decide (l.J.cols > 0)
        && decide (base.timeIndex ≥ base.reuseInformationStartingFromTimeIndex)) then
      { l.self with Jprev := l.J }
    else l.self
  { l with base := base, self := self }

/-- Lines 193-346 of the loop body: the column count and the update of `xk`
by `fixedUnderRelaxation` (`nbCols == 0`) or by the Anderson step
(`nbCols > 0`). `Sum.inl` is an abort. -/
def updateStep {E : Type} (env : Env E) (l : Locals E) : Outcome E ⊕ Locals E :=
  let nbCols := countColumns l.base l.xk.length
  if ¬ (nbCols ≤ (l.xk.length : Int)) then .inl (stop .assertionFailure l)
  else
    let l : Locals E :=
      if nbCols = 0 then { l with xk := fixedUnderRelaxation l.base l.self l.xk l.R l.yk }
      else l
    if nbCols > 0 then
      match andersonUpdate env l.base l.self l.xk l.R l.yk l.J nbCols.toNat with
      | .error e => .inl (stop e l)
      | .ok (xk, J) => .inr { l with xk := xk, J := J }
    else .inr l

/-- Lines 370-381 of the loop body, reached when `isConvergence` returned
`false`: the scaling factors are determined again and `R` and a fresh `yk`
are scaled; then the closing assertions. -/
def rescaleStep {E : Type} (env : Env E) (y output : Vec) (l : Locals E) :
    Outcome E ⊕ Locals E :=
  match determineScalingFactors env l.base l.self output with
  | .error self => .inl (stop .assertionFailure { l with self := self })
  | .ok self =>
    let l : Locals E := { l with self := self }
    let l : Locals E :=
      if l.self.scaling then
        { l with yk := applyScaling l.self y, R := applyScaling l.self l.R }
      else l
    if l.base.sols.length ≠ l.base.residuals.length then
      .inl (stop .assertionFailure l)
    else if (l.base.sols.headD []).length ≠ (l.base.residuals.headD []).length then
      .inl (stop .assertionFailure l)
    else if ¬ (env.iter l.base.fsi ≤ l.base.maxIter) then
      .inl (stop .assertionFailure l)
    else .inr l

/-- Lines 348-381 of the loop body: the evaluation at `xk`, the recording of
the sample, the convergence check (`break` on success) and the rescaling. -/
def evaluateStep {E : Type} (env : Env E) (y x0 : Vec) (residualCriterium : Bool)
    (l : Locals E) : Outcome E ⊕ Locals E :=
  let l : Locals E := { l with calls := l.xk :: l.calls }
  match env.evaluate l.base.fsi l.xk with
  | none => .inl (stop .evaluationFault l)
  | some (e, output, R) =>
    let l : Locals E := { l with base := { l.base with fsi := e }, R := R }
    if x0.length ≠ output.length ∨ x0.length ≠ R.length then
      .inl (stop .assertionFailure l)
    else
      let base := { l.base with residuals := R :: l.base.residuals, sols := l.xk :: l.base.sols }
      let l : Locals E :=
        { l with base := base, trace := ⟨l.xk, output, R, base.sols, base.residuals⟩ :: l.trace }
      let c := env.isConvergence l.base.fsi output (vsub (vadd output y) R) residualCriterium
      let l : Locals E := { l with base := { l.base with fsi := c.1 } }
      if c.2 then .inl (stop .converged (convergedState env residualCriterium true l))
      else rescaleStep env y output l

/-- One iteration of the loop of lines 191-382. `Sum.inl` leaves the loop
(`break`, or an abort), `Sum.inr` is the state at the end of the body. -/
def iteration {E : Type} (env : Env E) (y x0 : Vec) (residualCriterium : Bool)
    (l : Locals E) : Outcome E ⊕ Locals E :=
  match updateStep env l with
  | .inl out => .inl out
  | .inr l => evaluateStep env y x0 residualCriterium l

/-- The loop of line 191 with `n` iterations left. -/
def loop {E : Type} (env : Env E) (y x0 : Vec) (residualCriterium : Bool) :
    Nat → Locals E → Outcome E
  | 0, l => stop .exhausted l
  | n + 1, l =>
    match iteration env y x0 residualCriterium l with
    | .inl out => out
    | .inr l => loop env y x0 residualCriterium n l

/-- The assertions of lines 143-150. -/
def entryAssertions {E : Type} (env : Env E) (base : PostProcessing E) (y x0 xk : Vec) : Bool :=
  decide (xk.length > 0) && env.fluidInit base.fsi && env.solidInit base.fsi
    && decide (y.length = x0.length) && decide (y.length = xk.length)
    && base.initStage_ && decide (base.stageIndex < base.k) && decide (base.k > 0)

/-- Lines 143-189: the entry assertions, the initialisation, the evaluation
at `x0` with its recording, and the first convergence check. `Sum.inl` ends
the call (abort, or `return` on convergence), `Sum.inr` enters the loop. -/
def startUp {E : Type} (env : Env E) (base : PostProcessing E) (self : Anderson)
    (y x0 xk : Vec) (residualCriterium : Bool) : Outcome E ⊕ Locals E :=
  let l : Locals E := ⟨base, self, xk, y, Mat.empty, [], [], []⟩
  if ¬ entryAssertions env base y x0 xk then .inl (stop .assertionFailure l)
  else
    let l : Locals E :=
      { l with xk := x0, base := { l.base with residuals := [], sols := [] }, yk := y,
               R := List.replicate x0.length 0, calls := [x0] }
    match env.evaluate l.base.fsi x0 with
    | none => .inl (stop .evaluationFault l)
    | some (e, output, R) =>
      let l : Locals E := { l with base := { l.base with fsi := e }, R := R }
      match determineScalingFactors env l.base l.self output with
      | .error self => .inl (stop .assertionFailure { l with self := self })
      | .ok self =>
        let l : Locals E := { l with self := self }
        if x0.length ≠ output.length ∨ x0.length ≠ R.length then
          .inl (stop .assertionFailure l)
        else
          let base := { l.base with residuals := R :: l.base.residuals, sols := x0 :: l.base.sols }
          let l : Locals E :=
            { l with base := base, trace := ⟨x0, output, R, base.sols, base.residuals⟩ :: l.trace }
          let c := env.isConvergence l.base.fsi output (vsub (vadd output y) R) residualCriterium
          let l : Locals E := { l with base := { l.base with fsi := c.1 } }
          if c.2 then .inl (stop .converged (convergedState env residualCriterium false l))
          else
            .inr
              (if l.self.scaling then
                { l with R := applyScaling l.self l.R, yk := applyScaling l.self l.yk }
              else l)

/-- `performPostProcessing( y, x0, xk, residualCriterium )`, lines 136-383. -/
def performPostProcessing {E : Type} (env : Env E) (base : PostProcessing E) (self : Anderson)
    (y x0 xk : Vec) (residualCriterium : Bool) : Outcome E :=
  match startUp env base self y x0 xk residualCriterium with
  | .inl out => out
  | .inr l => loop env y x0 residualCriterium (l.base.maxIter - 1).toNat l

/-- `performPostProcessing( x0, xk )`, lines 109-117. -/
def performPostProcessingZero {E : Type} (env : Env E) (base : PostProcessing E)
    (self : Anderson) (x0 xk : Vec) : Outcome E :=
  performPostProcessing env base self (List.replicate x0.length 0) x0 xk true

/-- `performPostProcessing( y, x0, xk )`, lines 119-126. -/
def performPostProcessingForced {E : Type} (env : Env E) (base : PostProcessing E)
    (self : Anderson) (y x0 xk : Vec) : Outcome E :=
  performPostProcessing env base self y x0 xk false

/-! ## The difference sequence of the history -/

/-- The consecutive differences `h[k] - h[k+1]` for `k = 0 .. m-1`. -/
def diffsUpTo (m : Nat) (h : List Vec) : List Vec :=
  (List.range m).map (fun k => vsub (h.getD k []) (h.getD (k + 1) []))

/-- All consecutive differences of one window, `k = 0 .. len-2`. -/
def windowDiffs (h : List Vec) : List Vec := diffsUpTo (h.length - 1) h

/-- Differences of a stage history: groups from the last index down to the
first, windows in ascending index, differences in ascending index. -/
def stageDiffs (st : List (List (List Vec))) : List Vec :=
  (st.reverse.map (fun g => (g.map windowDiffs).flatten)).flatten

/-- Differences of a time history: time entries in ascending index, each
entry as a stage history. -/
def timeDiffs (tl : List (List (List (List Vec)))) : List Vec :=
  (tl.map stageDiffs).flatten

/-- The sequence `D`: current window, then stage history, then time history. -/
def diffSequence (cur : List Vec) (st : List (List (List Vec)))
    (tl : List (List (List (List Vec)))) : List Vec :=
  windowDiffs cur ++ stageDiffs st ++ timeDiffs tl

/-- The window lengths of a stage history. -/
def stageShape (st : List (List (List Vec))) : List (List Nat) :=
  st.map (fun g => g.map List.length)

/-- The window lengths of a time history. -/
def timeShape (tl : List (List (List (List Vec)))) : List (List (List Nat)) :=
  tl.map stageShape

/-- Writing one column at the counter `s.2` unless the columns are full. -/
def place (s : List Vec × Nat) (d : Vec) : List Vec × Nat :=
  if s.2 ≥ s.1.length then s else (s.1.set s.2 d, s.2 + 1)

/-- The fill state `f1` results from `f` by placing the columns `dR` in `V`
and `dX` in `W`. -/
def Places (f f1 : Fill) (dR dX : List Vec) : Prop :=
  f1.V.length = f1.W.length ∧
  (f1.V, f1.colIndex) = dR.foldl place (f.V, f.colIndex) ∧
  (f1.W, f1.colIndex) = dX.foldl place (f.W, f.colIndex)

/-- The sum `S` of the consecutive-difference counts `length - 1` of the
current window and of every retained window. -/
def availableColumns {E : Type} (base : PostProcessing E) : Nat :=
  (base.residuals.length - 1)
    + ((base.solsStageList.flatten).map (fun w => w.length - 1)).sum
    + ((base.solsTimeList.flatten.flatten).map (fun w => w.length - 1)).sum

/-- The fill state is consistent for `n` columns: `V` and `W` have `n`
columns, the counter is within range, and the columns assigned so far are
`0 .. colIndex - 1`, each once, in this order. -/
def FillInv (n : Nat) (f : Fill) : Prop :=
  f.V.length = n ∧ f.W.length = n ∧ f.colIndex ≤ n ∧ f.writes.reverse = List.range f.colIndex

/-- The fill state `f1` is consistent and its counter is the counter of `f`
advanced by `c` columns, up to the number `n` of columns. -/
def Advances (n : Nat) (f f1 : Fill) (c : Nat) : Prop :=
  FillInv n f1 ∧ f1.colIndex = min n (f.colIndex + c)

/-! ## Observations on a run -/

/-- The state `fl` results from `l` by one completed evaluation at `fl.xk`
whose argument and residual were pushed to the front of the current window. -/
def Recorded {E : Type} (l fl : Locals E) : Prop :=
  ∃ rec : EvalRecord, fl.trace = rec :: l.trace ∧ rec.input = fl.xk ∧
    rec.sols = fl.xk :: l.base.sols ∧ rec.residuals = rec.residual :: l.base.residuals ∧
    fl.calls = fl.xk :: l.calls

/-- Every record of a trace (latest first) holds, as current window, the
arguments and the residuals of all evaluations up to its own, latest first,
and the earliest evaluation was at `x0`. -/
def WindowsRecorded (x0 : Vec) : List EvalRecord → Prop
  | [] => True
  | r :: rest =>
    r.sols = (r :: rest).map (fun q => q.input) ∧
    r.residuals = (r :: rest).map (fun q => q.residual) ∧
    ((r :: rest).map (fun q => q.input)).getLast? = some x0 ∧
    WindowsRecorded x0 rest

/-- The number `n` is the Euclidean norm of `v`. -/
def IsEuclideanNorm (n : ℚ) (v : Vec) : Prop :=
  0 ≤ n ∧ n * n = (v.map (fun x => x * x)).sum

/-- Between two states of the derived-class members, `updateJacobian` is the
same and `Jprev` is the same or has been reset to `0 x 0`. -/
def JprevKept (s0 s : Anderson) : Prop :=
  s.updateJacobian = s0.updateJacobian ∧ (s.Jprev = s0.Jprev ∨ s.Jprev = Mat.empty)

/-! ## Finite-dimensional view of matrices and vectors -/

/-- The coefficients `A( i, j )` with `i < m` and `j < n` as a matrix over
finite index types. -/
def Mat.toMatrix (m n : Nat) (A : Mat) : Matrix (Fin m) (Fin n) ℚ :=
  fun i j => A.entry i j

/-- The entries `v( i )` with `i < n` as a function on a finite index type. -/
def toFun (n : Nat) (v : Vec) : Fin n → ℚ := fun i => v.getD i 0

/-! ## Concrete instances -/

/-- A solver without state: `evaluate` returns `x` as output and `x / 2` as
residual, convergence is never reported, one interface unknown per solver. -/
def sampleEnv : Env Unit where
  evaluate := fun _ x => some ((), x, vsmul (1 / 2) x)
  isConvergence := fun _ _ _ _ => ((), false)
  iterationsConverged := fun _ b => b
  fluidInit := fun _ => true
  solidInit := fun _ => true
  iter := fun _ => 0
  solidCouplingGridSize := fun _ => 1
  solidDim := fun _ => 1
  fluidCouplingGridSize := fun _ => 1
  fluidDim := fun _ => 1
  norm := fun v => Rat.sqrt ((v.map (fun x => x * x)).sum)
  svd := fun V => ⟨V, V.colv.map (fun _ => 1), Mat.identity V.cols⟩

/-- Base-class members at the start of a first stage, without history. -/
def sampleBase : PostProcessing Unit where
  fsi := ()
  initialRelaxation := 1 / 2
  maxIter := 3
  maxUsedIterations := 0
  nbReuse := 0
  reuseInformationStartingFromTimeIndex := 0
  timeIndex := 0
  initStage_ := true
  stageIndex := 0
  k := 1
  sols := []
  residuals := []
  solsList := []
  solsStageList := []
  residualsStageList := []
  solsTimeList := []
  residualsTimeList := []

/-- Derived-class members with scaling enabled and factors `100` and `1`. -/
def sampleSelf : Anderson where
  scaling := true
  beta := 1
  singularityLimit := 1 / 1000
  updateJacobian := false
  scalingFactors0 := 100
  scalingFactors1 := 1
  Jprev := Mat.empty
  sizeVar0 := 1
  sizeVar1 := 1

/-- Base-class members inside a loop iteration with one retained stage window
of three samples and one retained time-step window of two samples. -/
def historyBase : PostProcessing Unit :=
  { sampleBase with
    maxUsedIterations := 3
    sols := [[2, 0, 0], [1, 0, 0]]
    residuals := [[5, 1, 0], [3, 0, 0]]
    solsStageList := [[[[4, 0, 1], [3, 0, 0], [1, 0, 0]]]]
    residualsStageList := [[[[7, 0, 0], [5, 0, 0], [2, 1, 0]]]]
    solsTimeList := [[[[[1, 1, 1], [0, 0, 0]]]]]
    residualsTimeList := [[[[[9, 0, 0], [8, 0, 0]]]]] }

/-- Derived-class members as the constructor leaves them, scaling disabled. -/
def plainSelf : Anderson where
  scaling := false
  beta := 1
  singularityLimit := 1 / 1000
  updateJacobian := false
  scalingFactors0 := 1
  scalingFactors1 := 1
  Jprev := Mat.empty
  sizeVar0 := 0
  sizeVar1 := 0

/-- Derived-class members as the constructor leaves them, scaling enabled. -/
def freshSelf : Anderson := { plainSelf with scaling := true }

/-- The solver of `sampleEnv` with a convergence check that succeeds as soon
as the first entry of the output exceeds `1`. -/
def thresholdEnv : Env Unit :=
  { sampleEnv with isConvergence := fun _ output _ _ => ((), decide (output.headD 0 > 1)) }

/-- The record of the second evaluation in the run of `sampleEnv` from `[1]`. -/
def secondRecord : EvalRecord :=
  ⟨[5 / 4], [5 / 4], [5 / 8], [[5 / 4], [1]], [[5 / 8], [1 / 2]]⟩

/-- An evaluator that always faults. -/
def faultEnv : Env Unit :=
  { sampleEnv with evaluate := fun _ _ => none }

/-- An evaluator that succeeds at `[1]` only. -/
def secondFaultEnv : Env Unit :=
  { sampleEnv with
    evaluate := fun _ x => if x = [1] then some ((), x, vsmul (1 / 2) x) else none }

/-- The `2 x 2` matrix with orthonormal columns `e1`, `e2`. -/
def unitV : Mat := ⟨2, [[1, 0], [0, 1]]⟩

/-- A `2 x 2` matrix of solution differences. -/
def sampleW : Mat := ⟨2, [[1, 2], [3, 4]]⟩

/-- The solver of `sampleEnv` with a convergence check that succeeds as soon
as the first entry of the output exceeds `3 / 2`. -/
def cachingEnv : Env Unit :=
  { sampleEnv with isConvergence := fun _ output _ _ => ((), decide (output.headD 0 > 3 / 2)) }

/-- The `4 x 4` identity, a matrix `V` with orthonormal columns. -/
def unitV4 : Mat := ⟨4, [[1, 0, 0, 0], [0, 1, 0, 0], [0, 0, 1, 0], [0, 0, 0, 1]]⟩

/-- A diagonal `4 x 4` contraction. -/
def diagA : Mat :=
  ⟨4, [[1 / 2, 0, 0, 0], [0, 1 / 3, 0, 0], [0, 0, 1 / 4, 0], [0, 0, 0, 1 / 5]]⟩

/-- The solution differences `W` with `diagA * W - W = unitV4`. -/
def diagW : Mat :=
  ⟨4, [[-2, 0, 0, 0], [0, -3 / 2, 0, 0], [0, 0, -4 / 3, 0], [0, 0, 0, -5 / 4]]⟩

/-- The squared Euclidean norm of a vector. -/
def sqNorm (v : Vec) : ℚ := (v.map (fun x => x * x)).sum

/-- Modelled from the spec: the residual-magnitude criterion of the base
class, whose `isConvergence` is not among the sources. The second argument of
the check is `output + y - R`, so the difference of its arguments is `R - y`;
the criterion holds when its Euclidean norm is below `tol`, compared here in
squares. -/
def residualCriterion (tol : ℚ) (a b : Vec) : Bool := decide (sqNorm (vsub a b) < tol ^ 2)

/-- The triple `s` is a thin singular value decomposition of `V`:
`V = U * diag(sigma) * Vm^T` with orthonormal columns in `U` and `Vm` and
non-negative singular values in descending order. -/
def IsThinSVD (V : Mat) (s : SVD) : Prop :=
  (s.matrixU.mul (Mat.asDiagonal s.singularValues)).mul s.matrixV.transpose = V ∧
  s.matrixU.transpose.mul s.matrixU = Mat.identity V.cols ∧
  s.matrixV.transpose.mul s.matrixV = Mat.identity V.cols ∧
  (∀ sigma ∈ s.singularValues, 0 ≤ sigma) ∧
  s.singularValues.Pairwise (fun a b => a ≥ b)

/-- The cyclic shift of four coordinates scaled by `1/2`:
`A x = (x3, x0, x1, x2) / 2`. Its fourth power is `1/16` times the identity,
so every eigenvalue has modulus `1/2`. -/
def shiftA : Mat :=
  ⟨4, [[0, 1 / 2, 0, 0], [0, 0, 1 / 2, 0], [0, 0, 0, 1 / 2], [1 / 2, 0, 0, 0]]⟩

/-- The start vector of the linear run: `(shiftA - I)^2 linearX0` is
`225/2^20` times the first unit vector. -/
def linearX0 : Vec := [304 / 2 ^ 20, 272 / 2 ^ 20, 196 / 2 ^ 20, 128 / 2 ^ 20]

/-- The thin SVD of a `4 x k` matrix whose columns are, from the last to the
first, `225/2^20 / 2^j` times the unit vector `j` for `j = 0 .. k-1`: `U` holds
the first `k` unit vectors, the singular values are `225/2^20 / 2^j`, and `Vm`
reverses the order of the columns. These are the matrices `V` of the linear
run. -/
def shiftSvd (V : Mat) : SVD :=
  ⟨Mat.ofFn 4 V.cols (fun i j => if i = j then 1 else 0),
   (List.range V.cols).map (fun j => 225 / 2 ^ 20 / 2 ^ j),
   Mat.ofFn V.cols V.cols (fun i j => if i + j + 1 = V.cols then 1 else 0)⟩

/-- The linear solver `evaluate(x) = (A x, A x - x)` for `A = shiftA`, with
the residual criterion at tolerance `1e-10` and the SVD of the matrices of
its run from `linearX0`. -/
def linearEnv : Env Unit :=
  { sampleEnv with
    evaluate := fun _ x => some ((), shiftA.mulVec x, vsub (shiftA.mulVec x) x)
    isConvergence := fun _ a b _ => ((), residualCriterion (1 / 10 ^ 10) a b)
    svd := shiftSvd }

/-- Base-class members for the linear scenario: no stage or time history,
`maxUsedIterations = 4`, relaxation factor `1`, six evaluations allowed. -/
def linearBase : PostProcessing Unit :=
  { sampleBase with initialRelaxation := 1, maxIter := 6, maxUsedIterations := 4 }

/-- The state after one loop iteration of the linear run in which the
correction is `R - yk` (relaxation factor `1`, or an Anderson step whose modes
are all truncated, with `beta = 1`) and the convergence check fails. -/
def linearNext (l : Locals Unit) : Locals Unit :=
  ⟨{ l.base with
      residuals := vsub (shiftA.mulVec (vadd l.xk l.R)) (vadd l.xk l.R) :: l.base.residuals
      sols := vadd l.xk l.R :: l.base.sols },
    l.self, vadd l.xk l.R, l.yk, l.J,
    vsub (shiftA.mulVec (vadd l.xk l.R)) (vadd l.xk l.R),
    vadd l.xk l.R :: l.calls,
    ⟨vadd l.xk l.R, shiftA.mulVec (vadd l.xk l.R),
      vsub (shiftA.mulVec (vadd l.xk l.R)) (vadd l.xk l.R),
      vadd l.xk l.R :: l.base.sols,
      vsub (shiftA.mulVec (vadd l.xk l.R)) (vadd l.xk l.R) :: l.base.residuals⟩ :: l.trace⟩

/-- The convergence check of the linear run at the iterate that follows
`l`. -/
def linearCheck (l : Locals Unit) : Bool :=
  residualCriterion (1 / 10 ^ 10) (shiftA.mulVec (vadd l.xk l.R))
    (vsub (vadd (shiftA.mulVec (vadd l.xk l.R)) [0, 0, 0, 0])
      (vsub (shiftA.mulVec (vadd l.xk l.R)) (vadd l.xk l.R)))

/-- What the states of the linear run have in common. -/
def LinearInv (l : Locals Unit) : Prop :=
  l.self = plainSelf ∧ l.yk = [0, 0, 0, 0] ∧ l.xk.length = 4 ∧ l.R.length = 4 ∧
  l.base.sols.length = l.base.residuals.length ∧
  l.base.initialRelaxation = 1 ∧ 0 ≤ l.base.maxIter ∧ l.base.maxUsedIterations = 4 ∧
  l.base.solsStageList = [] ∧ l.base.residualsStageList = [] ∧
  l.base.solsTimeList = [] ∧ l.base.residualsTimeList = []

/-- The state of the linear run when it enters the loop. -/
def linearStart : Locals Unit :=
  ⟨{ linearBase with
      residuals := [vsub (shiftA.mulVec linearX0) linearX0]
      sols := [linearX0] },
    plainSelf, linearX0, [0, 0, 0, 0], Mat.empty, vsub (shiftA.mulVec linearX0) linearX0,
    [linearX0],
    [⟨linearX0, shiftA.mulVec linearX0, vsub (shiftA.mulVec linearX0) linearX0, [linearX0],
      [vsub (shiftA.mulVec linearX0) linearX0]⟩]⟩

theorem length_vsub (a b : Vec) : (vsub a b).length = min a.length b.length := by
  simp [vsub]

theorem length_vadd (a b : Vec) : (vadd a b).length = min a.length b.length := by
  simp [vadd]

theorem length_vsmul (c : ℚ) (v : Vec) : (vsmul c v).length = v.length := by
  simp [vsmul]

theorem length_onHead (k : Nat) (f : ℚ → ℚ) (v : Vec) : (onHead k f v).length = v.length := by
  simp [onHead]; omega

theorem length_onTail (k : Nat) (f : ℚ → ℚ) (v : Vec) : (onTail k f v).length = v.length := by
  simp [onTail]

theorem getD_vsub (a b : Vec) (i : Nat) (h : a.length = b.length) :
    (vsub a b).getD i 0 = a.getD i 0 - b.getD i 0 := by
  by_cases hi : i < a.length
  · have hb : i < b.length := h ▸ hi
    simp [vsub, List.getD_eq_getElem?_getD, List.getElem?_zipWith, List.getElem?_eq_getElem, hi, hb]
  · have hb : ¬ i < b.length := h ▸ hi
    simp [vsub, List.getD_eq_getElem?_getD, List.getElem?_zipWith, List.getElem?_eq_none, Nat.le_of_not_lt hi,
      Nat.le_of_not_lt hb]

theorem getD_vadd (a b : Vec) (i : Nat) (h : a.length = b.length) :
    (vadd a b).getD i 0 = a.getD i 0 + b.getD i 0 := by
  by_cases hi : i < a.length
  · have hb : i < b.length := h ▸ hi
    simp [vadd, List.getD_eq_getElem?_getD, List.getElem?_zipWith, List.getElem?_eq_getElem, hi, hb]
  · have hb : ¬ i < b.length := h ▸ hi
    simp [vadd, List.getD_eq_getElem?_getD, List.getElem?_zipWith, List.getElem?_eq_none, Nat.le_of_not_lt hi,
      Nat.le_of_not_lt hb]

theorem getD_vsmul (c : ℚ) (v : Vec) (i : Nat) :
    (vsmul c v).getD i 0 = c * v.getD i 0 := by
  by_cases hi : i < v.length
  · simp [vsmul, List.getD_eq_getElem?_getD, List.getElem?_eq_getElem, hi]
  · simp [vsmul, List.getD_eq_getElem?_getD, List.getElem?_eq_none, Nat.le_of_not_lt hi]

theorem getD_onHead (k : Nat) (f : ℚ → ℚ) (v : Vec) (i : Nat) (hi : i < v.length) :
    (onHead k f v).getD i 0 = if i < k then f (v.getD i 0) else v.getD i 0 := by
  unfold onHead
  by_cases hk : i < k
  · have h1 : i < ((v.take k).map f).length := by simp; omega
    rw [List.getD_eq_getElem?_getD, List.getElem?_append_left h1]
    simp [List.getD_eq_getElem?_getD, List.getElem?_take, hk, List.getElem?_eq_getElem, hi]
  · have h1 : ((v.take k).map f).length ≤ i := by simp; omega
    rw [List.getD_eq_getElem?_getD, List.getElem?_append_right h1]
    have h2 : k + (i - min k v.length) = i := by omega
    simp [List.getD_eq_getElem?_getD, hk, List.getElem?_eq_getElem, hi, h2]

theorem getD_onTail (k : Nat) (f : ℚ → ℚ) (v : Vec) (i : Nat) (hi : i < v.length) :
    (onTail k f v).getD i 0 = if v.length - k ≤ i then f (v.getD i 0) else v.getD i 0 := by
  unfold onTail
  by_cases hk : v.length - k ≤ i
  · have h1 : (v.take (v.length - k)).length ≤ i := by simp; omega
    rw [List.getD_eq_getElem?_getD, List.getElem?_append_right h1]
    have h2 : v.length - k + (i - min (v.length - k) v.length) = i := by omega
    simp [List.getD_eq_getElem?_getD, hk, List.getElem?_eq_getElem, hi, h2]
  · have h1 : i < (v.take (v.length - k)).length := by simp; omega
    rw [List.getD_eq_getElem?_getD, List.getElem?_append_left h1]
    have h3 : i < v.length - k := by omega
    simp [List.getD_eq_getElem?_getD, List.getElem?_take, hk, h3, List.getElem?_eq_getElem, hi]

theorem ext_getD (a b : Vec) (hl : a.length = b.length)
    (h : ∀ i, i < a.length → a.getD i 0 = b.getD i 0) : a = b := by
  apply List.ext_getElem hl
  intro i h1 h2
  have := h i h1
  simpa [List.getD_eq_getElem?_getD, List.getElem?_eq_getElem, h1, h2] using this

/-! ## Zero-history step -/

theorem length_mulVec (A : Mat) (v : Vec) : (A.mulVec v).length = A.rows := by
  simp [Mat.mulVec]

theorem getD_mulVec (A : Mat) (v : Vec) (i : Nat) (hi : i < A.rows) :
    (A.mulVec v).getD i 0 =
      ((List.range A.cols).map (fun l => A.entry i l * v.getD l 0)).sum := by
  simp [Mat.mulVec, List.getD_eq_getElem?_getD, List.getElem?_eq_getElem, hi]

theorem length_removeScaling (self : Anderson) (v : Vec) :
    (removeScaling self v).length = v.length := by
  simp [removeScaling, length_onTail, length_onHead]

theorem length_applyScaling (self : Anderson) (v : Vec) :
    (applyScaling self v).length = v.length := by
  simp [applyScaling, length_onTail, length_onHead]

theorem getD_removeScaling (self : Anderson) (v : Vec) (i : Nat) (hi : i < v.length) :
    (removeScaling self v).getD i 0 =
      if v.length - self.sizeVar1 ≤ i then
        (if i < self.sizeVar0 then v.getD i 0 * self.scalingFactors0 else v.getD i 0)
          * self.scalingFactors1
      else (if i < self.sizeVar0 then v.getD i 0 * self.scalingFactors0 else v.getD i 0) := by
  unfold removeScaling
  rw [getD_onTail _ _ _ _ (by rw [length_onHead]; exact hi), length_onHead,
    getD_onHead _ _ _ _ hi]

theorem getD_applyScaling (self : Anderson) (v : Vec) (i : Nat) (hi : i < v.length) :
    (applyScaling self v).getD i 0 =
      if v.length - self.sizeVar1 ≤ i then
        (if i < self.sizeVar0 then v.getD i 0 / self.scalingFactors0 else v.getD i 0)
          / self.scalingFactors1
      else (if i < self.sizeVar0 then v.getD i 0 / self.scalingFactors0 else v.getD i 0) := by
  unfold applyScaling
  rw [getD_onTail _ _ _ _ (by rw [length_onHead]; exact hi), length_onHead,
    getD_onHead _ _ _ _ hi]

theorem length_relaxationStep {E : Type} (base : PostProcessing E) (self : Anderson)
    (R yk : Vec) (h : R.length = yk.length) :
    (relaxationStep base self R yk).length = yk.length := by
  unfold relaxationStep
  split
  · rename_i hc
    simp only [Bool.and_eq_true, decide_eq_true_eq] at hc
    rw [length_mulVec, hc.2]
  · rw [length_vsmul, length_vsub, h, Nat.min_self]

/-- C1: the zero-history step. For `xk`, `R`, `yk` of equal length the
correction in scaled space is `initialRelaxation * (R - yk)`, unless
`updateJacobian` holds and `Jprev` has as many rows as `yk`, when it is
`Jprev * (yk - R)`; the new `xk` is `xk + dx`, where with scaling enabled the
first `sizeVar0` entries of `dx` are first multiplied by `scalingFactors(0)`
and the last `sizeVar1` entries by `scalingFactors(1)`. A loop iteration with
`nbCols == 0` updates `xk` by exactly this step. -/
theorem fixedUnderRelaxation_closed_form {E : Type} (base : PostProcessing E)
    (self : Anderson) (xk R yk : Vec)
    (hR : R.length = xk.length) (hy : yk.length = xk.length) :
    (relaxationStep base self R yk =
        if self.updateJacobian = true ∧ self.Jprev.rows = yk.length then
          self.Jprev.mulVec (vsub yk R)
        else vsmul base.initialRelaxation (vsub R yk)) ∧
    (¬ (self.updateJacobian = true ∧ self.Jprev.rows = yk.length) →
      ∀ i, i < xk.length → (relaxationStep base self R yk).getD i 0 =
        base.initialRelaxation * (R.getD i 0 - yk.getD i 0)) ∧
    ((self.updateJacobian = true ∧ self.Jprev.rows = yk.length) →
      ∀ i, i < xk.length → (relaxationStep base self R yk).getD i 0 =
        ((List.range self.Jprev.cols).map
          (fun l => self.Jprev.entry i l * (yk.getD l 0 - R.getD l 0))).sum) ∧
    (fixedUnderRelaxation base self xk R yk).length = xk.length ∧
    (∀ i, i < xk.length → (fixedUnderRelaxation base self xk R yk).getD i 0 =
      xk.getD i 0 +
        (if self.scaling = true then
          (if xk.length - self.sizeVar1 ≤ i then
            (if i < self.sizeVar0 then
                (relaxationStep base self R yk).getD i 0 * self.scalingFactors0
              else (relaxationStep base self R yk).getD i 0) * self.scalingFactors1
          else
            (if i < self.sizeVar0 then
                (relaxationStep base self R yk).getD i 0 * self.scalingFactors0
              else (relaxationStep base self R yk).getD i 0))
        else (relaxationStep base self R yk).getD i 0)) ∧
    (∀ (env : Env E) (l : Locals E), countColumns l.base l.xk.length = 0 →
      updateStep env l =
        .inr { l with xk := fixedUnderRelaxation l.base l.self l.xk l.R l.yk }) := by
  have hRy : R.length = yk.length := by rw [hR, hy]
  have hlen := length_relaxationStep base self R yk hRy
  refine ⟨?_, ?_, ?_, ?_, ?_, ?_⟩
  rotate_left 5
  · intro env l h0
    unfold updateStep
    simp [h0]
  · unfold relaxationStep
    by_cases hc : self.updateJacobian = true ∧ self.Jprev.rows = yk.length
    · simp [hc.1, hc.2]
    · have hc2 : (self.updateJacobian && decide (self.Jprev.rows = yk.length)) = false := by
        rcases Bool.eq_false_or_eq_true self.updateJacobian with hu | hu
        · have : ¬ self.Jprev.rows = yk.length := fun h => hc ⟨hu, h⟩
          simp [this]
        · simp [hu]
      rw [hc2, if_neg hc]; simp
  · intro hc i _
    have hc2 : (self.updateJacobian && decide (self.Jprev.rows = yk.length)) = false := by
      rcases Bool.eq_false_or_eq_true self.updateJacobian with hu | hu
      · have : ¬ self.Jprev.rows = yk.length := fun h => hc ⟨hu, h⟩
        simp [this]
      · simp [hu]
    unfold relaxationStep
    rw [hc2]
    simp only [Bool.false_eq_true, if_false]
    rw [getD_vsmul, getD_vsub _ _ _ hRy]
  · intro hc i hi
    have hc2 : (self.updateJacobian && decide (self.Jprev.rows = yk.length)) = true := by
      simp [hc.1, hc.2]
    unfold relaxationStep
    rw [hc2]
    simp only [if_true]
    rw [getD_mulVec _ _ _ (by rw [hc.2, hy]; exact hi)]
    congr 1
    apply List.map_congr_left
    intro l _
    rw [getD_vsub _ _ _ hRy.symm]
  · unfold fixedUnderRelaxation
    simp only
    split
    · rw [length_vadd, length_removeScaling, hlen, hy, Nat.min_self]
    · rw [length_vadd, hlen, hy, Nat.min_self]
  · intro i hi
    unfold fixedUnderRelaxation
    simp only
    by_cases hs : self.scaling = true
    · rw [if_pos hs, if_pos hs, getD_vadd _ _ _ (by rw [length_removeScaling, hlen, hy]),
        getD_removeScaling _ _ _ (by rw [hlen, hy]; exact hi), hlen, hy]
    · rw [if_neg hs, if_neg hs, getD_vadd _ _ _ (by rw [hlen, hy])]

/-- C1, at a concrete input: scaling on, no cached Jacobian. -/
theorem fixedUnderRelaxation_closed_form_witness :
    ([3, 4] : Vec).length = ([1, 2] : Vec).length ∧
    ([0, 0] : Vec).length = ([1, 2] : Vec).length ∧
    fixedUnderRelaxation sampleBase sampleSelf [1, 2] [3, 4] [0, 0] = [151, 4] ∧
    (∀ i, i < ([1, 2] : Vec).length →
      (relaxationStep sampleBase sampleSelf [3, 4] [0, 0]).getD i 0 =
        sampleBase.initialRelaxation * (([3, 4] : Vec).getD i 0 - ([0, 0] : Vec).getD i 0)) :=
  ⟨rfl, rfl, by
    norm_num [fixedUnderRelaxation, relaxationStep, removeScaling, onHead, onTail, vadd, vsub,
      vsmul, sampleBase, sampleSelf, Mat.empty],
   (fixedUnderRelaxation_closed_form sampleBase sampleSelf [1, 2] [3, 4] [0, 0] rfl rfl).2.1
     (by simp [sampleSelf])⟩

/-! ## Scaling round trip -/

/-- C2: with non-zero scaling factors, `applyScaling` followed by the
un-scaling applied to `dx` returns the vector it started from, and so does
every column of a matrix scaled by the matrix overload. -/
theorem scaling_round_trip (self : Anderson)
    (h0 : self.scalingFactors0 ≠ 0) (h1 : self.scalingFactors1 ≠ 0) (v : Vec) (M : Mat) :
    removeScaling self (applyScaling self v) = v ∧
    (applyScalingMat self M).rows = M.rows ∧
    (applyScalingMat self M).colv.map (removeScaling self) = M.colv := by
  have key : ∀ w : Vec, removeScaling self (applyScaling self w) = w := by
    intro w
    apply ext_getD
    · rw [length_removeScaling, length_applyScaling]
    · intro i hi
      rw [length_removeScaling, length_applyScaling] at hi
      rw [getD_removeScaling _ _ _ (by rw [length_applyScaling]; exact hi),
        length_applyScaling, getD_applyScaling _ _ _ hi]
      by_cases ha : w.length - self.sizeVar1 ≤ i <;> by_cases hb : i < self.sizeVar0 <;>
        simp only [ha, hb, if_true, if_false] <;>
          first | rfl | (field_simp; done) | (field_simp; ring)
  refine ⟨key v, rfl, ?_⟩
  have : ∀ cs : List Vec,
      (cs.map (fun c =>
        onTail self.sizeVar1 (fun x => x / self.scalingFactors1)
          (onHead self.sizeVar0 (fun x => x / self.scalingFactors0) c))).map
        (removeScaling self) = cs := by
    intro cs
    induction cs with
    | nil => rfl
    | cons c cs ih =>
      simp only [List.map_cons, List.map_map] at ih ⊢
      rw [ih]
      exact congrArg (fun t => t :: cs) (key c)
  exact this M.colv

/-- C2, at a concrete input with factors `100` and `1`. -/
theorem scaling_round_trip_witness :
    sampleSelf.scalingFactors0 ≠ 0 ∧ sampleSelf.scalingFactors1 ≠ 0 ∧
    applyScaling sampleSelf [100, 1] = [1, 1] ∧
    removeScaling sampleSelf (applyScaling sampleSelf [100, 1]) = [100, 1] :=
  ⟨by norm_num [sampleSelf], by norm_num [sampleSelf],
   by norm_num [applyScaling, onHead, onTail, sampleSelf],
   (scaling_round_trip sampleSelf (by norm_num [sampleSelf]) (by norm_num [sampleSelf])
     [100, 1] Mat.empty).1⟩

/-! ## Truncated pseudoinverse -/

theorem sum_map_range (n : Nat) (f : Nat → ℚ) :
    ((List.range n).map f).sum = ∑ l in Finset.range n, f l := by
  induction n with
  | zero => simp
  | succ n ih => rw [List.range_succ, List.map_append, List.sum_append, ih, Finset.sum_range_succ]; simp

theorem rows_ofFn (r c : Nat) (f : Nat → Nat → ℚ) : (Mat.ofFn r c f).rows = r := rfl

theorem cols_ofFn (r c : Nat) (f : Nat → Nat → ℚ) : (Mat.ofFn r c f).cols = c := by
  simp [Mat.ofFn, Mat.cols]

theorem entry_ofFn (r c : Nat) (f : Nat → Nat → ℚ) (i j : Nat) :
    (Mat.ofFn r c f).entry i j = if i < r ∧ j < c then f i j else 0 := by
  unfold Mat.entry Mat.ofFn
  by_cases hj : j < c
  · by_cases hi : i < r
    · simp [List.getD_eq_getElem?_getD, List.getElem?_eq_getElem, hi, hj]
    · simp [List.getD_eq_getElem?_getD, List.getElem?_eq_getElem, hi, hj,
        List.getElem?_eq_none, Nat.le_of_not_lt hi]
  · simp [List.getD_eq_getElem?_getD, hj, List.getElem?_eq_none, Nat.le_of_not_lt hj]

theorem entry_eq_zero_of_cols_le (A : Mat) (i j : Nat) (h : A.cols ≤ j) : A.entry i j = 0 := by
  unfold Mat.entry
  unfold Mat.cols at h
  simp [List.getD_eq_getElem?_getD, List.getElem?_eq_none, h]

theorem entry_mul (A B : Mat) (i j : Nat) :
    (A.mul B).entry i j =
      if i < A.rows ∧ j < B.cols then ∑ l in Finset.range A.cols, A.entry i l * B.entry l j
      else 0 := by
  unfold Mat.mul
  rw [entry_ofFn, sum_map_range]

theorem entry_transpose (A : Mat) (i j : Nat) :
    A.transpose.entry i j = if i < A.cols ∧ j < A.rows then A.entry j i else 0 := by
  unfold Mat.transpose
  rw [entry_ofFn]

theorem entry_asDiagonal (v : Vec) (i j : Nat) :
    (Mat.asDiagonal v).entry i j = if i = j then v.getD i 0 else 0 := by
  unfold Mat.asDiagonal
  rw [entry_ofFn]
  by_cases h : i = j
  · subst h
    by_cases hi : i < v.length
    · simp [hi]
    · simp [hi, List.getD_eq_getElem?_getD, List.getElem?_eq_none, Nat.le_of_not_lt hi]
  · simp [h]

theorem length_singularValuesInv (lim : ℚ) (s : Vec) :
    (singularValuesInv lim s).length = s.length := by
  simp [singularValuesInv]

theorem getD_singularValuesInv (lim : ℚ) (s : Vec) (i : Nat) (hi : i < s.length) :
    (singularValuesInv lim s).getD i 0 = if s.getD i 0 > lim then 1 / s.getD i 0 else 0 := by
  simp [singularValuesInv, List.getD_eq_getElem?_getD, List.getElem?_eq_getElem, hi]

theorem getD_singularValuesInv_of_le (lim : ℚ) (s : Vec) (i : Nat) (hi : s.length ≤ i) :
    (singularValuesInv lim s).getD i 0 = 0 := by
  simp [singularValuesInv, List.getD_eq_getElem?_getD, List.getElem?_eq_none, hi]

theorem sum_range_restrict (n m : Nat) (f : Nat → ℚ) (hn : ∀ l, n ≤ l → f l = 0)
    (hm : ∀ l, m ≤ l → f l = 0) :
    ∑ l in Finset.range n, f l = ∑ l in Finset.range m, f l := by
  have h1 : ∑ l in Finset.range n, f l = ∑ l in Finset.range (max n m), f l := by
    apply Finset.sum_subset
    · intro x hx
      simp only [Finset.mem_range] at hx ⊢
      exact lt_of_lt_of_le hx (le_max_left n m)
    · intro x _ hx
      simp only [Finset.mem_range, not_lt] at hx
      exact hn x hx
  have h2 : ∑ l in Finset.range m, f l = ∑ l in Finset.range (max n m), f l := by
    apply Finset.sum_subset
    · intro x hx
      simp only [Finset.mem_range] at hx ⊢
      exact lt_of_lt_of_le hx (le_max_right n m)
    · intro x _ hx
      simp only [Finset.mem_range, not_lt] at hx
      exact hm x hx
  rw [h1, h2]

theorem entry_mul_asDiagonal (A : Mat) (d : Vec) (i j : Nat) (hi : i < A.rows)
    (hj : j < d.length) :
    (A.mul (Mat.asDiagonal d)).entry i j = A.entry i j * d.getD j 0 := by
  rw [entry_mul]
  have hc : (Mat.asDiagonal d).cols = d.length := by unfold Mat.asDiagonal; rw [cols_ofFn]
  rw [hc, if_pos ⟨hi, hj⟩]
  have : ∀ l ∈ Finset.range A.cols,
      A.entry i l * (Mat.asDiagonal d).entry l j = if l = j then A.entry i j * d.getD j 0 else 0 := by
    intro l _
    rw [entry_asDiagonal]
    by_cases h : l = j
    · subst h; simp
    · simp [h]
  rw [Finset.sum_congr rfl this, Finset.sum_ite_eq']
  by_cases hjc : j < A.cols
  · simp [hjc]
  · simp [hjc, entry_eq_zero_of_cols_le A i j (Nat.le_of_not_lt hjc)]

theorem getD_transpose_mulVec (U : Mat) (b : Vec) (l : Nat) :
    (U.transpose.mulVec b).getD l 0 = ∑ p in Finset.range U.rows, U.entry p l * b.getD p 0 := by
  have hr : U.transpose.rows = U.cols := rfl
  have hc : U.transpose.cols = U.rows := by unfold Mat.transpose; rw [cols_ofFn]
  by_cases hl : l < U.cols
  · rw [getD_mulVec _ _ _ (by rw [hr]; exact hl), sum_map_range, hc]
    apply Finset.sum_congr rfl
    intro p hp
    rw [entry_transpose, if_pos ⟨hl, Finset.mem_range.mp hp⟩]
  · have h0 : (U.transpose.mulVec b).getD l 0 = 0 := by
      simp [List.getD_eq_getElem?_getD, List.getElem?_eq_none, length_mulVec, hr,
        Nat.le_of_not_lt hl]
    rw [h0]
    symm
    apply Finset.sum_eq_zero
    intro p _
    rw [entry_eq_zero_of_cols_le U p l (Nat.le_of_not_lt hl), zero_mul]

theorem getD_asDiagonal_mulVec (d t : Vec) (l : Nat) :
    ((Mat.asDiagonal d).mulVec t).getD l 0 = d.getD l 0 * t.getD l 0 := by
  have hr : (Mat.asDiagonal d).rows = d.length := rfl
  have hc : (Mat.asDiagonal d).cols = d.length := by unfold Mat.asDiagonal; rw [cols_ofFn]
  by_cases hl : l < d.length
  · rw [getD_mulVec _ _ _ (by rw [hr]; exact hl), sum_map_range, hc]
    have : ∀ m ∈ Finset.range d.length,
        (Mat.asDiagonal d).entry l m * t.getD m 0 =
          if m = l then d.getD l 0 * t.getD l 0 else 0 := by
      intro m _
      rw [entry_asDiagonal]
      by_cases h : l = m
      · subst h; simp
      · have h2 : ¬ m = l := fun e => h e.symm
        simp [h, h2]
    rw [Finset.sum_congr rfl this, Finset.sum_ite_eq']
    simp [hl]
  · have h0 : ((Mat.asDiagonal d).mulVec t).getD l 0 = 0 := by
      simp [List.getD_eq_getElem?_getD, List.getElem?_eq_none, length_mulVec, hr,
        Nat.le_of_not_lt hl]
    have h1 : d.getD l 0 = 0 := by
      simp [List.getD_eq_getElem?_getD, List.getElem?_eq_none, Nat.le_of_not_lt hl]
    rw [h0, h1, zero_mul]

/-- C3: hard truncation. Entry `i` of `singularValues_inv` is `1 / sigma_i`
when `sigma_i > singularityLimit` and `0` otherwise; hence every coefficient of
the pseudoinverse `Vinverse` and of the coefficient vector `c` is a sum over
the singular modes with `sigma_l > singularityLimit` alone. -/
theorem truncation_zero_contribution (lim : ℚ) (svd : SVD) (b : Vec) :
    (singularValuesInv lim svd.singularValues).length = svd.singularValues.length ∧
    (∀ i, i < svd.singularValues.length →
      (singularValuesInv lim svd.singularValues).getD i 0 =
        if svd.singularValues.getD i 0 > lim then 1 / svd.singularValues.getD i 0 else 0) ∧
    (∀ i, i < svd.singularValues.length → svd.singularValues.getD i 0 = lim →
      (singularValuesInv lim svd.singularValues).getD i 0 = 0) ∧
    (∀ a c, a < svd.matrixV.rows → c < svd.matrixU.rows →
      (Vinverse lim svd).entry a c =
        ∑ l in (Finset.range svd.singularValues.length).filter
            (fun l => svd.singularValues.getD l 0 > lim),
          svd.matrixV.entry a l * (1 / svd.singularValues.getD l 0) * svd.matrixU.entry c l) ∧
    (∀ a, a < svd.matrixV.rows →
      (coefficients lim svd b).getD a 0 =
        ∑ l in (Finset.range svd.singularValues.length).filter
            (fun l => svd.singularValues.getD l 0 > lim),
          svd.matrixV.entry a l * (1 / svd.singularValues.getD l 0) *
            ∑ p in Finset.range svd.matrixU.rows, svd.matrixU.entry p l * b.getD p 0) := by
  have hinv : ∀ l, l < svd.singularValues.length →
      (singularValuesInv lim svd.singularValues).getD l 0 =
        if svd.singularValues.getD l 0 > lim then 1 / svd.singularValues.getD l 0 else 0 :=
    fun l hl => getD_singularValuesInv lim svd.singularValues l hl
  have hDc : (Mat.asDiagonal (singularValuesInv lim svd.singularValues)).cols =
      svd.singularValues.length := by
    unfold Mat.asDiagonal; rw [cols_ofFn, length_singularValuesInv]
  refine ⟨length_singularValuesInv lim _, hinv, ?_, ?_, ?_⟩
  · intro i hi he
    rw [hinv i hi, he]
    simp
  · intro a c ha hc
    unfold Vinverse
    rw [entry_mul]
    have hrows : (svd.matrixV.mul
        (Mat.asDiagonal (singularValuesInv lim svd.singularValues))).rows = svd.matrixV.rows := rfl
    have hcols : (svd.matrixV.mul
        (Mat.asDiagonal (singularValuesInv lim svd.singularValues))).cols =
          svd.singularValues.length := by
      unfold Mat.mul; rw [cols_ofFn, hDc]
    have hUc : svd.matrixU.transpose.cols = svd.matrixU.rows := by
      unfold Mat.transpose; rw [cols_ofFn]
    rw [hrows, hcols, hUc, if_pos ⟨ha, hc⟩, Finset.sum_filter]
    apply Finset.sum_congr rfl
    intro l hl
    have hl2 : l < svd.singularValues.length := Finset.mem_range.mp hl
    rw [entry_mul_asDiagonal _ _ _ _ ha (by rw [length_singularValuesInv]; exact hl2),
      hinv l hl2, entry_transpose]
    have hU : (if l < svd.matrixU.cols ∧ c < svd.matrixU.rows then svd.matrixU.entry c l
        else 0) = svd.matrixU.entry c l := by
      by_cases hlU : l < svd.matrixU.cols
      · rw [if_pos ⟨hlU, hc⟩]
      · rw [if_neg (fun h => hlU h.1),
          entry_eq_zero_of_cols_le svd.matrixU c l (Nat.le_of_not_lt hlU)]
    rw [hU]
    by_cases hs : svd.singularValues.getD l 0 > lim
    · rw [if_pos hs, if_pos hs]
    · rw [if_neg hs, if_neg hs, mul_zero, zero_mul]
  · intro a ha
    unfold coefficients
    rw [getD_mulVec _ _ _ ha, sum_map_range]
    have hterm : ∀ l, svd.matrixV.entry a l *
        ((Mat.asDiagonal (singularValuesInv lim svd.singularValues)).mulVec
          (svd.matrixU.transpose.mulVec b)).getD l 0 =
        svd.matrixV.entry a l * ((singularValuesInv lim svd.singularValues).getD l 0 *
          ∑ p in Finset.range svd.matrixU.rows, svd.matrixU.entry p l * b.getD p 0) := by
      intro l
      rw [getD_asDiagonal_mulVec, getD_transpose_mulVec]
    rw [Finset.sum_congr rfl (fun l _ => hterm l)]
    rw [sum_range_restrict svd.matrixV.cols svd.singularValues.length _
      (fun l hl => by rw [entry_eq_zero_of_cols_le _ _ _ hl, zero_mul])
      (fun l hl => by rw [getD_singularValuesInv_of_le _ _ _ hl, zero_mul, mul_zero]),
      Finset.sum_filter]
    apply Finset.sum_congr rfl
    intro l hl
    have hl2 : l < svd.singularValues.length := Finset.mem_range.mp hl
    rw [hinv l hl2]
    by_cases hs : svd.singularValues.getD l 0 > lim
    · rw [if_pos hs, if_pos hs, mul_assoc]
    · rw [if_neg hs, if_neg hs, zero_mul, mul_zero]

/-! ## Construction of V and W -/

theorem places_refl (f : Fill) (h : f.V.length = f.W.length) : Places f f [] [] :=
  ⟨h, rfl, rfl⟩

theorem places_append {f f1 f2 : Fill} {a b c d : List Vec}
    (h1 : Places f f1 a b) (h2 : Places f1 f2 c d) : Places f f2 (a ++ c) (b ++ d) := by
  refine ⟨h2.1, ?_, ?_⟩
  · rw [List.foldl_append, ← h1.2.1]; exact h2.2.1
  · rw [List.foldl_append, ← h1.2.2]; exact h2.2.2

theorem foldlM_places {ι : Type} (step : Fill → ι → Except Status Fill)
    (dR dX : ι → List Vec) (idx : List ι)
    (hstep : ∀ i ∈ idx, ∀ f f1, f.V.length = f.W.length → step f i = .ok f1 →
      Places f f1 (dR i) (dX i)) :
    ∀ f f1, f.V.length = f.W.length → idx.foldlM step f = .ok f1 →
      Places f f1 (idx.map dR).flatten (idx.map dX).flatten := by
  induction idx with
  | nil =>
    intro f f1 hl h
    simp only [List.foldlM_nil, pure, Except.pure, Except.ok.injEq] at h
    subst h
    exact places_refl f hl
  | cons a l ih =>
    intro f f1 hl h
    rw [List.foldlM_cons] at h
    cases hs : step f a with
    | error e => rw [hs] at h; simp [bind, Except.bind] at h
    | ok f0 =>
      rw [hs] at h
      simp only [bind, Except.bind] at h
      have p1 := hstep a (List.mem_cons_self a l) f f0 hl hs
      have p2 := ih (fun i hi => hstep i (List.mem_cons_of_mem a hi)) f0 f1 p1.1 h
      simp only [List.map_cons, List.flatten_cons]
      exact places_append p1 p2

theorem fillStep_places (rw : List Vec) (sw : Option (List Vec)) (f f1 : Fill) (k : Nat)
    (hl : f.V.length = f.W.length) (h : fillStep rw sw f k = .ok f1) :
    Places f f1 [vsub (rw.getD k []) (rw.getD (k + 1) [])]
      [vsub ((sw.getD []).getD k []) ((sw.getD []).getD (k + 1) [])] := by
  unfold fillStep at h
  by_cases hc : f.colIndex ≥ f.V.length
  · rw [if_pos hc] at h
    simp only [Except.ok.injEq] at h
    subst h
    refine ⟨hl, ?_, ?_⟩
    · simp [place, hc]
    · have hc2 : f.colIndex ≥ f.W.length := hl ▸ hc
      simp [place, hc2]
  · rw [if_neg hc] at h
    split at h
    · rename_i r0 r1 s0 s1 h0 h1 h2 h3
      simp only [Except.ok.injEq] at h
      subst h
      cases sw with
      | none => simp at h2
      | some w =>
        change w[k]? = some s0 at h2
        change w[k + 1]? = some s1 at h3
        have hc2 : ¬ f.colIndex ≥ f.W.length := hl ▸ hc
        refine ⟨by simp [hl], ?_, ?_⟩
        · simp [place, hc, h0, h1]
        · simp [place, hc2, h2, h3]
    · simp at h

theorem flatten_map_singleton {α β : Type} (l : List α) (g : α → β) :
    (l.map (fun x => [g x])).flatten = l.map g := by
  induction l with
  | nil => rfl
  | cons a l ih => simp [ih]

theorem fillWindow_places (rw : List Vec) (sw : Option (List Vec)) (f f1 : Fill)
    (hl : f.V.length = f.W.length) (h : fillWindow rw sw f = .ok f1) :
    Places f f1 (windowDiffs rw) (diffsUpTo (rw.length - 1) (sw.getD [])) := by
  unfold fillWindow at h
  split at h
  · simp at h
  · have := foldlM_places (fun f k => fillStep rw sw f k)
      (fun k => [vsub (rw.getD k []) (rw.getD (k + 1) [])])
      (fun k => [vsub ((sw.getD []).getD k []) ((sw.getD []).getD (k + 1) [])])
      (List.range (rw.length - 1))
      (fun k _ f f1 hl h => fillStep_places rw sw f f1 k hl h) f f1 hl h
    rw [flatten_map_singleton, flatten_map_singleton] at this
    exact this

theorem map_getD_range {α β : Type} (l : List α) (d : α) (g : α → β) :
    (List.range l.length).map (fun j => g (l.getD j d)) = l.map g := by
  apply List.ext_getElem
  · simp
  · intro i h1 h2
    simp at h1
    simp [List.getD_eq_getElem?_getD, List.getElem?_eq_getElem, h1]

theorem map_getD_congr {α β : Type} (g : α → β) (a b : List α) (d : α)
    (h : a.map g = b.map g) (j : Nat) : g (a.getD j d) = g (b.getD j d) := by
  have ha := List.getD_map (l := a) (d := d) (n := j) g
  have hb := List.getD_map (l := b) (d := d) (n := j) g
  rw [← ha, ← hb, h]

theorem fillGroup_places (rs ss : List (List Vec))
    (hs : ss.map List.length = rs.map List.length) (f f1 : Fill)
    (hl : f.V.length = f.W.length) (h : fillGroup rs (some ss) f = .ok f1) :
    Places f f1 (rs.map windowDiffs).flatten (ss.map windowDiffs).flatten := by
  unfold fillGroup at h
  have hlen : ss.length = rs.length := by
    have := congrArg List.length hs
    simpa using this
  have key := foldlM_places
    (fun f j => fillWindow (rs.getD j []) ((some ss).bind (fun g => g[j]?)) f)
    (fun j => windowDiffs (rs.getD j [])) (fun j => windowDiffs (ss.getD j []))
    (List.range rs.length)
    (fun j _ f f1 hl h => by
      have p := fillWindow_places _ _ f f1 hl h
      have e1 : ((some ss).bind (fun g => g[j]?)).getD [] = ss.getD j [] := by
        simp [List.getD_eq_getElem?_getD]
      have e2 : (rs.getD j []).length = (ss.getD j []).length :=
        (map_getD_congr List.length ss rs [] hs j).symm
      rw [e1, e2] at p
      exact p) f f1 hl h
  rw [map_getD_range rs [] windowDiffs] at key
  rw [← hlen, map_getD_range ss [] windowDiffs] at key
  exact key

theorem fillStages_places (rst sst : List (List (List Vec)))
    (hs : stageShape sst = stageShape rst) (f f1 : Fill)
    (hl : f.V.length = f.W.length) (h : fillStages rst sst f = .ok f1) :
    Places f f1 (stageDiffs rst) (stageDiffs sst) := by
  unfold fillStages at h
  have hlen : sst.length = rst.length := by
    have := congrArg List.length hs
    simpa [stageShape] using this
  have key := foldlM_places
    (fun f i => fillGroup (rst.getD i []) sst[i]? f)
    (fun i => ((rst.getD i []).map windowDiffs).flatten)
    (fun i => ((sst.getD i []).map windowDiffs).flatten)
    (List.range rst.length).reverse
    (fun i hi f f1 hl h => by
      have hi2 : i < sst.length := by
        rw [hlen]; simpa using hi
      have e1 : sst[i]? = some (sst.getD i []) := by
        simp [List.getD_eq_getElem?_getD, List.getElem?_eq_getElem, hi2]
      beta_reduce at h
      rw [e1] at h
      exact fillGroup_places _ _
        (map_getD_congr (fun g : List (List Vec) => List.map List.length g) sst rst [] hs i) f f1 hl h) f f1 hl h
  rw [List.map_reverse, List.map_reverse,
    map_getD_range rst [] (fun g => (g.map windowDiffs).flatten)] at key
  rw [← hlen, map_getD_range sst [] (fun g => (g.map windowDiffs).flatten)] at key
  unfold stageDiffs
  rw [List.map_reverse, List.map_reverse]
  exact key

theorem fillTimes_places (rtl stl : List (List (List (List Vec))))
    (hs : timeShape stl = timeShape rtl) (f f1 : Fill)
    (hl : f.V.length = f.W.length) (h : fillTimes rtl stl f = .ok f1) :
    Places f f1 (timeDiffs rtl) (timeDiffs stl) := by
  unfold fillTimes at h
  have hlen : stl.length = rtl.length := by
    have := congrArg List.length hs
    simpa [timeShape] using this
  have key := foldlM_places
    (fun f i => fillStages (rtl.getD i []) ((stl[i]?).getD []) f)
    (fun i => stageDiffs (rtl.getD i []))
    (fun i => stageDiffs (stl.getD i []))
    (List.range rtl.length)
    (fun i _ f f1 hl h => by
      have e1 : (stl[i]?).getD [] = stl.getD i [] := by
        simp [List.getD_eq_getElem?_getD]
      beta_reduce at h
      rw [e1] at h
      exact fillStages_places _ _ (map_getD_congr stageShape stl rtl [] hs i) f f1 hl h)
    f f1 hl h
  rw [map_getD_range rtl [] stageDiffs] at key
  rw [← hlen, map_getD_range stl [] stageDiffs] at key
  exact key

theorem length_foldl_place (ds : List Vec) : ∀ (s : List Vec × Nat),
    (ds.foldl place s).1.length = s.1.length := by
  induction ds with
  | nil => intro s; rfl
  | cons d ds ih =>
    intro s
    rw [List.foldl_cons, ih]
    unfold place
    split
    · rfl
    · simp

theorem diffsUpTo_succ (m : Nat) (h : List Vec) :
    diffsUpTo (m + 1) h = diffsUpTo m h ++ [vsub (h.getD m []) (h.getD (m + 1) [])] := by
  unfold diffsUpTo
  rw [List.range_succ, List.map_append]
  rfl

theorem fillCurrent_places (res sols : List Vec) : ∀ (m : Nat) (f0 f1 : Fill),
    f0.V.length = f0.W.length → f0.colIndex = 0 → m ≤ f0.V.length →
    (List.range m).foldlM (fun f i => fillCurrent res sols f i) f0 = .ok f1 →
    f1.colIndex = m ∧ Places f0 f1 (diffsUpTo m res) (diffsUpTo m sols) := by
  intro m
  induction m with
  | zero =>
    intro f0 f1 hl hc _ h
    simp only [List.range_zero, List.foldlM_nil, pure, Except.pure, Except.ok.injEq] at h
    subst h
    exact ⟨hc, places_refl f0 hl⟩
  | succ m ih =>
    intro f0 f1 hl hc hm h
    rw [List.range_succ, List.foldlM_append] at h
    cases hs : (List.range m).foldlM (fun f i => fillCurrent res sols f i) f0 with
    | error e => rw [hs] at h; simp [bind, Except.bind] at h
    | ok fm =>
      rw [hs] at h
      simp only [bind, Except.bind, List.foldlM_cons, List.foldlM_nil, pure, Except.pure] at h
      obtain ⟨hcm, pm⟩ := ih f0 fm hl hc (Nat.le_of_succ_le hm) hs
      have hVm : fm.V.length = f0.V.length := by
        have := congrArg (fun s => s.1.length) pm.2.1
        simp only [length_foldl_place] at this
        exact this
      have hnc : ¬ fm.colIndex ≥ fm.V.length := by rw [hcm, hVm]; omega
      cases hq : fillCurrent res sols fm m with
      | error e => rw [hq] at h; simp at h
      | ok v =>
        rw [hq] at h
        simp only [Except.ok.injEq] at h
        subst h
        unfold fillCurrent at hq
        rw [if_neg hnc] at hq
        split at hq
        · rename_i r0 r1 s0 s1 h0 h1 h2 h3
          simp only [Except.ok.injEq] at hq
          subst hq
          refine ⟨by simp [hcm], ?_⟩
          rw [diffsUpTo_succ, diffsUpTo_succ]
          refine places_append pm ⟨by simp [pm.1], ?_, ?_⟩
          · have hnc1 : ¬ m ≥ fm.V.length := hcm ▸ hnc
            simp [place, hcm, hnc1, h0, h1]
          · have hnc2 : ¬ m ≥ fm.W.length := by rw [← pm.1]; exact hcm ▸ hnc
            simp [place, hcm, hnc2, h2, h3]
        · simp at hq

theorem foldl_place_spec (ds : List Vec) : ∀ (cols : List Vec) (c : Nat), c ≤ cols.length →
    (ds.foldl place (cols, c)).2 = min cols.length (c + ds.length) ∧
    (ds.foldl place (cols, c)).1.take (ds.foldl place (cols, c)).2 =
      cols.take c ++ ds.take (cols.length - c) := by
  induction ds with
  | nil =>
    intro cols c hc
    simp [Nat.min_eq_right hc]
  | cons d ds ih =>
    intro cols c hc
    rw [List.foldl_cons]
    by_cases hfull : c ≥ cols.length
    · have hp : place (cols, c) d = (cols, c) := by simp [place, hfull]
      have hc0 : cols.length - c = 0 := by omega
      rw [hp]
      obtain ⟨i1, i2⟩ := ih cols c hc
      rw [i1, hc0] at i2
      rw [i1, hc0]
      refine ⟨?_, ?_⟩
      · simp only [List.length_cons]; omega
      · simpa using i2
    · have hlt : c < cols.length := Nat.lt_of_not_le hfull
      have hp : place (cols, c) d = (cols.set c d, c + 1) := by simp [place, hfull]
      rw [hp]
      obtain ⟨i1, i2⟩ := ih (cols.set c d) (c + 1) (by simp; omega)
      rw [i1] at i2
      rw [i1]
      simp only [List.length_set] at i2 ⊢
      refine ⟨?_, ?_⟩
      · simp only [List.length_cons]; omega
      · rw [i2]
        have ht : (cols.set c d).take (c + 1) = cols.take c ++ [d] := by
          rw [List.take_succ, List.set_take,
            List.set_eq_of_length_le (by simp : (cols.take c).length ≤ c)]
          simp [List.getElem?_set, hlt]
        have hd : cols.length - c = (cols.length - (c + 1)) + 1 := by omega
        rw [ht, hd, List.take_succ_cons]
        simp

theorem take_diffsUpTo_min (L n : Nat) (h X : List Vec) :
    (diffsUpTo (min L n) h ++ X).take n = (diffsUpTo L h ++ X).take n := by
  by_cases hLn : L ≤ n
  · rw [Nat.min_eq_left hLn]
  · have hn : n ≤ L := Nat.le_of_lt (Nat.lt_of_not_le hLn)
    rw [Nat.min_eq_right hn]
    have l1 : (diffsUpTo n h).length = n := by simp [diffsUpTo]
    have l2 : n ≤ (diffsUpTo L h).length := by simp [diffsUpTo]; exact hn
    rw [List.take_append_of_le_length (Nat.le_of_eq l1.symm),
      List.take_append_of_le_length l2]
    unfold diffsUpTo
    rw [← List.map_take, ← List.map_take, List.take_range, List.take_range, Nat.min_self,
      Nat.min_eq_left hn]

theorem constructVW_places {E : Type} (base : PostProcessing E) (rows n : Nat) (V W : Mat)
    (hcur : base.sols.length = base.residuals.length)
    (hst : stageShape base.solsStageList = stageShape base.residualsStageList)
    (htl : timeShape base.solsTimeList = timeShape base.residualsTimeList)
    (h : constructVW base rows n = .ok (V, W)) :
    V = ⟨rows, (diffSequence base.residuals base.residualsStageList
        base.residualsTimeList).take n⟩ ∧
    W = ⟨rows, (diffSequence base.sols base.solsStageList base.solsTimeList).take n⟩ := by
  unfold constructVW fillLoops at h
  simp only [bind, Except.bind] at h
  generalize hm : (min (max (windowColumns base.sols) 0) (n : Int)).toNat = m at h
  have hmn : m = min (base.sols.length - 1) n := by
    rw [← hm]; unfold windowColumns; omega
  generalize hblank : List.replicate n (List.replicate rows (0 : ℚ)) = blank at h
  have hbl : blank.length = n := by rw [← hblank]; simp
  cases h1 : (List.range m).foldlM (fun f i => fillCurrent base.residuals base.sols f i)
      (⟨blank, blank, 0, []⟩ : Fill) with
  | error e => rw [h1] at h; simp at h
  | ok f1 =>
    rw [h1] at h
    simp only at h
    obtain ⟨_, p1⟩ := fillCurrent_places base.residuals base.sols m ⟨blank, blank, 0, []⟩ f1 rfl rfl
      (by simp only [hbl, hmn]; omega) h1
    cases h2 : fillStages base.residualsStageList base.solsStageList f1 with
    | error e => rw [h2] at h; simp at h
    | ok f2 =>
      rw [h2] at h
      simp only at h
      have p2 := fillStages_places _ _ hst f1 f2 p1.1 h2
      cases h3 : fillTimes base.residualsTimeList base.solsTimeList f2 with
      | error e => rw [h3] at h; simp at h
      | ok f3 =>
        rw [h3] at h
        simp only at h
        have p3 := fillTimes_places _ _ htl f2 f3 p2.1 h3
        split at h
        · simp at h
        · rename_i hcol
          simp only [ne_eq, Decidable.not_not] at hcol
          simp only [Except.ok.injEq, Prod.mk.injEq] at h
          have pp := places_append (places_append p1 p2) p3
          have sV := foldl_place_spec (diffsUpTo m base.residuals ++
            stageDiffs base.residualsStageList ++ timeDiffs base.residualsTimeList) blank 0
            (Nat.zero_le _)
          have sW := foldl_place_spec (diffsUpTo m base.sols ++
            stageDiffs base.solsStageList ++ timeDiffs base.solsTimeList) blank 0
            (Nat.zero_le _)
          have eV := pp.2.1
          have eW := pp.2.2
          simp only at eV eW
          rw [← eV] at sV
          rw [← eW] at sW
          simp only [List.take_zero, List.nil_append, Nat.sub_zero, hbl] at sV sW
          have lV : f3.V.length = n := by
            have := congrArg (fun s => s.1.length) eV
            simp only [length_foldl_place, hbl] at this
            exact this
          have lW : f3.W.length = n := by rw [← pp.1]; exact lV
          have tV : f3.V.take f3.colIndex = f3.V := by
            rw [hcol, ← lV]; exact List.take_length f3.V
          have tW : f3.W.take f3.colIndex = f3.W := by
            rw [hcol, ← lW]; exact List.take_length f3.W
          rw [tV] at sV
          rw [tW] at sW
          have cV : f3.V = (diffSequence base.residuals base.residualsStageList
              base.residualsTimeList).take n := by
            rw [sV.2]
            unfold diffSequence windowDiffs
            rw [hmn, hcur, List.append_assoc, List.append_assoc, take_diffsUpTo_min]
          have cW : f3.W = (diffSequence base.sols base.solsStageList
              base.solsTimeList).take n := by
            rw [sW.2]
            unfold diffSequence windowDiffs
            rw [hmn, List.append_assoc, List.append_assoc, take_diffsUpTo_min]
          rw [← h.1, ← h.2, cV, cW]
          exact ⟨rfl, rfl⟩

theorem foldlM_invariant {ι : Type} (P : Fill → Prop) (step : Fill → ι → Except Status Fill)
    (idx : List ι) (hstep : ∀ i f f1, P f → step f i = .ok f1 → P f1) :
    ∀ f f1, P f → idx.foldlM step f = .ok f1 → P f1 := by
  induction idx with
  | nil =>
    intro f f1 hp h
    simp only [List.foldlM_nil, pure, Except.pure, Except.ok.injEq] at h
    subst h
    exact hp
  | cons a l ih =>
    intro f f1 hp h
    rw [List.foldlM_cons] at h
    cases hs : step f a with
    | error e => rw [hs] at h; simp [bind, Except.bind] at h
    | ok f0 =>
      rw [hs] at h
      simp only [bind, Except.bind] at h
      exact ih f0 f1 (hstep a f f0 hp hs) h

theorem fillStep_length (n : Nat) (rw : List Vec) (sw : Option (List Vec)) (k : Nat)
    (f f1 : Fill) (hp : f.V.length = n ∧ f.W.length = n) (h : fillStep rw sw f k = .ok f1) :
    f1.V.length = n ∧ f1.W.length = n := by
  unfold fillStep at h
  split at h
  · simp only [Except.ok.injEq] at h; subst h; exact hp
  · split at h
    · simp only [Except.ok.injEq] at h; subst h; simpa using hp
    · simp at h

theorem fillWindow_length (n : Nat) (rw : List Vec) (sw : Option (List Vec))
    (f f1 : Fill) (hp : f.V.length = n ∧ f.W.length = n) (h : fillWindow rw sw f = .ok f1) :
    f1.V.length = n ∧ f1.W.length = n := by
  unfold fillWindow at h
  split at h
  · simp at h
  · exact foldlM_invariant (fun f => f.V.length = n ∧ f.W.length = n) _ _
      (fun k f f1 hp h => fillStep_length n rw sw k f f1 hp h) f f1 hp h

theorem fillGroup_length (n : Nat) (rs : List (List Vec)) (ss : Option (List (List Vec)))
    (f f1 : Fill) (hp : f.V.length = n ∧ f.W.length = n) (h : fillGroup rs ss f = .ok f1) :
    f1.V.length = n ∧ f1.W.length = n := by
  unfold fillGroup at h
  exact foldlM_invariant (fun f => f.V.length = n ∧ f.W.length = n) _ _
    (fun j f f1 hp h => fillWindow_length n _ _ f f1 hp h) f f1 hp h

theorem fillStages_length (n : Nat) (rst sst : List (List (List Vec)))
    (f f1 : Fill) (hp : f.V.length = n ∧ f.W.length = n) (h : fillStages rst sst f = .ok f1) :
    f1.V.length = n ∧ f1.W.length = n := by
  unfold fillStages at h
  exact foldlM_invariant (fun f => f.V.length = n ∧ f.W.length = n) _ _
    (fun j f f1 hp h => fillGroup_length n _ _ f f1 hp h) f f1 hp h

theorem fillTimes_length (n : Nat) (rtl stl : List (List (List (List Vec))))
    (f f1 : Fill) (hp : f.V.length = n ∧ f.W.length = n) (h : fillTimes rtl stl f = .ok f1) :
    f1.V.length = n ∧ f1.W.length = n := by
  unfold fillTimes at h
  exact foldlM_invariant (fun f => f.V.length = n ∧ f.W.length = n) _ _
    (fun j f f1 hp h => fillStages_length n _ _ f f1 hp h) f f1 hp h

theorem fillCurrent_length (n : Nat) (res sols : List Vec) (i : Nat)
    (f f1 : Fill) (hp : f.V.length = n ∧ f.W.length = n)
    (h : fillCurrent res sols f i = .ok f1) :
    f1.V.length = n ∧ f1.W.length = n := by
  unfold fillCurrent at h
  split at h
  · simp only [Except.ok.injEq] at h; subst h; exact hp
  · split at h
    · simp only [Except.ok.injEq] at h; subst h; simpa using hp
    · simp at h

theorem constructVW_shape {E : Type} (base : PostProcessing E) (rows n : Nat) (V W : Mat)
    (h : constructVW base rows n = .ok (V, W)) :
    V.rows = rows ∧ W.rows = rows ∧ V.cols = n ∧ W.cols = n := by
  unfold constructVW fillLoops at h
  simp only [bind, Except.bind] at h
  generalize (min (max (windowColumns base.sols) 0) (n : Int)).toNat = m at h
  generalize hblank : List.replicate n (List.replicate rows (0 : ℚ)) = blank at h
  have hbl : blank.length = n := by rw [← hblank]; simp
  cases h1 : (List.range m).foldlM (fun f i => fillCurrent base.residuals base.sols f i)
      (⟨blank, blank, 0, []⟩ : Fill) with
  | error e => rw [h1] at h; simp at h
  | ok f1 =>
    rw [h1] at h
    simp only at h
    have q1 := foldlM_invariant (fun f => f.V.length = n ∧ f.W.length = n) _ _
      (fun i f f1 hp h => fillCurrent_length n base.residuals base.sols i f f1 hp h)
      ⟨blank, blank, 0, []⟩ f1 ⟨hbl, hbl⟩ h1
    cases h2 : fillStages base.residualsStageList base.solsStageList f1 with
    | error e => rw [h2] at h; simp at h
    | ok f2 =>
      rw [h2] at h
      simp only at h
      have q2 := fillStages_length n _ _ f1 f2 q1 h2
      cases h3 : fillTimes base.residualsTimeList base.solsTimeList f2 with
      | error e => rw [h3] at h; simp at h
      | ok f3 =>
        rw [h3] at h
        simp only at h
        have q3 := fillTimes_length n _ _ f2 f3 q2 h3
        split at h
        · simp at h
        · simp only [Except.ok.injEq, Prod.mk.injEq] at h
          rw [← h.1, ← h.2]
          exact ⟨rfl, rfl, q3.1, q3.2⟩

/-! ## Number of columns -/

theorem foldl_windowColumns (ws : List (List Vec)) (a : Int) :
    ws.foldl (fun acc sols => acc + windowColumns sols) a = a + (ws.map windowColumns).sum := by
  induction ws generalizing a with
  | nil => simp
  | cons w ws ih => rw [List.foldl_cons, ih]; simp [add_assoc]

theorem foldl_stageColumns (st : List (List (List Vec))) (a : Int) :
    st.foldl (fun acc stage => stage.foldl (fun acc sols => acc + windowColumns sols) acc) a
      = a + (st.flatten.map windowColumns).sum := by
  induction st generalizing a with
  | nil => simp
  | cons g st ih =>
    rw [List.foldl_cons, ih, foldl_windowColumns]
    simp [add_assoc]

theorem foldl_timeColumns (tl : List (List (List (List Vec)))) (a : Int) :
    tl.foldl (fun acc solsStageList => solsStageList.foldl
      (fun acc solsStage => solsStage.foldl (fun acc sols => acc + windowColumns sols) acc) acc) a
      = a + (tl.flatten.flatten.map windowColumns).sum := by
  induction tl generalizing a with
  | nil => simp
  | cons g tl ih =>
    rw [List.foldl_cons, ih, foldl_stageColumns]
    simp [add_assoc]

theorem sum_flatten_reverse (st : List (List (List Vec))) :
    (st.reverse.flatten.map windowColumns).sum = (st.flatten.map windowColumns).sum := by
  induction st with
  | nil => rfl
  | cons g st ih =>
    simp only [List.reverse_cons, List.flatten_append, List.flatten_cons, List.flatten_nil,
      List.append_nil, List.map_append, List.sum_append, ih]
    exact add_comm _ _

theorem sum_windowColumns_of_nonempty (ws : List (List Vec)) (h : ∀ w ∈ ws, w ≠ []) :
    (ws.map windowColumns).sum = ((ws.map (fun w => w.length - 1)).sum : Nat) := by
  induction ws with
  | nil => simp
  | cons w ws ih =>
    have hw : w ≠ [] := h w (List.mem_cons_self w ws)
    have hpos : 1 ≤ w.length := List.length_pos.mpr hw
    simp only [List.map_cons, List.sum_cons, Nat.cast_add]
    rw [ih (fun v hv => h v (List.mem_cons_of_mem w hv))]
    unfold windowColumns
    omega

theorem countColumns_eq {E : Type} (base : PostProcessing E) (rows : Nat) :
    countColumns base rows =
      min (min (rows : Int)
        (max ((base.residuals.length : Int) - 1) 0
          + (base.solsStageList.flatten.map windowColumns).sum
          + (base.solsTimeList.flatten.flatten.map windowColumns).sum))
        base.maxUsedIterations := by
  unfold countColumns
  simp only
  rw [foldl_timeColumns, foldl_stageColumns, sum_flatten_reverse]

/-- C4: the column cap. `nbCols` never exceeds the vector dimension nor
`maxUsedIterations`, so the assertion of line 213 holds, and the matrices `V`
and `W` built for `nbCols > 0` have `nbCols` columns. -/
theorem countColumns_le_cap {E : Type} (base : PostProcessing E) (rows : Nat) :
    countColumns base rows ≤ min (rows : Int) base.maxUsedIterations ∧
    countColumns base rows ≤ (rows : Int) ∧
    (∀ V W : Mat, 0 < countColumns base rows →
      constructVW base rows (countColumns base rows).toNat = .ok (V, W) →
      (V.cols : Int) = countColumns base rows ∧ (W.cols : Int) = countColumns base rows ∧
      V.cols ≤ rows ∧ W.cols ≤ rows ∧
      (V.cols : Int) ≤ base.maxUsedIterations ∧ (W.cols : Int) ≤ base.maxUsedIterations) := by
  have h1 : countColumns base rows ≤ (rows : Int) := by
    rw [countColumns_eq]
    exact le_trans (min_le_left _ _) (min_le_left _ _)
  have h2 : countColumns base rows ≤ base.maxUsedIterations := by
    rw [countColumns_eq]
    exact min_le_right _ _
  refine ⟨le_min h1 h2, h1, ?_⟩
  intro V W hpos h
  obtain ⟨_, _, hV, hW⟩ := constructVW_shape base rows _ V W h
  have hn : ((countColumns base rows).toNat : Int) = countColumns base rows :=
    Int.toNat_of_nonneg (le_of_lt hpos)
  refine ⟨by rw [hV, hn], by rw [hW, hn], ?_, ?_, by rw [hV, hn]; exact h2,
    by rw [hW, hn]; exact h2⟩
  · rw [hV]; omega
  · rw [hW]; omega

/-- C7: the available-column formula. When every retained window of the
stage and time histories holds at least one sample, `nbCols` is the minimum of
the vector dimension, `maxUsedIterations` and the sum `S` of the
difference counts `length - 1` of all windows. -/
theorem countColumns_formula {E : Type} (base : PostProcessing E) (rows : Nat)
    (hst : ∀ w ∈ base.solsStageList.flatten, w ≠ [])
    (htl : ∀ w ∈ base.solsTimeList.flatten.flatten, w ≠ []) :
    countColumns base rows =
      min (min (rows : Int) base.maxUsedIterations) (availableColumns base : Int) := by
  rw [countColumns_eq, sum_windowColumns_of_nonempty _ hst, sum_windowColumns_of_nonempty _ htl]
  unfold availableColumns
  have hc : max ((base.residuals.length : Int) - 1) 0 = ((base.residuals.length - 1 : Nat) : Int) := by
    omega
  rw [hc, min_right_comm]
  push_cast
  rfl

/-- C7, at a concrete history: one current difference, two stage differences,
one time-step difference, three entries per vector and a cap of three. -/
theorem countColumns_formula_witness :
    (∀ w ∈ historyBase.solsStageList.flatten, w ≠ []) ∧
    (∀ w ∈ historyBase.solsTimeList.flatten.flatten, w ≠ []) ∧
    availableColumns historyBase = 4 ∧
    countColumns historyBase 3 = 3 :=
  ⟨by simp [historyBase, sampleBase], by simp [historyBase, sampleBase],
   by simp [availableColumns, historyBase, sampleBase],
   by
    rw [countColumns_formula historyBase 3 (by simp [historyBase, sampleBase])
      (by simp [historyBase, sampleBase])]
    simp [availableColumns, historyBase, sampleBase]⟩

/-- C6: column order of `V` and `W`. For histories of equal shape, the
matrices built by lines 226-288 hold, in this order, the first `n` differences
of the sequence `D` (current window, then stage groups from the last one down,
then time steps in ascending order with their groups from the last one down),
taken from the residual lists for `V` and from the solution lists for `W`. -/
theorem constructVW_column_order {E : Type} (base : PostProcessing E) (rows n : Nat)
    (V W : Mat)
    (hcur : base.sols.length = base.residuals.length)
    (hst : stageShape base.solsStageList = stageShape base.residualsStageList)
    (htl : timeShape base.solsTimeList = timeShape base.residualsTimeList)
    (h : constructVW base rows n = .ok (V, W)) :
    V.colv = (diffSequence base.residuals base.residualsStageList
        base.residualsTimeList).take n ∧
    W.colv = (diffSequence base.sols base.solsStageList base.solsTimeList).take n ∧
    V.rows = rows ∧ W.rows = rows := by
  obtain ⟨hV, hW⟩ := constructVW_places base rows n V W hcur hst htl h
  rw [hV, hW]
  exact ⟨rfl, rfl, rfl, rfl⟩


/-! ## One loop iteration -/

theorem foldlM_error {ι : Type} (P : Status → Prop) (step : Fill → ι → Except Status Fill)
    (idx : List ι) (hstep : ∀ i f e, step f i = .error e → P e) :
    ∀ f e, idx.foldlM step f = .error e → P e := by
  induction idx with
  | nil =>
    intro f e h
    simp [pure, Except.pure] at h
  | cons a l ih =>
    intro f e h
    rw [List.foldlM_cons] at h
    cases hs : step f a with
    | error e0 =>
      rw [hs] at h
      simp only [bind, Except.bind, Except.error.injEq] at h
      subst h
      exact hstep a f e0 hs
    | ok f0 =>
      rw [hs] at h
      simp only [bind, Except.bind] at h
      exact ih f0 e h

/-- The statuses with which the construction of `V` and `W` can abort. -/
theorem fillStep_error (rw : List Vec) (sw : Option (List Vec)) (k : Nat) (f : Fill)
    (e : Status) (h : fillStep rw sw f k = .error e) :
    e = .assertionFailure ∨ e = .outOfRange := by
  unfold fillStep at h
  split at h
  · simp at h
  · split at h
    · simp at h
    · simp only [Except.error.injEq] at h
      exact Or.inr h.symm

theorem fillWindow_error (rw : List Vec) (sw : Option (List Vec)) (f : Fill)
    (e : Status) (h : fillWindow rw sw f = .error e) :
    e = .assertionFailure ∨ e = .outOfRange := by
  unfold fillWindow at h
  split at h
  · simp only [Except.error.injEq] at h
    exact Or.inl h.symm
  · exact foldlM_error _ _ _ (fun k f e h => fillStep_error rw sw k f e h) f e h

theorem fillGroup_error (rs : List (List Vec)) (ss : Option (List (List Vec))) (f : Fill)
    (e : Status) (h : fillGroup rs ss f = .error e) :
    e = .assertionFailure ∨ e = .outOfRange := by
  unfold fillGroup at h
  exact foldlM_error _ _ _ (fun j f e h => fillWindow_error _ _ f e h) f e h

theorem fillStages_error (rst sst : List (List (List Vec))) (f : Fill)
    (e : Status) (h : fillStages rst sst f = .error e) :
    e = .assertionFailure ∨ e = .outOfRange := by
  unfold fillStages at h
  exact foldlM_error _ _ _ (fun j f e h => fillGroup_error _ _ f e h) f e h

theorem fillTimes_error (rtl stl : List (List (List (List Vec)))) (f : Fill)
    (e : Status) (h : fillTimes rtl stl f = .error e) :
    e = .assertionFailure ∨ e = .outOfRange := by
  unfold fillTimes at h
  exact foldlM_error _ _ _ (fun j f e h => fillStages_error _ _ f e h) f e h

theorem fillCurrent_error (res sols : List Vec) (i : Nat) (f : Fill)
    (e : Status) (h : fillCurrent res sols f i = .error e) :
    e = .assertionFailure ∨ e = .outOfRange := by
  unfold fillCurrent at h
  split at h
  · simp at h
  · split at h
    · simp at h
    · simp only [Except.error.injEq] at h
      exact Or.inr h.symm

theorem constructVW_error {E : Type} (base : PostProcessing E) (rows n : Nat) (e : Status)
    (h : constructVW base rows n = .error e) :
    e = .assertionFailure ∨ e = .outOfRange := by
  unfold constructVW fillLoops at h
  simp only [bind, Except.bind] at h
  generalize (min (max (windowColumns base.sols) 0) (n : Int)).toNat = m at h
  generalize List.replicate n (List.replicate rows (0 : ℚ)) = blank at h
  cases h1 : (List.range m).foldlM (fun f i => fillCurrent base.residuals base.sols f i)
      (⟨blank, blank, 0, []⟩ : Fill) with
  | error e1 =>
    rw [h1] at h
    simp only [Except.error.injEq] at h
    subst h
    exact foldlM_error _ _ _ (fun i f e h => fillCurrent_error _ _ i f e h) _ e1 h1
  | ok f1 =>
    rw [h1] at h
    simp only at h
    cases h2 : fillStages base.residualsStageList base.solsStageList f1 with
    | error e2 =>
      rw [h2] at h
      simp only [Except.error.injEq] at h
      subst h
      exact fillStages_error _ _ f1 e2 h2
    | ok f2 =>
      rw [h2] at h
      simp only at h
      cases h3 : fillTimes base.residualsTimeList base.solsTimeList f2 with
      | error e3 =>
        rw [h3] at h
        simp only [Except.error.injEq] at h
        subst h
        exact fillTimes_error _ _ f2 e3 h3
      | ok f3 =>
        rw [h3] at h
        simp only at h
        split at h
        · simp only [Except.error.injEq] at h
          exact Or.inl h.symm
        · simp at h

theorem andersonUpdate_error {E : Type} (env : Env E) (base : PostProcessing E)
    (self : Anderson) (xk R yk : Vec) (J : Mat) (n : Nat) (e : Status)
    (h : andersonUpdate env base self xk R yk J n = .error e) :
    e = .assertionFailure ∨ e = .outOfRange := by
  unfold andersonUpdate at h
  split at h
  · rename_i e1 h1
    simp only [Except.error.injEq] at h
    subst h
    exact constructVW_error base _ _ e1 h1
  · simp at h

theorem updateStep_inl {E : Type} (env : Env E) (l : Locals E) (out : Outcome E)
    (h : updateStep env l = .inl out) :
    (out.status = .assertionFailure ∨ out.status = .outOfRange) ∧
    out.final.trace = l.trace ∧ out.final.calls = l.calls ∧ out.final.base = l.base := by
  unfold updateStep at h
  simp only at h
  split at h
  · simp only [Sum.inl.injEq] at h
    subst h
    simp [stop]
  · split at h
    · split at h
      · rename_i e he
        simp only [Sum.inl.injEq] at h
        subst h
        refine ⟨andersonUpdate_error _ _ _ _ _ _ _ _ e he, ?_⟩
        simp only [stop]
        split <;> simp
      · simp at h
    · simp at h

theorem updateStep_inr {E : Type} (env : Env E) (l l1 : Locals E)
    (h : updateStep env l = .inr l1) :
    l1.trace = l.trace ∧ l1.calls = l.calls ∧ l1.base = l.base ∧ l1.self = l.self := by
  unfold updateStep at h
  simp only at h
  split at h
  · simp at h
  · split at h
    · split at h
      · simp at h
      · simp only [Sum.inr.injEq] at h
        subst h
        split <;> simp
    · simp only [Sum.inr.injEq] at h
      subst h
      split <;> simp

theorem rescaleStep_inl {E : Type} (env : Env E) (y output : Vec) (l : Locals E)
    (out : Outcome E) (h : rescaleStep env y output l = .inl out) :
    out.status = .assertionFailure ∧ out.final.trace = l.trace ∧
    out.final.calls = l.calls ∧ out.final.xk = l.xk ∧ out.final.base = l.base := by
  unfold rescaleStep at h
  split at h
  · cases h
    simp [stop]
  · simp only at h
    repeat' split at h
    all_goals cases h
    all_goals simp [stop]

theorem rescaleStep_inr {E : Type} (env : Env E) (y output : Vec) (l l1 : Locals E)
    (h : rescaleStep env y output l = .inr l1) :
    l1.trace = l.trace ∧ l1.calls = l.calls ∧ l1.xk = l.xk ∧ l1.base = l.base := by
  unfold rescaleStep at h
  split at h
  · cases h
  · simp only at h
    repeat' split at h
    all_goals cases h
    all_goals simp

theorem evaluateStep_inl {E : Type} (env : Env E) (y x0 : Vec) (rc : Bool) (l : Locals E)
    (out : Outcome E) (h : evaluateStep env y x0 rc l = .inl out) :
    out.final.xk = l.xk ∧ out.final.calls = l.xk :: l.calls ∧
    ((out.status = .converged ∧ Recorded l out.final ∧
        ∃ e a b, (env.isConvergence e a b rc).2 = true) ∨
      (out.status = .evaluationFault ∧ out.final.trace = l.trace ∧
        env.evaluate l.base.fsi l.xk = none) ∨
      (out.status = .assertionFailure ∧
        (out.final.trace = l.trace ∨ Recorded l out.final))) := by
  unfold evaluateStep at h
  simp only at h
  split at h
  · rename_i hev
    cases h
    exact ⟨rfl, rfl, Or.inr (Or.inl ⟨rfl, rfl, hev⟩)⟩
  · rename_i e output R hev
    split at h
    · cases h
      exact ⟨rfl, rfl, Or.inr (Or.inr ⟨rfl, Or.inl rfl⟩)⟩
    · split at h
      · rename_i hconv
        cases h
        refine ⟨rfl, rfl, Or.inl ⟨rfl, ⟨_, rfl, rfl, rfl, rfl, rfl⟩, ⟨_, _, _, hconv⟩⟩⟩
      · obtain ⟨h1, h2, h3, h4, _⟩ := rescaleStep_inl _ _ _ _ _ h
        exact ⟨h4, h3, Or.inr (Or.inr ⟨h1, Or.inr ⟨_, h2, h4.symm ▸ rfl, h4.symm ▸ rfl, rfl,
          h4.symm ▸ h3⟩⟩)⟩

theorem evaluateStep_inr {E : Type} (env : Env E) (y x0 : Vec) (rc : Bool) (l l1 : Locals E)
    (h : evaluateStep env y x0 rc l = .inr l1) :
    l1.xk = l.xk ∧ Recorded l l1 ∧ l1.base.sols = l.xk :: l.base.sols ∧
    (∃ rec, l1.trace = rec :: l.trace ∧ l1.base.residuals = rec.residual :: l.base.residuals ∧
      rec.sols = l1.base.sols ∧ rec.residuals = l1.base.residuals) ∧
    l1.base.maxIter = l.base.maxIter := by
  unfold evaluateStep at h
  simp only at h
  split at h
  · cases h
  · rename_i e output R hev
    split at h
    · cases h
    · split at h
      · cases h
      · obtain ⟨h1, h2, h3, h4⟩ := rescaleStep_inr _ _ _ _ _ h
        refine ⟨h3, ⟨_, h1, h3.symm ▸ rfl, h3.symm ▸ rfl, rfl, h3.symm ▸ h2⟩, ?_,
          ⟨_, h1, ?_, ?_, ?_⟩, ?_⟩
        all_goals rw [h4]

theorem recorded_congr {E : Type} (l l0 fl : Locals E) (ht : l.trace = l0.trace)
    (hc : l.calls = l0.calls) (hb : l.base = l0.base) (h : Recorded l fl) :
    Recorded l0 fl := by
  obtain ⟨rec, h1, h2, h3, h4, h5⟩ := h
  exact ⟨rec, ht ▸ h1, h2, hb ▸ h3, hb ▸ h4, hc ▸ h5⟩

theorem iteration_inl {E : Type} (env : Env E) (y x0 : Vec) (rc : Bool) (l : Locals E)
    (out : Outcome E) (h : iteration env y x0 rc l = .inl out) :
    (out.status = .converged ∧ Recorded l out.final ∧
        ∃ e a b, (env.isConvergence e a b rc).2 = true) ∨
      (out.status = .evaluationFault ∧ out.final.trace = l.trace ∧
        out.final.calls = out.final.xk :: l.calls ∧ ∃ e x, env.evaluate e x = none) ∨
      ((out.status = .assertionFailure ∨ out.status = .outOfRange) ∧
        ((out.final.trace = l.trace ∧
          (out.final.calls = l.calls ∨ out.final.calls = out.final.xk :: l.calls)) ∨
          Recorded l out.final)) := by
  unfold iteration at h
  split at h
  · rename_i o hu
    cases h
    obtain ⟨h1, h2, h3, _⟩ := updateStep_inl env l _ hu
    exact Or.inr (Or.inr ⟨h1, Or.inl ⟨h2, Or.inl h3⟩⟩)
  · rename_i lu hu
    obtain ⟨u1, u2, u3, _⟩ := updateStep_inr env l lu hu
    obtain ⟨e1, e2, e3⟩ := evaluateStep_inl env y x0 rc lu out h
    rcases e3 with ⟨s, r, c⟩ | ⟨s, t, ev⟩ | ⟨s, t | r⟩
    · exact Or.inl ⟨s, recorded_congr lu l _ u1 u2 u3 r, c⟩
    · exact Or.inr (Or.inl ⟨s, t.trans u1, by rw [e2, e1, u2], ⟨_, _, ev⟩⟩)
    · exact Or.inr (Or.inr ⟨Or.inl s, Or.inl ⟨t.trans u1, Or.inr (by rw [e2, e1, u2])⟩⟩)
    · exact Or.inr (Or.inr ⟨Or.inl s, Or.inr (recorded_congr lu l _ u1 u2 u3 r)⟩)

theorem iteration_inr {E : Type} (env : Env E) (y x0 : Vec) (rc : Bool) (l l1 : Locals E)
    (h : iteration env y x0 rc l = .inr l1) :
    Recorded l l1 ∧ l1.base.sols = l1.xk :: l.base.sols ∧
    (∃ rec, l1.trace = rec :: l.trace ∧ l1.base.residuals = rec.residual :: l.base.residuals ∧
      rec.sols = l1.base.sols ∧ rec.residuals = l1.base.residuals) ∧
    l1.base.maxIter = l.base.maxIter := by
  unfold iteration at h
  split at h
  · cases h
  · rename_i lu hu
    obtain ⟨u1, u2, u3, _⟩ := updateStep_inr env l lu hu
    obtain ⟨e1, e2, e3, ⟨rec, e4, e5, e6, e7⟩, e8⟩ := evaluateStep_inr env y x0 rc lu l1 h
    refine ⟨recorded_congr lu l _ u1 u2 u3 e2, by rw [e3, e1, u3],
      ⟨rec, by rw [e4, u1], by rw [e5, u3], e6, e7⟩, by rw [e8, u3]⟩

/-! ## The whole call -/

theorem startUp_inl {E : Type} (env : Env E) (base : PostProcessing E) (self : Anderson)
    (y x0 xk : Vec) (rc : Bool) (out : Outcome E)
    (h : startUp env base self y x0 xk rc = .inl out) :
    (out.status = .assertionFailure ∧ out.final.trace = [] ∧ out.final.calls = [] ∧
        out.final.xk = xk) ∨
      (out.status = .assertionFailure ∧ out.final.trace = [] ∧ out.final.calls = [x0] ∧
        out.final.xk = x0) ∨
      (out.status = .evaluationFault ∧ out.final.trace = [] ∧ out.final.calls = [x0] ∧
        out.final.xk = x0 ∧ ∃ e x, env.evaluate e x = none) ∨
      (out.status = .converged ∧ out.final.calls = [x0] ∧ out.final.xk = x0 ∧
        out.final.J = Mat.empty ∧
        (∃ rec, out.final.trace = [rec] ∧ rec.input = x0 ∧ rec.sols = [x0] ∧
          rec.residuals = [rec.residual]) ∧
        ∃ e a b, (env.isConvergence e a b rc).2 = true) := by
  unfold startUp at h
  simp only at h
  split at h
  · cases h
    exact Or.inl ⟨rfl, rfl, rfl, rfl⟩
  · split at h
    · rename_i hev
      cases h
      exact Or.inr (Or.inr (Or.inl ⟨rfl, rfl, rfl, rfl, _, _, hev⟩))
    · split at h
      · cases h
        exact Or.inr (Or.inl ⟨rfl, rfl, rfl, rfl⟩)
      · split at h
        · cases h
          exact Or.inr (Or.inl ⟨rfl, rfl, rfl, rfl⟩)
        · split at h
          · rename_i hconv
            cases h
            exact Or.inr (Or.inr (Or.inr ⟨rfl, rfl, rfl, rfl, ⟨_, rfl, rfl, rfl, rfl⟩,
              ⟨_, _, _, hconv⟩⟩))
          · cases h

theorem startUp_inr {E : Type} (env : Env E) (base : PostProcessing E) (self : Anderson)
    (y x0 xk : Vec) (rc : Bool) (l : Locals E)
    (h : startUp env base self y x0 xk rc = .inr l) :
    l.calls = [x0] ∧ l.xk = x0 ∧ l.base.maxIter = base.maxIter ∧
    ∃ rec, l.trace = [rec] ∧ rec.input = x0 ∧ rec.sols = [x0] ∧
      rec.residuals = [rec.residual] ∧ l.base.sols = [x0] ∧
      l.base.residuals = [rec.residual] := by
  unfold startUp at h
  simp only at h
  split at h
  · cases h
  · split at h
    · cases h
    · split at h
      · cases h
      · split at h
        · cases h
        · split at h
          · cases h
          · cases h
            split <;> exact ⟨rfl, rfl, rfl, _, rfl, rfl, rfl, rfl, rfl, rfl⟩

/-! ### History window -/

theorem windowsRecorded_of_recorded {E : Type} (x0 : Vec) (l fl : Locals E)
    (hs : l.base.sols = l.trace.map (fun q => q.input))
    (hr : l.base.residuals = l.trace.map (fun q => q.residual))
    (hw : WindowsRecorded x0 l.trace)
    (hx : (l.trace.map (fun q => q.input)).getLast? = some x0)
    (h : Recorded l fl) : WindowsRecorded x0 fl.trace := by
  obtain ⟨rec, h1, h2, h3, h4, _⟩ := h
  rw [h1]
  refine ⟨by rw [h3, hs, ← h2]; rfl, by rw [h4, hr]; rfl, ?_, hw⟩
  cases ht : l.trace with
  | nil => rw [ht] at hx; simp at hx
  | cons q rest =>
    rw [ht] at hx
    simpa [List.getLast?_cons_cons] using hx

theorem loop_windowsRecorded {E : Type} (env : Env E) (y x0 z : Vec) (rc : Bool) :
    ∀ (n : Nat) (l : Locals E),
      l.base.sols = l.trace.map (fun q => q.input) →
      l.base.residuals = l.trace.map (fun q => q.residual) →
      WindowsRecorded z l.trace →
      (l.trace.map (fun q => q.input)).getLast? = some z →
      WindowsRecorded z (loop env y x0 rc n l).final.trace := by
  intro n
  induction n with
  | zero => intro l _ _ hw _; exact hw
  | succ n ih =>
    intro l hs hr hw hx
    unfold loop
    split
    · rename_i out hit
      rcases iteration_inl env y x0 rc l out hit with ⟨_, r, _⟩ | ⟨_, t, _⟩ | ⟨_, ⟨t, _⟩ | r⟩
      · exact windowsRecorded_of_recorded z l _ hs hr hw hx r
      · rw [t]; exact hw
      · rw [t]; exact hw
      · exact windowsRecorded_of_recorded z l _ hs hr hw hx r
    · rename_i l1 hit
      obtain ⟨r, e1, ⟨rec, e2, e3, e4, e5⟩, _⟩ := iteration_inr env y x0 rc l l1 hit
      have hw1 := windowsRecorded_of_recorded z l l1 hs hr hw hx r
      rw [e2] at hw1
      have hs1 : l1.base.sols = l1.trace.map (fun q => q.input) := by
        rw [← e4, e2]; exact hw1.1
      have hr1 : l1.base.residuals = l1.trace.map (fun q => q.residual) := by
        rw [← e5, e2]; exact hw1.2.1
      exact ih l1 hs1 hr1 (e2 ▸ hw1) (by rw [e2]; exact hw1.2.2.1)

theorem performPostProcessing_windowsRecorded {E : Type} (env : Env E)
    (base : PostProcessing E) (self : Anderson) (y x0 xk : Vec) (rc : Bool) :
    WindowsRecorded x0 (performPostProcessing env base self y x0 xk rc).final.trace := by
  unfold performPostProcessing
  split
  · rename_i out hst
    rcases startUp_inl env base self y x0 xk rc out hst with
      ⟨_, t, _⟩ | ⟨_, t, _⟩ | ⟨_, t, _⟩ | ⟨_, _, _, _, ⟨rec, t, i, s, r⟩, _⟩
    · rw [t]; trivial
    · rw [t]; trivial
    · rw [t]; trivial
    · rw [t]
      exact ⟨by rw [s, ← i]; rfl, by rw [r]; rfl, by simp [i], trivial⟩
  · rename_i l hst
    obtain ⟨_, _, _, rec, t, i, s, r, bs, br⟩ := startUp_inr env base self y x0 xk rc l hst
    apply loop_windowsRecorded
    · rw [bs, t, ← i]; rfl
    · rw [br, t]; rfl
    · rw [t]
      exact ⟨by rw [s, ← i]; rfl, by rw [r]; rfl, by simp [i], trivial⟩
    · rw [t]; simp [i]

theorem windowsRecorded_drop (x0 : Vec) : ∀ (t : List EvalRecord), WindowsRecorded x0 t →
    ∀ (m : Nat) (r : EvalRecord) (rest : List EvalRecord), t.drop m = r :: rest →
      r.sols = (r :: rest).map (fun q => q.input) ∧
      r.residuals = (r :: rest).map (fun q => q.residual) ∧
      ((r :: rest).map (fun q => q.input)).getLast? = some x0 := by
  intro t
  induction t with
  | nil => intro _ m r rest h; simp at h
  | cons a t ih =>
    intro hw m r rest h
    cases m with
    | zero =>
      simp only [List.drop_zero, List.cons.injEq] at h
      obtain ⟨h1, h2⟩ := h
      subst h1; subst h2
      exact ⟨hw.1, hw.2.1, hw.2.2.1⟩
    | succ m =>
      rw [List.drop_succ_cons] at h
      exact ih hw.2.2.2 m r rest h

/-- C5: length and order of the history window. In every call, the record of
the `(n+1)`-th completed evaluation (`n = 0` is the one at `x0`) shows `sols`
and `residuals` of length `n + 1` right after the two `push_front`, with the
argument of that evaluation at index `0`, the argument and the unscaled residual
of the `(n+1-i)`-th evaluation at index `i`, and `x0` at index `n`. -/
theorem history_window_order {E : Type} (env : Env E) (base : PostProcessing E)
    (self : Anderson) (y x0 xk : Vec) (rc : Bool) (n : Nat) (r : EvalRecord) :
    (performPostProcessing env base self y x0 xk rc).final.trace.reverse[n]? = some r →
    r.sols.length = n + 1 ∧ r.residuals.length = n + 1 ∧
    r.sols[0]? = some r.input ∧ r.residuals[0]? = some r.residual ∧
    r.sols[n]? = some x0 ∧
    ∀ i, i ≤ n →
      r.sols[i]? = ((performPostProcessing env base self y x0 xk rc).final.trace.reverse[n - i]?).map
        (fun q => q.input) ∧
      r.residuals[i]? =
        ((performPostProcessing env base self y x0 xk rc).final.trace.reverse[n - i]?).map
          (fun q => q.residual) := by
  have hw := performPostProcessing_windowsRecorded env base self y x0 xk rc
  generalize (performPostProcessing env base self y x0 xk rc).final.trace = t at hw
  intro h
  have hn : n < t.length := by
    have := (List.getElem?_eq_some.mp h).1
    simpa using this
  have hr : t[t.length - 1 - n]? = some r := by
    rw [List.getElem?_reverse hn] at h; exact h
  have hm : t.length - 1 - n < t.length := by omega
  have hget : t[t.length - 1 - n] = r := by
    rw [List.getElem?_eq_getElem hm] at hr
    exact Option.some.inj hr
  have hdrop : t.drop (t.length - 1 - n) = r :: t.drop (t.length - 1 - n + 1) := by
    rw [← hget]; exact List.drop_eq_getElem_cons hm
  obtain ⟨h1, h2, h3⟩ := windowsRecorded_drop x0 t hw _ r _ hdrop
  have hlen : (r :: t.drop (t.length - 1 - n + 1)).length = n + 1 := by
    simp only [List.length_cons, List.length_drop]; omega
  have key : ∀ i, i ≤ n → (r :: t.drop (t.length - 1 - n + 1))[i]? = t.reverse[n - i]? := by
    intro i hi
    rw [← hdrop, List.getElem?_drop, List.getElem?_reverse (by omega)]
    congr 1
    omega
  refine ⟨by rw [h1, List.length_map, hlen], by rw [h2, List.length_map, hlen],
    by rw [h1]; simp, by rw [h2]; simp, ?_, ?_⟩
  · rw [List.getLast?_eq_getElem?, List.length_map, hlen] at h3
    rw [h1]; exact h3
  · intro i hi
    rw [h1, h2, List.getElem?_map, List.getElem?_map, key i hi]
    exact ⟨rfl, rfl⟩

/-! ### Exhaustion and convergence -/

theorem loop_converged {E : Type} (env : Env E) (y x0 : Vec) (rc : Bool) :
    ∀ (n : Nat) (l : Locals E),
      l.calls.length = l.trace.length → 1 ≤ l.trace.length →
      (loop env y x0 rc n l).status = .converged →
      (loop env y x0 rc n l).final.calls.head? = some (loop env y x0 rc n l).final.xk ∧
      (loop env y x0 rc n l).final.trace.head?.map (fun q => q.input)
        = some (loop env y x0 rc n l).final.xk ∧
      (loop env y x0 rc n l).final.calls.length
        = (loop env y x0 rc n l).final.trace.length ∧
      2 ≤ (loop env y x0 rc n l).final.trace.length := by
  intro n
  induction n with
  | zero =>
    intro l _ _ h
    cases h
  | succ n ih =>
    intro l ht h1
    unfold loop
    split
    · rename_i out hit
      intro hs
      rcases iteration_inl env y x0 rc l out hit with
        ⟨_, ⟨rec, r1, r2, _, _, r5⟩, _⟩ | ⟨s, _⟩ | ⟨s | s, _⟩
      · refine ⟨by rw [r5]; rfl, by rw [r1]; simp [r2], ?_, ?_⟩
        · rw [r5, r1, List.length_cons, List.length_cons, ht]
        · rw [r1, List.length_cons]; omega
      · rw [s] at hs; cases hs
      · rw [s] at hs; cases hs
      · rw [s] at hs; cases hs
    · rename_i l1 hit
      obtain ⟨⟨rec, r1, _, _, _, r5⟩, _⟩ := iteration_inr env y x0 rc l l1 hit
      exact ih l1 (by rw [r5, r1, List.length_cons, List.length_cons, ht])
        (by rw [r1, List.length_cons]; omega)

/-- C10: `xk` at convergence. When a call stops because `isConvergence`
returned `true`, `xk` is the argument of the most recent evaluator call, that
call is the last recorded one, and every call was recorded; if only one
evaluation was recorded, the evaluator was called exactly once, at `x0`, no
Jacobian was computed and `xk` is `x0`. -/
theorem converged_xk {E : Type} (env : Env E) (base : PostProcessing E)
    (self : Anderson) (y x0 xk : Vec) (rc : Bool)
    (h : (performPostProcessing env base self y x0 xk rc).status = .converged) :
    (performPostProcessing env base self y x0 xk rc).final.calls.head?
      = some (performPostProcessing env base self y x0 xk rc).final.xk ∧
    (performPostProcessing env base self y x0 xk rc).final.trace.head?.map (fun q => q.input)
      = some (performPostProcessing env base self y x0 xk rc).final.xk ∧
    (performPostProcessing env base self y x0 xk rc).final.calls.length
      = (performPostProcessing env base self y x0 xk rc).final.trace.length ∧
    ((performPostProcessing env base self y x0 xk rc).final.trace.length = 1 →
      (performPostProcessing env base self y x0 xk rc).final.calls = [x0] ∧
      (performPostProcessing env base self y x0 xk rc).final.xk = x0 ∧
      (performPostProcessing env base self y x0 xk rc).final.J = Mat.empty) := by
  revert h
  unfold performPostProcessing
  split
  · rename_i out hst
    intro hs
    rcases startUp_inl env base self y x0 xk rc out hst with
      ⟨s, _⟩ | ⟨s, _⟩ | ⟨s, _⟩ | ⟨_, c, x, j, ⟨rec, t, i, _⟩, _⟩
    · rw [s] at hs; cases hs
    · rw [s] at hs; cases hs
    · rw [s] at hs; cases hs
    · exact ⟨by rw [c, x]; rfl, by rw [t, x]; simp [i], by rw [c, t]; rfl,
        fun _ => ⟨c, x, j⟩⟩
  · rename_i l hst
    intro hs
    obtain ⟨c, _, _, rec, t, _⟩ := startUp_inr env base self y x0 xk rc l hst
    obtain ⟨a, b, d, e⟩ := loop_converged env y x0 rc (l.base.maxIter - 1).toNat l
      (by rw [c, t]; rfl) (by rw [t]; simp) hs
    exact ⟨a, b, d, fun h1 => by omega⟩


/-! ## Witnesses for the run properties -/

/-- C5, at the second evaluation of a concrete run without convergence. -/
theorem history_window_order_witness :
    (performPostProcessing sampleEnv sampleBase plainSelf [0] [1] [0] true).final.trace.reverse[1]?
      = some secondRecord ∧
    secondRecord.sols.length = 1 + 1 ∧ secondRecord.residuals.length = 1 + 1 ∧
    secondRecord.sols[0]? = some secondRecord.input ∧
    secondRecord.sols[1]? = some [1] := by
  have he : (performPostProcessing sampleEnv sampleBase plainSelf [0] [1] [0]
      true).final.trace.reverse[1]? = some secondRecord := by
    simp [performPostProcessing, startUp, loop, iteration, updateStep, evaluateStep,
      rescaleStep, entryAssertions, determineScalingFactors, countColumns,
      fixedUnderRelaxation, relaxationStep, sampleEnv, sampleBase, plainSelf, stop, vsub, vadd,
      vsmul, Mat.empty, windowColumns, secondRecord]
    norm_num
  have ht := history_window_order sampleEnv sampleBase plainSelf [0] [1] [0] true 1
    secondRecord he
  exact ⟨he, ht.1, ht.2.1, ht.2.2.1, ht.2.2.2.2.1⟩

/-- C6, at a concrete history: three columns are kept, the time-step
difference is dropped. -/
theorem constructVW_column_order_witness :
    historyBase.sols.length = historyBase.residuals.length ∧
    stageShape historyBase.solsStageList = stageShape historyBase.residualsStageList ∧
    timeShape historyBase.solsTimeList = timeShape historyBase.residualsTimeList ∧
    constructVW historyBase 3 3 =
      .ok (⟨3, [[2, 1, 0], [2, 0, 0], [3, -1, 0]]⟩, ⟨3, [[1, 0, 0], [1, 0, 1], [2, 0, 0]]⟩) ∧
    ([[2, 1, 0], [2, 0, 0], [3, -1, 0]] : List Vec) =
      (diffSequence historyBase.residuals historyBase.residualsStageList
        historyBase.residualsTimeList).take 3 ∧
    ([[1, 0, 0], [1, 0, 1], [2, 0, 0]] : List Vec) =
      (diffSequence historyBase.sols historyBase.solsStageList
        historyBase.solsTimeList).take 3 := by
  have h1 : historyBase.sols.length = historyBase.residuals.length := rfl
  have h2 : stageShape historyBase.solsStageList = stageShape historyBase.residualsStageList :=
    rfl
  have h3 : timeShape historyBase.solsTimeList = timeShape historyBase.residualsTimeList := rfl
  have he : constructVW historyBase 3 3 =
      .ok (⟨3, [[2, 1, 0], [2, 0, 0], [3, -1, 0]]⟩,
        ⟨3, [[1, 0, 0], [1, 0, 1], [2, 0, 0]]⟩) := by
    simp [constructVW, fillLoops, historyBase, sampleBase, windowColumns, fillCurrent, fillStages,
      fillGroup, fillWindow, fillStep, fillTimes, List.range_succ, vsub, bind, Except.bind,
      pure, Except.pure]
    norm_num
  have ht := constructVW_column_order historyBase 3 3 _ _ h1 h2 h3 he
  exact ⟨h1, h2, h3, he, ht.1, ht.2.1⟩

/-- C10, at a concrete run that converges at its second evaluation. -/
theorem converged_xk_witness :
    (performPostProcessing thresholdEnv sampleBase plainSelf [0] [1] [0] true).status
      = .converged ∧
    (performPostProcessing thresholdEnv sampleBase plainSelf [0] [1] [0] true).final.xk
      = [5 / 4] ∧
    (performPostProcessing thresholdEnv sampleBase plainSelf [0] [1] [0] true).final.calls.head?
      = some (performPostProcessing thresholdEnv sampleBase plainSelf [0] [1] [0] true).final.xk := by
  have he : (performPostProcessing thresholdEnv sampleBase plainSelf [0] [1] [0] true).status
        = .converged ∧
      (performPostProcessing thresholdEnv sampleBase plainSelf [0] [1] [0] true).final.xk
        = [5 / 4] := by
    simp [performPostProcessing, startUp, loop, iteration, updateStep, evaluateStep,
      rescaleStep, entryAssertions, determineScalingFactors, countColumns,
      fixedUnderRelaxation, relaxationStep, thresholdEnv, sampleEnv, sampleBase, plainSelf,
      stop, vsub, vadd, vsmul, Mat.empty, windowColumns, convergedState]
    norm_num
  exact ⟨he.1, he.2,
    (converged_xk thresholdEnv sampleBase plainSelf [0] [1] [0] true he.1).1⟩

/-! ## Scaling factors -/

theorem floorFactor_of_nonneg (n : ℚ) (h : 0 ≤ n) :
    floorFactor n = (if n < 1 / 10 ^ 13 then 1 else n) ∧ 0 < floorFactor n := by
  unfold floorFactor
  rw [abs_of_nonneg h]
  refine ⟨rfl, ?_⟩
  split
  · exact one_pos
  · rename_i hlt
    have : (0 : ℚ) < 1 / 10 ^ 13 := by norm_num
    exact lt_of_lt_of_le this (not_lt.mp hlt)

/-- C8: computation of the scaling factors. With scaling enabled,
`timeIndex <= reuseInformationStartingFromTimeIndex` and an output whose
length is the sum of the two block sizes, `determineScalingFactors` sets
factor 0 to the norm of the first block and factor 1 to that of the last
block, a value below `1e-13` being replaced by `1`; both factors are strictly
positive. The norm is Eigen's Euclidean `norm()`, the parameter `env.norm`; of
it only `0 <= norm` is used, so the blocks are arbitrary. -/
theorem determineScalingFactors_factors {E : Type} (env : Env E) (base : PostProcessing E)
    (self : Anderson) (output : Vec)
    (hs : self.scaling = true)
    (ht : base.timeIndex ≤ base.reuseInformationStartingFromTimeIndex)
    (hlen : output.length =
      env.solidCouplingGridSize base.fsi * env.solidDim base.fsi
        + env.fluidCouplingGridSize base.fsi * env.fluidDim base.fsi)
    (hnorm : ∀ v, 0 ≤ env.norm v) :
    ∃ s, determineScalingFactors env base self output = .ok s ∧
      s.sizeVar0 = env.solidCouplingGridSize base.fsi * env.solidDim base.fsi ∧
      s.sizeVar1 = env.fluidCouplingGridSize base.fsi * env.fluidDim base.fsi ∧
      s.scalingFactors0 =
        (if env.norm (output.take s.sizeVar0) < 1 / 10 ^ 13 then 1
          else env.norm (output.take s.sizeVar0)) ∧
      s.scalingFactors1 =
        (if env.norm (output.drop (output.length - s.sizeVar1)) < 1 / 10 ^ 13 then 1
          else env.norm (output.drop (output.length - s.sizeVar1))) ∧
      0 < s.scalingFactors0 ∧ 0 < s.scalingFactors1 := by
  have f0 := floorFactor_of_nonneg _
    (hnorm (output.take (env.solidCouplingGridSize base.fsi * env.solidDim base.fsi)))
  have f1 := floorFactor_of_nonneg _
    (hnorm (output.drop
      (output.length - env.fluidCouplingGridSize base.fsi * env.fluidDim base.fsi)))
  unfold determineScalingFactors
  have hc : (self.scaling &&
      decide (base.timeIndex ≤ base.reuseInformationStartingFromTimeIndex)) = true := by
    simp [hs, ht]
  rw [if_pos hc]
  simp only
  rw [if_neg (by simpa using hlen)]
  exact ⟨_, rfl, rfl, rfl, f0.1, f1.1, f0.2, f1.2⟩

/-- C8, the scaling scenario: block sizes `1` and `1`, output `[100, 1]`. -/
theorem determineScalingFactors_factors_witness :
    (∀ v, 0 ≤ sampleEnv.norm v) ∧
    IsEuclideanNorm (sampleEnv.norm [100]) [100] ∧ IsEuclideanNorm (sampleEnv.norm [1]) [1] ∧
    ∃ s, determineScalingFactors sampleEnv sampleBase freshSelf [100, 1] = .ok s ∧
      s.sizeVar0 = 1 ∧ s.sizeVar1 = 1 ∧
      s.scalingFactors0 = 100 ∧ s.scalingFactors1 = 1 ∧
      applyScaling s [100, 1] = [1, 1] := by
  have h100 : Rat.sqrt (100 * 100) = 100 := by rw [Rat.sqrt_eq]; norm_num
  have h1 : Rat.sqrt (1 * 1) = 1 := by rw [Rat.sqrt_eq]; norm_num
  have n0 : sampleEnv.norm [100] = 100 := by simp [sampleEnv, h100]
  have n1 : sampleEnv.norm [1] = 1 := by simp [sampleEnv, h1]
  have hnn : ∀ v, 0 ≤ sampleEnv.norm v := fun v => Rat.sqrt_nonneg _
  obtain ⟨s, hs, z0, z1, g0, g1, _, _⟩ :=
    determineScalingFactors_factors sampleEnv sampleBase freshSelf [100, 1] rfl
      (by simp [sampleBase]) rfl hnn
  have z0' : s.sizeVar0 = 1 := z0
  have z1' : s.sizeVar1 = 1 := z1
  have e0 : s.scalingFactors0 = 100 := by
    rw [g0, z0']
    show (if sampleEnv.norm [100] < 1 / 10 ^ 13 then 1 else sampleEnv.norm [100]) = 100
    rw [n0]; norm_num
  have e1 : s.scalingFactors1 = 1 := by
    rw [g1, z1']
    show (if sampleEnv.norm [1] < 1 / 10 ^ 13 then 1 else sampleEnv.norm [1]) = 1
    rw [n1]; norm_num
  refine ⟨hnn, by rw [n0]; unfold IsEuclideanNorm; norm_num,
    by rw [n1]; unfold IsEuclideanNorm; norm_num, s, hs, z0', z1', e0, e1, ?_⟩
  simp [applyScaling, onHead, onTail, z0', z1', e0, e1]

/-! ## Relaxation factor of the zero-column step -/

/-- C15, refuted at `beta = 1`, `initialRelaxation = 1/2`: the zero-column
step is `[3/2, 2]`, whereas `beta * (R - yk)` is `[3, 4]`. -/
theorem relaxation_factor_not_beta :
    ¬ (plainSelf.updateJacobian = true ∧ plainSelf.Jprev.rows = ([0, 0] : Vec).length) ∧
    relaxationStep sampleBase plainSelf [3, 4] [0, 0] = [3 / 2, 2] ∧
    vsmul plainSelf.beta (vsub [3, 4] [0, 0]) = [3, 4] ∧
    relaxationStep sampleBase plainSelf [3, 4] [0, 0]
      ≠ vsmul plainSelf.beta (vsub [3, 4] [0, 0]) := by
  refine ⟨by simp [plainSelf], ?_, ?_, ?_⟩
  · norm_num [relaxationStep, plainSelf, sampleBase, vsmul, vsub, Mat.empty]
  · norm_num [plainSelf, vsmul, vsub]
  · norm_num [relaxationStep, plainSelf, sampleBase, vsmul, vsub, Mat.empty]

/-- C15, amended: when no cached Jacobian is reused, the zero-column step is
`initialRelaxation * (R - yk)` for every value of `beta`; the parameter `beta`
does not enter `fixedUnderRelaxation`. -/
theorem relaxation_factor_initialRelaxation {E : Type} (base : PostProcessing E)
    (self : Anderson) (xk R yk : Vec)
    (h : ¬ (self.updateJacobian = true ∧ self.Jprev.rows = yk.length)) (b : ℚ) :
    relaxationStep base { self with beta := b } R yk
      = vsmul base.initialRelaxation (vsub R yk) ∧
    fixedUnderRelaxation base { self with beta := b } xk R yk
      = fixedUnderRelaxation base self xk R yk := by
  have hc : (self.updateJacobian && decide (self.Jprev.rows = yk.length)) = false := by
    rcases Bool.eq_false_or_eq_true self.updateJacobian with hu | hu
    · have : ¬ self.Jprev.rows = yk.length := fun e => h ⟨hu, e⟩
      simp [this]
    · simp [hu]
  refine ⟨?_, rfl⟩
  unfold relaxationStep
  simp only [hc, Bool.false_eq_true, if_false]

/-- C15, amended, at `beta = 7` and `initialRelaxation = 1/2`. -/
theorem relaxation_factor_initialRelaxation_witness :
    ¬ (plainSelf.updateJacobian = true ∧ plainSelf.Jprev.rows = ([0, 0] : Vec).length) ∧
    relaxationStep sampleBase { plainSelf with beta := 7 } [3, 4] [0, 0]
      = vsmul sampleBase.initialRelaxation (vsub [3, 4] [0, 0]) :=
  ⟨by simp [plainSelf],
   (relaxation_factor_initialRelaxation sampleBase plainSelf [1, 2] [3, 4] [0, 0]
     (by simp [plainSelf]) 7).1⟩

/-! ## Scaling in the zero-column step -/

/-- C20: scaling cancels in the relaxation step. With scaling enabled, no
cached Jacobian reused and non-zero factors, `fixedUnderRelaxation` applied to
the scaled images of `Rraw` and `y` increments `xk` by
`initialRelaxation * (Rraw - y)`, which is also the increment with scaling
disabled. -/
theorem scaling_cancels_in_relaxation {E : Type} (base : PostProcessing E)
    (self : Anderson) (xk Rraw y : Vec)
    (hs : self.scaling = true)
    (hno : ¬ (self.updateJacobian = true ∧ self.Jprev.rows = y.length))
    (hR : Rraw.length = xk.length) (hy : y.length = xk.length)
    (h0 : self.scalingFactors0 ≠ 0) (h1 : self.scalingFactors1 ≠ 0) :
    fixedUnderRelaxation base self xk (applyScaling self Rraw) (applyScaling self y)
      = vadd xk (vsmul base.initialRelaxation (vsub Rraw y)) ∧
    fixedUnderRelaxation base { self with scaling := false } xk Rraw y
      = vadd xk (vsmul base.initialRelaxation (vsub Rraw y)) := by
  have hc : (self.updateJacobian && decide (self.Jprev.rows = y.length)) = false := by
    rcases Bool.eq_false_or_eq_true self.updateJacobian with hu | hu
    · have : ¬ self.Jprev.rows = y.length := fun e => hno ⟨hu, e⟩
      simp [this]
    · simp [hu]
  have hRy : Rraw.length = y.length := by rw [hR, hy]
  constructor
  · unfold fixedUnderRelaxation relaxationStep
    simp only [length_applyScaling, hc, Bool.false_eq_true, if_false, hs, if_true]
    congr 1
    have hl : (vsmul base.initialRelaxation
        (vsub (applyScaling self Rraw) (applyScaling self y))).length = xk.length := by
      rw [length_vsmul, length_vsub, length_applyScaling, length_applyScaling, hR, hy,
        Nat.min_self]
    apply ext_getD
    · rw [length_removeScaling, hl, length_vsmul, length_vsub, hR, hy, Nat.min_self]
    · intro i hi
      rw [length_removeScaling, hl] at hi
      have hiR : i < Rraw.length := by rw [hR]; exact hi
      have hiy : i < y.length := by rw [hy]; exact hi
      rw [getD_removeScaling _ _ _ (by rw [hl]; exact hi), hl, getD_vsmul,
        getD_vsub _ _ _ (by rw [length_applyScaling, length_applyScaling, hRy]),
        getD_applyScaling _ _ _ hiR, getD_applyScaling _ _ _ hiy, getD_vsmul,
        getD_vsub _ _ _ hRy, hR, hy]
      by_cases ha : xk.length - self.sizeVar1 ≤ i <;> by_cases hb : i < self.sizeVar0 <;>
        simp only [ha, hb, if_true, if_false] <;>
          first | rfl | (field_simp; done) | (field_simp; ring)
  · unfold fixedUnderRelaxation relaxationStep
    simp [hc]

/-- C20, at factors `100` and `1` with block sizes `1` and `1`. -/
theorem scaling_cancels_in_relaxation_witness :
    sampleSelf.scaling = true ∧
    sampleSelf.sizeVar0 + sampleSelf.sizeVar1 = ([1, 2] : Vec).length ∧
    applyScaling sampleSelf [300, 4] = [3, 4] ∧
    fixedUnderRelaxation sampleBase sampleSelf [1, 2] (applyScaling sampleSelf [300, 4])
        (applyScaling sampleSelf [0, 0])
      = vadd [1, 2] (vsmul sampleBase.initialRelaxation (vsub [300, 4] [0, 0])) :=
  ⟨rfl, rfl, by norm_num [applyScaling, onHead, onTail, sampleSelf],
   (scaling_cancels_in_relaxation sampleBase sampleSelf [1, 2] [300, 4] [0, 0] rfl
     (by simp [sampleSelf]) rfl rfl (by norm_num [sampleSelf]) (by norm_num [sampleSelf])).1⟩

/-! ## Frame of `determineScalingFactors` -/

/-- C12: `determineScalingFactors` leaves every member unchanged unless
scaling is enabled and `timeIndex <= reuseInformationStartingFromTimeIndex`;
in that case, when the length check passes, the block sizes and factors are
assigned and `Jprev` is `0 x 0`, so that the zero-history step on a non-empty
vector is the relaxation step. The other members never change. -/
theorem determineScalingFactors_frame {E : Type} (env : Env E) (base : PostProcessing E)
    (self : Anderson) (output : Vec) :
    (¬ (self.scaling = true ∧
        base.timeIndex ≤ base.reuseInformationStartingFromTimeIndex) →
      determineScalingFactors env base self output = .ok self) ∧
    (self.scaling = true →
      base.timeIndex ≤ base.reuseInformationStartingFromTimeIndex →
      output.length =
        env.solidCouplingGridSize base.fsi * env.solidDim base.fsi
          + env.fluidCouplingGridSize base.fsi * env.fluidDim base.fsi →
      ∃ s, determineScalingFactors env base self output = .ok s ∧
        s.Jprev = Mat.empty ∧ s.Jprev.rows = 0 ∧ s.Jprev.cols = 0 ∧
        s.sizeVar0 = env.solidCouplingGridSize base.fsi * env.solidDim base.fsi ∧
        s.sizeVar1 = env.fluidCouplingGridSize base.fsi * env.fluidDim base.fsi ∧
        s.scalingFactors0 = floorFactor (env.norm (output.take s.sizeVar0)) ∧
        s.scalingFactors1 =
          floorFactor (env.norm (output.drop (output.length - s.sizeVar1))) ∧
        ∀ R yk : Vec, 0 < yk.length →
          relaxationStep base s R yk = vsmul base.initialRelaxation (vsub R yk)) ∧
    (∀ s, determineScalingFactors env base self output = .ok s →
      s.scaling = self.scaling ∧ s.beta = self.beta ∧
      s.singularityLimit = self.singularityLimit ∧
      s.updateJacobian = self.updateJacobian ∧
      (s.Jprev = self.Jprev ∨ s.Jprev = Mat.empty)) := by
  refine ⟨?_, ?_, ?_⟩
  · intro hg
    unfold determineScalingFactors
    have hc : (self.scaling &&
        decide (base.timeIndex ≤ base.reuseInformationStartingFromTimeIndex)) = false := by
      rcases Bool.eq_false_or_eq_true self.scaling with hu | hu
      · have : ¬ base.timeIndex ≤ base.reuseInformationStartingFromTimeIndex :=
          fun e => hg ⟨hu, e⟩
        simp [this]
      · simp [hu]
    simp only [hc, Bool.false_eq_true, if_false]
  · intro hs ht hlen
    unfold determineScalingFactors
    have hc : (self.scaling &&
        decide (base.timeIndex ≤ base.reuseInformationStartingFromTimeIndex)) = true := by
      simp [hs, ht]
    rw [if_pos hc]
    simp only
    rw [if_neg (by simpa using hlen)]
    refine ⟨_, rfl, rfl, rfl, rfl, rfl, rfl, rfl, rfl, ?_⟩
    intro R yk hpos
    unfold relaxationStep
    have hne : ¬ (Mat.empty.rows = yk.length) := by
      show ¬ (0 = yk.length)
      omega
    simp [hne]
  · intro s h
    unfold determineScalingFactors at h
    split at h
    · simp only at h
      split at h
      · cases h
      · cases h
        exact ⟨rfl, rfl, rfl, rfl, Or.inr rfl⟩
    · cases h
      exact ⟨rfl, rfl, rfl, rfl, Or.inl rfl⟩

/-! ## Evaluator faults -/

theorem evaluateStep_fault {E : Type} (env : Env E) (y x0 : Vec) (rc : Bool) (l : Locals E)
    (out : Outcome E) (h : evaluateStep env y x0 rc l = .inl out)
    (hs : out.status = .evaluationFault) :
    out.final.xk = l.xk ∧ out.final.calls = l.xk :: l.calls ∧ out.final.trace = l.trace ∧
    env.evaluate out.final.base.fsi out.final.xk = none := by
  unfold evaluateStep at h
  simp only at h
  split at h
  · rename_i hev
    cases h
    exact ⟨rfl, rfl, rfl, hev⟩
  · split at h
    · cases h; cases hs
    · split at h
      · cases h; cases hs
      · have := (rescaleStep_inl _ _ _ _ _ h).1
        rw [this] at hs; cases hs

theorem iteration_fault {E : Type} (env : Env E) (y x0 : Vec) (rc : Bool) (l : Locals E)
    (out : Outcome E) (h : iteration env y x0 rc l = .inl out)
    (hs : out.status = .evaluationFault) :
    out.final.calls = out.final.xk :: l.calls ∧ out.final.trace = l.trace ∧
    env.evaluate out.final.base.fsi out.final.xk = none := by
  unfold iteration at h
  split at h
  · rename_i o hu
    cases h
    rcases (updateStep_inl env l _ hu).1 with s | s <;> (rw [s] at hs; cases hs)
  · rename_i lu hu
    obtain ⟨u1, u2, _, _⟩ := updateStep_inr env l lu hu
    obtain ⟨e1, e2, e3, e4⟩ := evaluateStep_fault env y x0 rc lu out h hs
    exact ⟨by rw [e2, e1, u2], by rw [e3, u1], e4⟩

theorem loop_fault {E : Type} (env : Env E) (y x0 : Vec) (rc : Bool) :
    ∀ (n : Nat) (l : Locals E),
      l.calls.length = l.trace.length → 1 ≤ l.trace.length →
      (loop env y x0 rc n l).status = .evaluationFault →
      (loop env y x0 rc n l).final.calls.head? = some (loop env y x0 rc n l).final.xk ∧
      env.evaluate (loop env y x0 rc n l).final.base.fsi (loop env y x0 rc n l).final.xk
        = none ∧
      (loop env y x0 rc n l).final.calls.length
        = (loop env y x0 rc n l).final.trace.length + 1 ∧
      1 ≤ (loop env y x0 rc n l).final.trace.length := by
  intro n
  induction n with
  | zero => intro l _ _ h; cases h
  | succ n ih =>
    intro l ht h1
    unfold loop
    split
    · rename_i out hit
      intro hs
      obtain ⟨a, b, c⟩ := iteration_fault env y x0 rc l out hit hs
      exact ⟨by rw [a]; rfl, c, by rw [a, b, List.length_cons, ht], by rw [b]; exact h1⟩
    · rename_i l1 hit
      obtain ⟨⟨rec, r1, _, _, _, r5⟩, _⟩ := iteration_inr env y x0 rc l l1 hit
      exact ih l1 (by rw [r5, r1, List.length_cons, List.length_cons, ht])
        (by rw [r1, List.length_cons]; omega)

theorem startUp_fault {E : Type} (env : Env E) (base : PostProcessing E) (self : Anderson)
    (y x0 xk : Vec) (rc : Bool) (out : Outcome E)
    (h : startUp env base self y x0 xk rc = .inl out)
    (hs : out.status = .evaluationFault) :
    out.final.calls = [x0] ∧ out.final.xk = x0 ∧ out.final.trace = [] ∧
    env.evaluate out.final.base.fsi out.final.xk = none := by
  unfold startUp at h
  simp only at h
  split at h
  · cases h; cases hs
  · split at h
    · rename_i hev
      cases h
      exact ⟨rfl, rfl, rfl, hev⟩
    · split at h
      · cases h; cases hs
      · split at h
        · cases h; cases hs
        · split at h
          · cases h; cases hs
          · cases h

/-- C13, refuted: the evaluator succeeds at `x0 = [1]` and faults at the next
iterate; the call is entered with `xk = [1]` and aborts with `xk = [5/4]`. -/
theorem evaluation_fault_changes_xk :
    (performPostProcessing secondFaultEnv sampleBase plainSelf [0] [1] [1] true).status
      = .evaluationFault ∧
    (performPostProcessing secondFaultEnv sampleBase plainSelf [0] [1] [1] true).final.xk
      = [5 / 4] ∧
    (performPostProcessing secondFaultEnv sampleBase plainSelf [0] [1] [1] true).final.xk
      ≠ [1] ∧
    (performPostProcessing faultEnv sampleBase plainSelf [0] [1] [0] true).status
      = .evaluationFault ∧
    (performPostProcessing faultEnv sampleBase plainSelf [0] [1] [0] true).final.xk
      ≠ [0] := by
  have h1 : (performPostProcessing secondFaultEnv sampleBase plainSelf [0] [1] [1] true).status
        = .evaluationFault ∧
      (performPostProcessing secondFaultEnv sampleBase plainSelf [0] [1] [1] true).final.xk
        = [5 / 4] := by
    simp [performPostProcessing, startUp, loop, iteration, updateStep, evaluateStep,
      rescaleStep, entryAssertions, determineScalingFactors, countColumns,
      fixedUnderRelaxation, relaxationStep, secondFaultEnv, sampleEnv, sampleBase, plainSelf,
      stop, vsub, vadd, vsmul, Mat.empty, windowColumns]
    norm_num
  have h2 : (performPostProcessing faultEnv sampleBase plainSelf [0] [1] [0] true).status
        = .evaluationFault ∧
      (performPostProcessing faultEnv sampleBase plainSelf [0] [1] [0] true).final.xk
        = [1] := by
    simp [performPostProcessing, startUp, entryAssertions, faultEnv, sampleEnv, sampleBase,
      plainSelf, stop]
  refine ⟨h1.1, h1.2, ?_, h2.1, ?_⟩
  · rw [h1.2]; norm_num
  · rw [h2.2]; norm_num

/-- C13, amended: a call that ends with an evaluator fault ends at the
failing call, which is the only unrecorded one, and `xk` holds the argument of
that call: `x0` for the initial evaluation, the updated iterate inside the
loop. -/
theorem evaluation_fault_state {E : Type} (env : Env E) (base : PostProcessing E)
    (self : Anderson) (y x0 xk : Vec) (rc : Bool)
    (h : (performPostProcessing env base self y x0 xk rc).status = .evaluationFault) :
    (performPostProcessing env base self y x0 xk rc).final.calls.head?
      = some (performPostProcessing env base self y x0 xk rc).final.xk ∧
    env.evaluate (performPostProcessing env base self y x0 xk rc).final.base.fsi
      (performPostProcessing env base self y x0 xk rc).final.xk = none ∧
    (performPostProcessing env base self y x0 xk rc).final.calls.length
      = (performPostProcessing env base self y x0 xk rc).final.trace.length + 1 ∧
    ((performPostProcessing env base self y x0 xk rc).final.trace = [] →
      (performPostProcessing env base self y x0 xk rc).final.xk = x0) := by
  revert h
  unfold performPostProcessing
  split
  · rename_i out hst
    intro hs
    obtain ⟨a, b, c, d⟩ := startUp_fault env base self y x0 xk rc out hst hs
    exact ⟨by rw [a, b]; rfl, d, by rw [a, c]; rfl, fun _ => b⟩
  · rename_i l hst
    intro hs
    obtain ⟨c, _, _, rec, t, _⟩ := startUp_inr env base self y x0 xk rc l hst
    obtain ⟨a, b, d, e⟩ := loop_fault env y x0 rc (l.base.maxIter - 1).toNat l
      (by rw [c, t]; rfl) (by rw [t]; simp) hs
    refine ⟨a, b, d, fun h0 => ?_⟩
    rw [h0] at e
    simp at e

/-- C13, amended, at the run whose second evaluation faults. -/
theorem evaluation_fault_state_witness :
    (performPostProcessing secondFaultEnv sampleBase plainSelf [0] [1] [1] true).status
      = .evaluationFault ∧
    (performPostProcessing secondFaultEnv sampleBase plainSelf [0] [1] [1] true).final.calls.head?
      = some (performPostProcessing secondFaultEnv sampleBase plainSelf [0] [1] [1]
          true).final.xk := by
  have h1 : (performPostProcessing secondFaultEnv sampleBase plainSelf [0] [1] [1] true).status
        = .evaluationFault := by
    simp [performPostProcessing, startUp, loop, iteration, updateStep, evaluateStep,
      rescaleStep, entryAssertions, determineScalingFactors, countColumns,
      fixedUnderRelaxation, relaxationStep, secondFaultEnv, sampleEnv, sampleBase, plainSelf,
      stop, vsub, vadd, vsmul, Mat.empty, windowColumns]
  exact ⟨h1, (evaluation_fault_state secondFaultEnv sampleBase plainSelf [0] [1] [1] true h1).1⟩

/-! ## Dimension mismatch -/

/-- C14, refuted: block sizes `1 + 1`, vectors of length `1`, call entered
with `xk = [0]` and `sizeVar0 = sizeVar1 = 0`. The assertion fails after the
evaluator was called at `[1]`, with `xk = [1]` and both block sizes `1`. -/
theorem dimension_mismatch_after_mutation :
    freshSelf.scaling = true ∧
    sampleBase.timeIndex ≤ sampleBase.reuseInformationStartingFromTimeIndex ∧
    ([1] : Vec).length ≠ freshSelf.sizeVar0 + freshSelf.sizeVar1 ∧
    (performPostProcessing sampleEnv sampleBase freshSelf [0] [1] [0] true).status
      = .assertionFailure ∧
    (performPostProcessing sampleEnv sampleBase freshSelf [0] [1] [0] true).final.calls
      = [[1]] ∧
    (performPostProcessing sampleEnv sampleBase freshSelf [0] [1] [0] true).final.xk
      ≠ [0] ∧
    (performPostProcessing sampleEnv sampleBase freshSelf [0] [1] [0] true).final.self.sizeVar0
      ≠ freshSelf.sizeVar0 := by
  have h : (performPostProcessing sampleEnv sampleBase freshSelf [0] [1] [0] true).status
        = .assertionFailure ∧
      (performPostProcessing sampleEnv sampleBase freshSelf [0] [1] [0] true).final.calls
        = [[1]] ∧
      (performPostProcessing sampleEnv sampleBase freshSelf [0] [1] [0] true).final.xk
        = [1] ∧
      (performPostProcessing sampleEnv sampleBase freshSelf [0] [1] [0]
        true).final.self.sizeVar0 = 1 := by
    simp [performPostProcessing, startUp, entryAssertions, determineScalingFactors, sampleEnv,
      sampleBase, freshSelf, plainSelf, stop]
  refine ⟨rfl, by simp [sampleBase], by simp [freshSelf, plainSelf], h.1, h.2.1, ?_, ?_⟩
  · rw [h.2.2.1]; norm_num
  · rw [h.2.2.2]; simp [freshSelf, plainSelf]

/-- C14, amended: with scaling enabled and
`timeIndex <= reuseInformationStartingFromTimeIndex`, when the output of the
first evaluation has a length other than the sum of the solvers' block sizes,
the call ends with an assertion failure right after that evaluation. At that
moment `xk` is `x0`, the current window is empty, `sizeVar0` and `sizeVar1`
hold the solvers' block sizes, and `scalingFactors` and `Jprev` have their
entry values. -/
theorem dimension_mismatch_state {E : Type} (env : Env E) (base : PostProcessing E)
    (self : Anderson) (y x0 xk : Vec) (rc : Bool) (e : E) (output R : Vec)
    (hentry : entryAssertions env base y x0 xk = true)
    (hev : env.evaluate base.fsi x0 = some (e, output, R))
    (hs : self.scaling = true)
    (ht : base.timeIndex ≤ base.reuseInformationStartingFromTimeIndex)
    (hlen : output.length ≠
      env.solidCouplingGridSize e * env.solidDim e
        + env.fluidCouplingGridSize e * env.fluidDim e) :
    (performPostProcessing env base self y x0 xk rc).status = .assertionFailure ∧
    (performPostProcessing env base self y x0 xk rc).final.calls = [x0] ∧
    (performPostProcessing env base self y x0 xk rc).final.trace = [] ∧
    (performPostProcessing env base self y x0 xk rc).final.xk = x0 ∧
    (performPostProcessing env base self y x0 xk rc).final.base.sols = [] ∧
    (performPostProcessing env base self y x0 xk rc).final.base.residuals = [] ∧
    (performPostProcessing env base self y x0 xk rc).final.self.sizeVar0
      = env.solidCouplingGridSize e * env.solidDim e ∧
    (performPostProcessing env base self y x0 xk rc).final.self.sizeVar1
      = env.fluidCouplingGridSize e * env.fluidDim e ∧
    (performPostProcessing env base self y x0 xk rc).final.self.scalingFactors0
      = self.scalingFactors0 ∧
    (performPostProcessing env base self y x0 xk rc).final.self.scalingFactors1
      = self.scalingFactors1 ∧
    (performPostProcessing env base self y x0 xk rc).final.self.Jprev = self.Jprev := by
  have hc : (self.scaling &&
      decide (base.timeIndex ≤ base.reuseInformationStartingFromTimeIndex)) = true := by
    simp [hs, ht]
  have hd : determineScalingFactors env { base with residuals := [], sols := [], fsi := e }
      self output =
      .error { self with
        sizeVar0 := env.solidCouplingGridSize e * env.solidDim e
        sizeVar1 := env.fluidCouplingGridSize e * env.fluidDim e } := by
    unfold determineScalingFactors
    simp only
    rw [if_pos hc, if_pos hlen]
  unfold performPostProcessing startUp
  simp [hentry, hev, hd, stop]

/-- C14, amended, at the run with block sizes `1 + 1` and vectors of length `1`. -/
theorem dimension_mismatch_state_witness :
    entryAssertions sampleEnv sampleBase [0] [1] [0] = true ∧
    sampleEnv.evaluate sampleBase.fsi [1] = some ((), [1], vsmul (1 / 2) [1]) ∧
    (performPostProcessing sampleEnv sampleBase freshSelf [0] [1] [0] true).status
      = .assertionFailure ∧
    (performPostProcessing sampleEnv sampleBase freshSelf [0] [1] [0] true).final.xk = [1] := by
  have h1 : entryAssertions sampleEnv sampleBase [0] [1] [0] = true := by
    simp [entryAssertions, sampleEnv, sampleBase]
  have h2 : sampleEnv.evaluate sampleBase.fsi [1] = some ((), [1], vsmul (1 / 2) [1]) := rfl
  have ht := dimension_mismatch_state sampleEnv sampleBase freshSelf [0] [1] [0] true ()
    [1] (vsmul (1 / 2) [1]) h1 h2 rfl (by simp [sampleBase]) (by simp [sampleEnv])
  exact ⟨h1, h2, ht.1, ht.2.2.2.1⟩

/-! ## Caching of the Jacobian -/

theorem jprevKept_refl (s : Anderson) : JprevKept s s := ⟨rfl, Or.inl rfl⟩

theorem jprevKept_trans {a b c : Anderson} (h1 : JprevKept a b) (h2 : JprevKept b c) :
    JprevKept a c := by
  refine ⟨h2.1.trans h1.1, ?_⟩
  rcases h2.2 with h | h
  · rcases h1.2 with g | g
    · exact Or.inl (h.trans g)
    · exact Or.inr (h.trans g)
  · exact Or.inr h

theorem determineScalingFactors_kept {E : Type} (env : Env E) (base : PostProcessing E)
    (self s : Anderson) (output : Vec)
    (h : determineScalingFactors env base self output = .ok s ∨
      determineScalingFactors env base self output = .error s) :
    JprevKept self s := by
  unfold determineScalingFactors at h
  split at h
  · simp only at h
    split at h
    · rcases h with h | h
      · cases h
      · cases h; exact ⟨rfl, Or.inl rfl⟩
    · rcases h with h | h
      · cases h; exact ⟨rfl, Or.inr rfl⟩
      · cases h
  · rcases h with h | h
    · cases h; exact ⟨rfl, Or.inl rfl⟩
    · cases h

theorem updateStep_self {E : Type} (env : Env E) (l : Locals E) (out : Outcome E)
    (h : updateStep env l = .inl out) : out.final.self = l.self := by
  unfold updateStep at h
  simp only at h
  split at h
  · cases h; rfl
  · split at h
    · split at h
      · cases h
        simp only [stop]
        split <;> rfl
      · cases h
    · cases h

theorem rescaleStep_kept_inl {E : Type} (env : Env E) (y output : Vec) (l : Locals E)
    (out : Outcome E) (h : rescaleStep env y output l = .inl out) :
    JprevKept l.self out.final.self ∧ out.final.J = l.J := by
  unfold rescaleStep at h
  split at h
  · rename_i s hd
    cases h
    exact ⟨determineScalingFactors_kept env l.base l.self s output (Or.inr hd), rfl⟩
  · rename_i s hd
    have hk := determineScalingFactors_kept env l.base l.self s output (Or.inl hd)
    simp only at h
    repeat' split at h
    all_goals cases h
    all_goals exact ⟨hk, rfl⟩

theorem rescaleStep_kept_inr {E : Type} (env : Env E) (y output : Vec) (l l1 : Locals E)
    (h : rescaleStep env y output l = .inr l1) :
    JprevKept l.self l1.self ∧ l1.J = l.J := by
  unfold rescaleStep at h
  split at h
  · cases h
  · rename_i s hd
    have hk := determineScalingFactors_kept env l.base l.self s output (Or.inl hd)
    simp only at h
    repeat' split at h
    all_goals cases h
    all_goals exact ⟨hk, rfl⟩

theorem convergedState_self {E : Type} (env : Env E) (rc inLoop : Bool) (l : Locals E) :
    (convergedState env rc inLoop l).J = l.J ∧
    (convergedState env rc inLoop l).self.updateJacobian = l.self.updateJacobian ∧
    ((inLoop = true ∧ l.self.updateJacobian = true ∧ 0 < l.J.cols ∧
        (convergedState env rc inLoop l).base.timeIndex
          ≥ (convergedState env rc inLoop l).base.reuseInformationStartingFromTimeIndex) →
      (convergedState env rc inLoop l).self.Jprev = l.J) ∧
    (¬ (inLoop = true ∧ l.self.updateJacobian = true ∧ 0 < l.J.cols ∧
        (convergedState env rc inLoop l).base.timeIndex
          ≥ (convergedState env rc inLoop l).base.reuseInformationStartingFromTimeIndex) →
      (convergedState env rc inLoop l).self.Jprev = l.self.Jprev) := by
  unfold convergedState
  simp only
  generalize env.iterationsConverged (rc || decide (l.base.solsList.length = 0)) l.base = b
  by_cases hc : (inLoop && (l.self.updateJacobian && decide (l.J.cols > 0)
      && decide (b.timeIndex ≥ b.reuseInformationStartingFromTimeIndex))) = true
  · rw [if_pos hc]
    simp only [Bool.and_eq_true, decide_eq_true_eq] at hc
    refine ⟨?_, ?_, fun _ => ?_, fun hn => absurd ⟨hc.1, hc.2.1.1, hc.2.1.2, hc.2.2⟩ hn⟩
    all_goals first | rfl | trivial
  · rw [if_neg hc]
    simp only [Bool.and_eq_true, decide_eq_true_eq] at hc
    refine ⟨?_, ?_, fun hp => absurd ⟨hp.1, ⟨hp.2.1, hp.2.2.1⟩, hp.2.2.2⟩ hc, fun _ => ?_⟩
    all_goals first | rfl | trivial

theorem evaluateStep_kept_inl {E : Type} (env : Env E) (y x0 : Vec) (rc : Bool)
    (l : Locals E) (out : Outcome E) (h : evaluateStep env y x0 rc l = .inl out) :
    out.final.J = l.J ∧ out.final.self.updateJacobian = l.self.updateJacobian ∧
    ((out.status = .converged ∧
        ((l.self.updateJacobian = true ∧ 0 < l.J.cols ∧
            out.final.base.timeIndex ≥ out.final.base.reuseInformationStartingFromTimeIndex) →
          out.final.self.Jprev = l.J) ∧
        (¬ (l.self.updateJacobian = true ∧ 0 < l.J.cols ∧
            out.final.base.timeIndex ≥ out.final.base.reuseInformationStartingFromTimeIndex) →
          out.final.self.Jprev = l.self.Jprev)) ∨
      (out.status ≠ .converged ∧ JprevKept l.self out.final.self)) := by
  unfold evaluateStep at h
  simp only at h
  split at h
  · cases h
    exact ⟨rfl, rfl, Or.inr ⟨by simp [stop], jprevKept_refl _⟩⟩
  · rename_i e output R hev
    split at h
    · cases h
      exact ⟨rfl, rfl, Or.inr ⟨by simp [stop], jprevKept_refl _⟩⟩
    · split at h
      · cases h
        obtain ⟨c1, c2, c3, c4⟩ := convergedState_self env rc true
          { base := { fsi := (env.isConvergence e output (vsub (vadd output y) R) rc).1,
                      initialRelaxation := l.base.initialRelaxation,
                      maxIter := l.base.maxIter,
                      maxUsedIterations := l.base.maxUsedIterations,
                      nbReuse := l.base.nbReuse,
                      reuseInformationStartingFromTimeIndex :=
                        l.base.reuseInformationStartingFromTimeIndex,
                      timeIndex := l.base.timeIndex,
                      initStage_ := l.base.initStage_,
                      stageIndex := l.base.stageIndex,
                      k := l.base.k,
                      sols := l.xk :: l.base.sols,
                      residuals := R :: l.base.residuals,
                      solsList := l.base.solsList,
                      solsStageList := l.base.solsStageList,
                      residualsStageList := l.base.residualsStageList,
                      solsTimeList := l.base.solsTimeList,
                      residualsTimeList := l.base.residualsTimeList },
            self := l.self, xk := l.xk, yk := l.yk, J := l.J, R := R,
            calls := l.xk :: l.calls,
            trace := ⟨l.xk, output, R, l.xk :: l.base.sols, R :: l.base.residuals⟩ :: l.trace }
        exact ⟨c1, c2, Or.inl ⟨rfl, fun hp => c3 ⟨rfl, hp⟩, fun hn => c4 (fun hp => hn hp.2)⟩⟩
      · obtain ⟨k1, k2⟩ := rescaleStep_kept_inl _ _ _ _ _ h
        have hs := (rescaleStep_inl _ _ _ _ _ h).1
        exact ⟨k2, k1.1, Or.inr ⟨by rw [hs]; decide, k1⟩⟩

theorem evaluateStep_kept_inr {E : Type} (env : Env E) (y x0 : Vec) (rc : Bool)
    (l l1 : Locals E) (h : evaluateStep env y x0 rc l = .inr l1) :
    JprevKept l.self l1.self ∧ l1.J = l.J := by
  unfold evaluateStep at h
  simp only at h
  split at h
  · cases h
  · split at h
    · cases h
    · split at h
      · cases h
      · have k := rescaleStep_kept_inr _ _ _ _ _ h
        exact k

theorem iteration_kept_inl {E : Type} (env : Env E) (y x0 : Vec) (rc : Bool)
    (l : Locals E) (out : Outcome E) (h : iteration env y x0 rc l = .inl out) :
    out.final.self.updateJacobian = l.self.updateJacobian ∧
    ((out.status = .converged ∧
        ((l.self.updateJacobian = true ∧ 0 < out.final.J.cols ∧
            out.final.base.timeIndex ≥ out.final.base.reuseInformationStartingFromTimeIndex) →
          out.final.self.Jprev = out.final.J) ∧
        (¬ (l.self.updateJacobian = true ∧ 0 < out.final.J.cols ∧
            out.final.base.timeIndex ≥ out.final.base.reuseInformationStartingFromTimeIndex) →
          out.final.self.Jprev = l.self.Jprev)) ∨
      (out.status ≠ .converged ∧ JprevKept l.self out.final.self)) := by
  unfold iteration at h
  split at h
  · rename_i o hu
    cases h
    have hs := updateStep_self env l _ hu
    have hst := (updateStep_inl env l _ hu).1
    refine ⟨by rw [hs], Or.inr ⟨?_, by rw [hs]; exact jprevKept_refl _⟩⟩
    rcases hst with s | s <;> (rw [s]; decide)
  · rename_i lu hu
    obtain ⟨_, _, _, u4⟩ := updateStep_inr env l lu hu
    obtain ⟨e1, e2, e3⟩ := evaluateStep_kept_inl env y x0 rc lu out h
    rw [u4] at e2 e3
    rw [← e1] at e3
    exact ⟨e2, e3⟩

theorem iteration_kept_inr {E : Type} (env : Env E) (y x0 : Vec) (rc : Bool)
    (l l1 : Locals E) (h : iteration env y x0 rc l = .inr l1) :
    JprevKept l.self l1.self := by
  unfold iteration at h
  split at h
  · cases h
  · rename_i lu hu
    obtain ⟨_, _, _, u4⟩ := updateStep_inr env l lu hu
    have k := (evaluateStep_kept_inr env y x0 rc lu l1 h).1
    rw [u4] at k
    exact k

theorem loop_kept {E : Type} (env : Env E) (y x0 : Vec) (rc : Bool) (s0 : Anderson) :
    ∀ (n : Nat) (l : Locals E), JprevKept s0 l.self →
      (loop env y x0 rc n l).final.self.updateJacobian = s0.updateJacobian ∧
      (((loop env y x0 rc n l).status = .converged ∧
          ((s0.updateJacobian = true ∧ 0 < (loop env y x0 rc n l).final.J.cols ∧
              (loop env y x0 rc n l).final.base.timeIndex ≥
                (loop env y x0 rc n l).final.base.reuseInformationStartingFromTimeIndex) →
            (loop env y x0 rc n l).final.self.Jprev = (loop env y x0 rc n l).final.J) ∧
          (¬ (s0.updateJacobian = true ∧ 0 < (loop env y x0 rc n l).final.J.cols ∧
              (loop env y x0 rc n l).final.base.timeIndex ≥
                (loop env y x0 rc n l).final.base.reuseInformationStartingFromTimeIndex) →
            ((loop env y x0 rc n l).final.self.Jprev = s0.Jprev ∨
              (loop env y x0 rc n l).final.self.Jprev = Mat.empty))) ∨
        ((loop env y x0 rc n l).status ≠ .converged ∧
          JprevKept s0 (loop env y x0 rc n l).final.self)) := by
  intro n
  induction n with
  | zero =>
    intro l hk
    exact ⟨hk.1, Or.inr ⟨by simp [loop, stop], hk⟩⟩
  | succ n ih =>
    intro l hk
    unfold loop
    split
    · rename_i out hit
      obtain ⟨a, b⟩ := iteration_kept_inl env y x0 rc l out hit
      refine ⟨a.trans hk.1, ?_⟩
      rcases b with ⟨s, c1, c2⟩ | ⟨s, k⟩
      · rw [hk.1] at c1 c2
        refine Or.inl ⟨s, c1, fun hn => ?_⟩
        rw [c2 hn]
        exact hk.2
      · exact Or.inr ⟨s, jprevKept_trans hk k⟩
    · rename_i l1 hit
      exact ih l1 (jprevKept_trans hk (iteration_kept_inr env y x0 rc l l1 hit))

theorem startUp_kept_inl {E : Type} (env : Env E) (base : PostProcessing E)
    (self : Anderson) (y x0 xk : Vec) (rc : Bool) (out : Outcome E)
    (h : startUp env base self y x0 xk rc = .inl out) :
    JprevKept self out.final.self := by
  unfold startUp at h
  simp only at h
  split at h
  · cases h; exact jprevKept_refl _
  · split at h
    · cases h; exact jprevKept_refl _
    · rename_i e output R hev
      split at h
      · rename_i s hd
        cases h
        exact determineScalingFactors_kept env _ self s output (Or.inr hd)
      · rename_i s hd
        have hk := determineScalingFactors_kept env _ self s output (Or.inl hd)
        split at h
        · cases h; exact hk
        · split at h
          · cases h
            obtain ⟨_, c2, _, c4⟩ := convergedState_self env rc false
              { base := { fsi := (env.isConvergence e output (vsub (vadd output y) R) rc).1,
                          initialRelaxation := base.initialRelaxation,
                          maxIter := base.maxIter,
                          maxUsedIterations := base.maxUsedIterations,
                          nbReuse := base.nbReuse,
                          reuseInformationStartingFromTimeIndex :=
                            base.reuseInformationStartingFromTimeIndex,
                          timeIndex := base.timeIndex,
                          initStage_ := base.initStage_,
                          stageIndex := base.stageIndex,
                          k := base.k,
                          sols := [x0],
                          residuals := [R],
                          solsList := base.solsList,
                          solsStageList := base.solsStageList,
                          residualsStageList := base.residualsStageList,
                          solsTimeList := base.solsTimeList,
                          residualsTimeList := base.residualsTimeList },
                self := s, xk := x0, yk := y, J := Mat.empty, R := R,
                calls := [x0],
                trace := [⟨x0, output, R, [x0], [R]⟩] }
            have c5 := c4 (fun hp => Bool.noConfusion hp.1)
            exact jprevKept_trans hk ⟨c2, Or.inl c5⟩
          · cases h

theorem startUp_kept_inr {E : Type} (env : Env E) (base : PostProcessing E)
    (self : Anderson) (y x0 xk : Vec) (rc : Bool) (l : Locals E)
    (h : startUp env base self y x0 xk rc = .inr l) :
    JprevKept self l.self := by
  unfold startUp at h
  simp only at h
  split at h
  · cases h
  · split at h
    · cases h
    · split at h
      · cases h
      · rename_i s hd
        have hk := determineScalingFactors_kept env _ self s _ (Or.inl hd)
        split at h
        · cases h
        · split at h
          · cases h
          · cases h
            split <;> exact hk

/-- C11: caching of the Jacobian. `updateJacobian` never changes. When a call
stops at a convergence detected inside the loop (at least two recorded
evaluations) with `updateJacobian` set, a Jacobian `J` of more than `0`
columns and `timeIndex >= reuseInformationStartingFromTimeIndex`, the cached
`Jprev` is that `J`. In every other case `Jprev` has its entry value or is
`0 x 0`: in particular with `updateJacobian == false`, on convergence at the
first evaluation, and when the iteration budget is exhausted. -/
theorem jacobian_caching {E : Type} (env : Env E) (base : PostProcessing E)
    (self : Anderson) (y x0 xk : Vec) (rc : Bool) :
    (performPostProcessing env base self y x0 xk rc).final.self.updateJacobian
      = self.updateJacobian ∧
    (((performPostProcessing env base self y x0 xk rc).status = .converged ∧
        2 ≤ (performPostProcessing env base self y x0 xk rc).final.trace.length ∧
        self.updateJacobian = true ∧
        0 < (performPostProcessing env base self y x0 xk rc).final.J.cols ∧
        (performPostProcessing env base self y x0 xk rc).final.base.timeIndex ≥
          (performPostProcessing env base self y x0 xk
            rc).final.base.reuseInformationStartingFromTimeIndex) →
      (performPostProcessing env base self y x0 xk rc).final.self.Jprev
        = (performPostProcessing env base self y x0 xk rc).final.J) ∧
    (¬ ((performPostProcessing env base self y x0 xk rc).status = .converged ∧
        2 ≤ (performPostProcessing env base self y x0 xk rc).final.trace.length ∧
        self.updateJacobian = true ∧
        0 < (performPostProcessing env base self y x0 xk rc).final.J.cols ∧
        (performPostProcessing env base self y x0 xk rc).final.base.timeIndex ≥
          (performPostProcessing env base self y x0 xk
            rc).final.base.reuseInformationStartingFromTimeIndex) →
      ((performPostProcessing env base self y x0 xk rc).final.self.Jprev = self.Jprev ∨
        (performPostProcessing env base self y x0 xk rc).final.self.Jprev = Mat.empty)) ∧
    (self.updateJacobian = false →
      ((performPostProcessing env base self y x0 xk rc).final.self.Jprev = self.Jprev ∨
        (performPostProcessing env base self y x0 xk rc).final.self.Jprev = Mat.empty)) ∧
    ((performPostProcessing env base self y x0 xk rc).final.trace.length ≤ 1 →
      ((performPostProcessing env base self y x0 xk rc).final.self.Jprev = self.Jprev ∨
        (performPostProcessing env base self y x0 xk rc).final.self.Jprev = Mat.empty)) ∧
    ((performPostProcessing env base self y x0 xk rc).status = .exhausted →
      ((performPostProcessing env base self y x0 xk rc).final.self.Jprev = self.Jprev ∨
        (performPostProcessing env base self y x0 xk rc).final.self.Jprev = Mat.empty)) := by
  have main : (performPostProcessing env base self y x0 xk rc).final.self.updateJacobian
        = self.updateJacobian ∧
      (((performPostProcessing env base self y x0 xk rc).status = .converged ∧
          2 ≤ (performPostProcessing env base self y x0 xk rc).final.trace.length ∧
          self.updateJacobian = true ∧
          0 < (performPostProcessing env base self y x0 xk rc).final.J.cols ∧
          (performPostProcessing env base self y x0 xk rc).final.base.timeIndex ≥
            (performPostProcessing env base self y x0 xk
              rc).final.base.reuseInformationStartingFromTimeIndex) →
        (performPostProcessing env base self y x0 xk rc).final.self.Jprev
          = (performPostProcessing env base self y x0 xk rc).final.J) ∧
      (¬ ((performPostProcessing env base self y x0 xk rc).status = .converged ∧
          2 ≤ (performPostProcessing env base self y x0 xk rc).final.trace.length ∧
          self.updateJacobian = true ∧
          0 < (performPostProcessing env base self y x0 xk rc).final.J.cols ∧
          (performPostProcessing env base self y x0 xk rc).final.base.timeIndex ≥
            (performPostProcessing env base self y x0 xk
              rc).final.base.reuseInformationStartingFromTimeIndex) →
        ((performPostProcessing env base self y x0 xk rc).final.self.Jprev = self.Jprev ∨
          (performPostProcessing env base self y x0 xk rc).final.self.Jprev = Mat.empty)) := by
    unfold performPostProcessing
    split
    · rename_i out hst
      have hk := startUp_kept_inl env base self y x0 xk rc out hst
      refine ⟨hk.1, fun hp => ?_, fun _ => hk.2⟩
      rcases startUp_inl env base self y x0 xk rc out hst with
        ⟨s, _⟩ | ⟨s, _⟩ | ⟨s, _⟩ | ⟨_, _, _, _, ⟨rec, t, _⟩, _⟩
      · rw [s] at hp; exact absurd hp.1 (by decide)
      · rw [s] at hp; exact absurd hp.1 (by decide)
      · rw [s] at hp; exact absurd hp.1 (by decide)
      · rw [t] at hp
        have := hp.2.1
        simp at this
    · rename_i l hst
      have hk := startUp_kept_inr env base self y x0 xk rc l hst
      obtain ⟨a, b⟩ := loop_kept env y x0 rc self (l.base.maxIter - 1).toNat l hk
      refine ⟨a, fun hp => ?_, fun hn => ?_⟩
      · rcases b with ⟨_, c1, _⟩ | ⟨s, _⟩
        · exact c1 ⟨hp.2.2.1, hp.2.2.2.1, hp.2.2.2.2⟩
        · exact absurd hp.1 s
      · rcases b with ⟨s, _, c2⟩ | ⟨_, k⟩
        · obtain ⟨c, _, _, rec, t, _⟩ := startUp_inr env base self y x0 xk rc l hst
          have h2 := (loop_converged env y x0 rc (l.base.maxIter - 1).toNat l
            (by rw [c, t]; rfl) (by rw [t]; simp) s).2.2.2
          exact c2 (fun hp => hn ⟨s, h2, hp⟩)
        · exact k.2
  obtain ⟨m1, m2, m3⟩ := main
  refine ⟨m1, m2, m3, fun hu => m3 (fun hp => ?_), fun ht => m3 (fun hp => ?_),
    fun he => m3 (fun hp => ?_)⟩
  · rw [hu] at hp; exact Bool.noConfusion hp.2.2.1
  · omega
  · rw [he] at hp; exact absurd hp.1 (by decide)

/-- C11, at a concrete run in Jacobian-update mode with one column: the call
converges at its third evaluation and caches the Jacobian `[[-61/64]]`. -/
theorem jacobian_caching_witness :
    (performPostProcessing cachingEnv { sampleBase with maxUsedIterations := 1 }
      { plainSelf with updateJacobian := true } [0] [1] [0] true).status = .converged ∧
    (performPostProcessing cachingEnv { sampleBase with maxUsedIterations := 1 }
      { plainSelf with updateJacobian := true } [0] [1] [0] true).final.J
        = ⟨1, [[-61 / 64]]⟩ ∧
    (performPostProcessing cachingEnv { sampleBase with maxUsedIterations := 1 }
      { plainSelf with updateJacobian := true } [0] [1] [0] true).final.self.Jprev
        = (performPostProcessing cachingEnv { sampleBase with maxUsedIterations := 1 }
            { plainSelf with updateJacobian := true } [0] [1] [0] true).final.J := by
  have he : (performPostProcessing cachingEnv { sampleBase with maxUsedIterations := 1 }
        { plainSelf with updateJacobian := true } [0] [1] [0] true).status = .converged ∧
      (performPostProcessing cachingEnv { sampleBase with maxUsedIterations := 1 }
        { plainSelf with updateJacobian := true } [0] [1] [0] true).final.J
          = ⟨1, [[-61 / 64]]⟩ ∧
      (performPostProcessing cachingEnv { sampleBase with maxUsedIterations := 1 }
        { plainSelf with updateJacobian := true } [0] [1] [0] true).final.trace.length = 3 ∧
      (performPostProcessing cachingEnv { sampleBase with maxUsedIterations := 1 }
        { plainSelf with updateJacobian := true } [0] [1] [0] true).final.base.timeIndex = 0 ∧
      (performPostProcessing cachingEnv { sampleBase with maxUsedIterations := 1 }
        { plainSelf with updateJacobian := true } [0] [1] [0]
          true).final.base.reuseInformationStartingFromTimeIndex = 0 := by
    norm_num [performPostProcessing, startUp, loop, iteration, updateStep, evaluateStep,
      rescaleStep, entryAssertions, determineScalingFactors, countColumns,
      fixedUnderRelaxation, relaxationStep, cachingEnv, sampleEnv, sampleBase, plainSelf,
      stop, vsub, vadd, vsmul, Mat.empty, windowColumns, convergedState, andersonUpdate,
      constructVW, fillLoops, fillCurrent, fillStages, fillGroup, fillWindow, fillStep,
      fillTimes, correction, jacobian, Vinverse, singularValuesInv, Mat.mul, Mat.add, Mat.sub,
      Mat.mulVec, Mat.asDiagonal, Mat.transpose, Mat.identity, Mat.ofFn, Mat.entry, Mat.cols,
      List.range_succ, bind, Except.bind, pure, Except.pure]
  exact ⟨he.1, he.2.1,
    (jacobian_caching cachingEnv { sampleBase with maxUsedIterations := 1 }
      { plainSelf with updateJacobian := true } [0] [1] [0] true).2.1
      ⟨he.1, by rw [he.2.2.1]; decide, rfl, by rw [he.2.1]; decide,
        by rw [he.2.2.2.1, he.2.2.2.2]⟩⟩

/-! ## Matrix algebra -/

theorem entry_add (A B : Mat) (i j : Nat) :
    (A.add B).entry i j = if i < A.rows ∧ j < A.cols then A.entry i j + B.entry i j else 0 := by
  unfold Mat.add; rw [entry_ofFn]

theorem entry_sub (A B : Mat) (i j : Nat) :
    (A.sub B).entry i j = if i < A.rows ∧ j < A.cols then A.entry i j - B.entry i j else 0 := by
  unfold Mat.sub; rw [entry_ofFn]

theorem entry_smul (c : ℚ) (A : Mat) (i j : Nat) :
    (A.smul c).entry i j = if i < A.rows ∧ j < A.cols then c * A.entry i j else 0 := by
  unfold Mat.smul; rw [entry_ofFn]

theorem entry_identity (n i j : Nat) :
    (Mat.identity n).entry i j = if i < n ∧ j < n then (if i = j then 1 else 0) else 0 := by
  unfold Mat.identity; rw [entry_ofFn]

theorem toMatrix_mul (A B : Mat) (m n : Nat) (hm : m ≤ A.rows) (hn : n ≤ B.cols) :
    (A.mul B).toMatrix m n = A.toMatrix m A.cols * B.toMatrix A.cols n := by
  ext i j
  simp only [Mat.toMatrix, Matrix.mul_apply]
  rw [entry_mul, if_pos ⟨lt_of_lt_of_le i.isLt hm, lt_of_lt_of_le j.isLt hn⟩,
    Finset.sum_range]

theorem toMatrix_add (A B : Mat) (m n : Nat) (hm : m ≤ A.rows) (hn : n ≤ A.cols) :
    (A.add B).toMatrix m n = A.toMatrix m n + B.toMatrix m n := by
  ext i j
  simp only [Mat.toMatrix, Matrix.add_apply]
  rw [entry_add, if_pos ⟨lt_of_lt_of_le i.isLt hm, lt_of_lt_of_le j.isLt hn⟩]

theorem toMatrix_sub (A B : Mat) (m n : Nat) (hm : m ≤ A.rows) (hn : n ≤ A.cols) :
    (A.sub B).toMatrix m n = A.toMatrix m n - B.toMatrix m n := by
  ext i j
  simp only [Mat.toMatrix, Matrix.sub_apply]
  rw [entry_sub, if_pos ⟨lt_of_lt_of_le i.isLt hm, lt_of_lt_of_le j.isLt hn⟩]

theorem toMatrix_smul (c : ℚ) (A : Mat) (m n : Nat) (hm : m ≤ A.rows) (hn : n ≤ A.cols) :
    (A.smul c).toMatrix m n = c • A.toMatrix m n := by
  ext i j
  simp only [Mat.toMatrix, Matrix.smul_apply, smul_eq_mul]
  rw [entry_smul, if_pos ⟨lt_of_lt_of_le i.isLt hm, lt_of_lt_of_le j.isLt hn⟩]

theorem toMatrix_identity (n : Nat) : (Mat.identity n).toMatrix n n = 1 := by
  ext i j
  simp only [Mat.toMatrix, Matrix.one_apply]
  rw [entry_identity, if_pos ⟨i.isLt, j.isLt⟩]
  by_cases h : i = j
  · simp [h]
  · have : ¬ (i : Nat) = (j : Nat) := fun e => h (Fin.ext e)
    simp [h, this]

theorem toFun_mulVec (A : Mat) (v : Vec) (m : Nat) (hm : m ≤ A.rows) :
    toFun m (A.mulVec v) = Matrix.mulVec (A.toMatrix m A.cols) (toFun A.cols v) := by
  funext i
  simp only [toFun, Matrix.mulVec, Matrix.dotProduct, Mat.toMatrix]
  rw [getD_mulVec _ _ _ (lt_of_lt_of_le i.isLt hm), sum_map_range, Finset.sum_range]

theorem toFun_vadd (a b : Vec) (n : Nat) (h : a.length = b.length) :
    toFun n (vadd a b) = toFun n a + toFun n b := by
  funext i
  simp only [toFun, Pi.add_apply]
  rw [getD_vadd _ _ _ h]

theorem toFun_vsub (a b : Vec) (n : Nat) (h : a.length = b.length) :
    toFun n (vsub a b) = toFun n a - toFun n b := by
  funext i
  simp only [toFun, Pi.sub_apply]
  rw [getD_vsub _ _ _ h]

theorem toFun_vsmul (c : ℚ) (a : Vec) (n : Nat) :
    toFun n (vsmul c a) = c • toFun n a := by
  funext i
  simp only [toFun, Pi.smul_apply, smul_eq_mul]
  rw [getD_vsmul]

theorem eq_of_toFun_eq (a b : Vec) (n : Nat) (ha : a.length = n) (hb : b.length = n)
    (h : toFun n a = toFun n b) : a = b := by
  apply ext_getD _ _ (ha.trans hb.symm)
  intro i hi
  have := congrFun h ⟨i, ha ▸ hi⟩
  simpa [toFun] using this

theorem toMatrix_Vinverse (lim : ℚ) (svd : SVD) (k n m : Nat)
    (hVr : svd.matrixV.rows = k) (hVc : svd.matrixV.cols = m)
    (hs : svd.singularValues.length = m) (hUr : svd.matrixU.rows = n) :
    (Vinverse lim svd).toMatrix k n =
      svd.matrixV.toMatrix k m
        * (Mat.asDiagonal (singularValuesInv lim svd.singularValues)).toMatrix m m
        * svd.matrixU.transpose.toMatrix m n := by
  have hDc : (Mat.asDiagonal (singularValuesInv lim svd.singularValues)).cols = m := by
    unfold Mat.asDiagonal; rw [cols_ofFn, length_singularValuesInv, hs]
  have hUTc : svd.matrixU.transpose.cols = n := by
    unfold Mat.transpose; rw [cols_ofFn, hUr]
  have hMc : (svd.matrixV.mul
      (Mat.asDiagonal (singularValuesInv lim svd.singularValues))).cols = m := by
    unfold Mat.mul; rw [cols_ofFn, hDc]
  unfold Vinverse
  rw [toMatrix_mul _ _ k n (by show svd.matrixV.rows ≥ k; omega) (by omega), hMc,
    toMatrix_mul _ _ k m (by omega) (by omega), hVc]

theorem toFun_coefficients (lim : ℚ) (svd : SVD) (b : Vec) (k n m : Nat)
    (hVr : svd.matrixV.rows = k) (hVc : svd.matrixV.cols = m)
    (hs : svd.singularValues.length = m) (hUr : svd.matrixU.rows = n)
    (hUc : svd.matrixU.cols = m) :
    toFun k (coefficients lim svd b) =
      Matrix.mulVec ((Vinverse lim svd).toMatrix k n) (toFun n b) := by
  have hDr : (Mat.asDiagonal (singularValuesInv lim svd.singularValues)).rows = m := by
    show (singularValuesInv lim svd.singularValues).length = m
    rw [length_singularValuesInv, hs]
  have hDc : (Mat.asDiagonal (singularValuesInv lim svd.singularValues)).cols = m := by
    unfold Mat.asDiagonal; rw [cols_ofFn, length_singularValuesInv, hs]
  have hUTc : svd.matrixU.transpose.cols = n := by
    unfold Mat.transpose; rw [cols_ofFn, hUr]
  have hUTr : svd.matrixU.transpose.rows = m := hUc
  rw [toMatrix_Vinverse lim svd k n m hVr hVc hs hUr]
  unfold coefficients
  rw [toFun_mulVec _ _ k (by omega), hVc, toFun_mulVec _ _ m (by omega), hDc,
    toFun_mulVec _ _ m (by omega), hUTc, Matrix.mulVec_mulVec, Matrix.mulVec_mulVec]

/-! ## Secant condition and mode equivalence -/

theorem rows_mul (A B : Mat) : (A.mul B).rows = A.rows := rfl

theorem rows_identity (k : Nat) : (Mat.identity k).rows = k := rfl

/-- C18: the secant condition. If `V` and `W` are `n x k`, the SVD result has
`n` rows in `U`, and `Vinverse * V` is the identity, then the Jacobian of
lines 320-326 satisfies `J * V = W`, both in the refinement branch (cached
`Jprev` with `n` columns, square) and in the fresh branch. -/
theorem secant_condition (self : Anderson) (svd : SVD) (V W : Mat) (R : Vec) (n k : Nat)
    (hVr : V.rows = n) (hWr : W.rows = n) (hVc : V.cols = k) (hWc : W.cols = k)
    (hR : R.length = n) (hUr : svd.matrixU.rows = n)
    (hJ : self.Jprev.cols = n → self.Jprev.rows = n)
    (hinv : (Vinverse self.singularityLimit svd).mul V = Mat.identity k) :
    ((jacobian self svd V W R).mul V).rows = n ∧
    ((jacobian self svd V W R).mul V).cols = k ∧
    (∀ i j, i < n → j < k → ((jacobian self svd V W R).mul V).entry i j = W.entry i j) ∧
    (jacobian self svd V W R =
        if self.Jprev.cols = R.length then
          self.Jprev.add
            ((W.sub (self.Jprev.mul V)).mul (Vinverse self.singularityLimit svd))
        else ((V.add W).mul (Vinverse self.singularityLimit svd)).sub (Mat.identity V.rows)) := by
  have hIr : (Vinverse self.singularityLimit svd).rows = k := by
    rw [← rows_mul _ V, hinv, rows_identity]
  have hIc : (Vinverse self.singularityLimit svd).cols = n := by
    unfold Vinverse Mat.mul Mat.transpose
    rw [cols_ofFn, cols_ofFn, hUr]
  have hone : (Vinverse self.singularityLimit svd).toMatrix k n * V.toMatrix n k = 1 := by
    rw [← toMatrix_identity k, ← hinv, toMatrix_mul _ _ k k (by omega) (by omega), hIc]
  have key : ((jacobian self svd V W R).mul V).rows = n ∧
      ((jacobian self svd V W R).mul V).cols = k ∧
      ((jacobian self svd V W R).mul V).toMatrix n k = W.toMatrix n k := by
    unfold jacobian
    simp only
    split
    · rename_i hc
      rw [hR] at hc
      have hPr := hJ hc
      have hXc : ((W.sub (self.Jprev.mul V)).mul (Vinverse self.singularityLimit svd)).cols
          = n := by
        unfold Mat.mul; rw [cols_ofFn, hIc]
      have hSc : (W.sub (self.Jprev.mul V)).cols = k := by
        unfold Mat.sub; rw [cols_ofFn, hWc]
      refine ⟨hPr, by unfold Mat.mul; rw [cols_ofFn, hVc], ?_⟩
      have hJc : (self.Jprev.add
          ((W.sub (self.Jprev.mul V)).mul (Vinverse self.singularityLimit svd))).cols = n := by
        unfold Mat.add; rw [cols_ofFn, hc]
      rw [toMatrix_mul _ _ n k (by show self.Jprev.rows ≥ n; omega) (by omega), hJc,
        toMatrix_add _ _ n n (by omega) (by omega),
        toMatrix_mul _ _ n n (by show W.rows ≥ n; omega) (by omega), hSc,
        toMatrix_sub _ _ n k (by omega) (by omega),
        toMatrix_mul _ _ n k (by omega) (by omega), hc]
      rw [Matrix.add_mul, Matrix.mul_assoc, hone, Matrix.mul_one]
      abel
    · have hAc : (V.add W).cols = k := by unfold Mat.add; rw [cols_ofFn, hVc]
      have hMc : ((V.add W).mul (Vinverse self.singularityLimit svd)).cols = n := by
        unfold Mat.mul; rw [cols_ofFn, hIc]
      have hJc : (((V.add W).mul (Vinverse self.singularityLimit svd)).sub
          (Mat.identity V.rows)).cols = n := by
        unfold Mat.sub; rw [cols_ofFn, hMc]
      refine ⟨hVr, by unfold Mat.mul; rw [cols_ofFn, hVc], ?_⟩
      rw [toMatrix_mul _ _ n k (by show V.rows ≥ n; omega) (by omega), hJc,
        toMatrix_sub _ _ n n (by show V.rows ≥ n; omega) (by omega),
        toMatrix_mul _ _ n n (by show V.rows ≥ n; omega) (by omega), hAc,
        toMatrix_add _ _ n k (by omega) (by omega), hVr, toMatrix_identity]
      rw [Matrix.sub_mul, Matrix.mul_assoc, hone, Matrix.mul_one, Matrix.one_mul]
      abel
  refine ⟨key.1, key.2.1, ?_, rfl⟩
  intro i j hi hj
  have h1 : ((jacobian self svd V W R).mul V).entry i j
      = ((jacobian self svd V W R).mul V).toMatrix n k ⟨i, hi⟩ ⟨j, hj⟩ := rfl
  have h2 : W.entry i j = W.toMatrix n k ⟨i, hi⟩ ⟨j, hj⟩ := rfl
  rw [h1, h2, key.2.2]

/-- C18, at `V` with orthonormal columns, in the fresh branch (no cached
Jacobian) and in the refinement branch (cached `2 x 2` Jacobian). -/
theorem secant_condition_witness :
    (Vinverse plainSelf.singularityLimit (sampleEnv.svd unitV)).mul unitV = Mat.identity 2 ∧
    (∀ i j, i < 2 → j < 2 →
      ((jacobian plainSelf (sampleEnv.svd unitV) unitV sampleW [0, 0]).mul unitV).entry i j
        = sampleW.entry i j) ∧
    (∀ i j, i < 2 → j < 2 →
      ((jacobian { plainSelf with Jprev := sampleW } (sampleEnv.svd unitV) unitV sampleW
        [0, 0]).mul unitV).entry i j = sampleW.entry i j) := by
  have hinv : (Vinverse plainSelf.singularityLimit (sampleEnv.svd unitV)).mul unitV
      = Mat.identity 2 := by
    simp [Vinverse, singularValuesInv, Mat.mul, Mat.asDiagonal, Mat.transpose, Mat.identity,
      Mat.ofFn, Mat.entry, Mat.cols, sampleEnv, unitV, plainSelf, List.range_succ]
    norm_num
  exact ⟨hinv,
    (secant_condition plainSelf (sampleEnv.svd unitV) unitV sampleW [0, 0] 2 2 rfl rfl rfl rfl
      rfl rfl (fun h => absurd h (by simp [plainSelf, Mat.empty, Mat.cols])) hinv).2.2.1,
    (secant_condition { plainSelf with Jprev := sampleW } (sampleEnv.svd unitV) unitV sampleW
      [0, 0] 2 2 rfl rfl rfl rfl rfl rfl (fun _ => rfl) hinv).2.2.1⟩

/-- C19: mode equivalence at `beta = 1`. For `n x k` matrices `V` and `W`,
vectors of length `n` and an SVD result of consistent dimensions (no rank
assumption), the correction of Jacobian-update mode without a matching cached
Jacobian equals the Jacobian-free correction evaluated at `beta = 1`; the
correction of Jacobian-update mode does not depend on `beta`. -/
theorem mode_equivalence {E : Type} (env : Env E) (self : Anderson) (V W : Mat)
    (R yk : Vec) (J : Mat) (n k m : Nat)
    (hVr : V.rows = n) (hWr : W.rows = n) (hVc : V.cols = k) (hWc : W.cols = k)
    (hR : R.length = n) (hy : yk.length = n)
    (hUr : (env.svd V).matrixU.rows = n) (hUc : (env.svd V).matrixU.cols = m)
    (hs : (env.svd V).singularValues.length = m)
    (hMr : (env.svd V).matrixV.rows = k) (hMc : (env.svd V).matrixV.cols = m)
    (hu : self.updateJacobian = true) (hno : self.Jprev.cols ≠ R.length) :
    (correction env self V W R yk J).1
      = (correction env { self with updateJacobian := false, beta := 1 } V W R yk J).1 ∧
    (correction env self V W R yk J).1
      = (((V.add W).mul (Vinverse self.singularityLimit (env.svd V))).sub
          (Mat.identity V.rows)).mulVec (vsub yk R) ∧
    (∀ b : ℚ, correction env { self with beta := b } V W R yk J
      = correction env self V W R yk J) := by
  have hIc : (Vinverse self.singularityLimit (env.svd V)).cols = n := by
    unfold Vinverse Mat.mul Mat.transpose
    rw [cols_ofFn, cols_ofFn, hUr]
  have hJeq : jacobian self (env.svd V) V W R
      = ((V.add W).mul (Vinverse self.singularityLimit (env.svd V))).sub
          (Mat.identity V.rows) := by
    unfold jacobian
    simp only [hno, if_false]
  have hAc : (V.add W).cols = k := by unfold Mat.add; rw [cols_ofFn, hVc]
  have hMc2 : ((V.add W).mul (Vinverse self.singularityLimit (env.svd V))).cols = n := by
    unfold Mat.mul; rw [cols_ofFn, hIc]
  have hJc : (((V.add W).mul (Vinverse self.singularityLimit (env.svd V))).sub
      (Mat.identity V.rows)).cols = n := by
    unfold Mat.sub; rw [cols_ofFn, hMc2]
  have hJr : (((V.add W).mul (Vinverse self.singularityLimit (env.svd V))).sub
      (Mat.identity V.rows)).rows = n := hVr
  have hclen : (coefficients self.singularityLimit (env.svd V) (vsub yk R)).length = k := by
    unfold coefficients; rw [length_mulVec, hMr]
  have hSc : (V.smul 1).cols = k := by unfold Mat.smul; rw [cols_ofFn, hVc]
  have hSr : (V.smul 1).rows = n := hVr
  have hcf := toFun_coefficients self.singularityLimit (env.svd V) (vsub yk R) k n m
    hMr hMc hs hUr hUc
  refine ⟨?_, ?_, ?_⟩
  · unfold correction
    simp only [hu, if_true, Bool.false_eq_true, if_false, hJeq]
    apply eq_of_toFun_eq _ _ n
    · rw [length_mulVec, hJr]
    · rw [length_vadd, length_vadd, length_vsmul, length_vsub, length_mulVec, length_mulVec,
        hR, hy, hWr, hSr]
      simp
    · rw [toFun_mulVec _ _ n (by omega), hJc,
        toMatrix_sub _ _ n n (by show V.rows ≥ n; omega) (by omega),
        toMatrix_mul _ _ n n (by show V.rows ≥ n; omega) (by omega), hAc,
        toMatrix_add _ _ n k (by omega) (by omega), hVr, toMatrix_identity,
        toFun_vadd _ _ n (by
          rw [length_vadd, length_vsmul, length_vsub, length_mulVec, length_mulVec, hR, hy,
            hWr, hSr]; simp),
        toFun_vadd _ _ n (by
          rw [length_vsmul, length_vsub, length_mulVec, hR, hy, hWr]; simp),
        toFun_vsmul, toFun_mulVec _ _ n (by omega), hWc, toFun_mulVec _ _ n (by omega), hSc,
        toMatrix_smul _ _ n k (by omega) (by omega), hcf,
        toFun_vsub _ _ n (by rw [hR, hy]), toFun_vsub _ _ n (by rw [hR, hy])]
      rw [Matrix.sub_mulVec, Matrix.one_mulVec, ← Matrix.mulVec_mulVec, Matrix.add_mulVec,
        one_smul, one_smul]
      abel
  · unfold correction
    simp only [hu, if_true, hJeq]
  · intro b
    unfold correction jacobian
    simp only [hu, if_true]

/-- C19, at `V` with orthonormal columns and `R = [1, 2]`. -/
theorem mode_equivalence_witness :
    ({ plainSelf with updateJacobian := true } : Anderson).Jprev.cols ≠ ([1, 2] : Vec).length ∧
    (correction sampleEnv { plainSelf with updateJacobian := true } unitV sampleW [1, 2]
        [0, 0] Mat.empty).1
      = (correction sampleEnv { plainSelf with updateJacobian := false, beta := 1 } unitV
          sampleW [1, 2] [0, 0] Mat.empty).1 := by
  have hno : ({ plainSelf with updateJacobian := true } : Anderson).Jprev.cols
      ≠ ([1, 2] : Vec).length := by
    simp [plainSelf, Mat.empty, Mat.cols]
  exact ⟨hno,
    (mode_equivalence sampleEnv { plainSelf with updateJacobian := true } unitV sampleW
      [1, 2] [0, 0] Mat.empty 2 2 2 rfl rfl rfl rfl rfl rfl rfl rfl rfl rfl
      (by simp [sampleEnv, unitV, Mat.identity, Mat.ofFn, Mat.cols]) rfl hno).1⟩

/-! ## Validity of the column-fill assertion -/

theorem foldlM_advances {ι : Type} (n : Nat) (step : Fill → ι → Except Status Fill)
    (cnt : ι → Nat) (idx : List ι)
    (hstep : ∀ i ∈ idx, ∀ f, FillInv n f →
      ∃ f1, step f i = .ok f1 ∧ Advances n f f1 (cnt i)) :
    ∀ f, FillInv n f →
      ∃ f1, idx.foldlM step f = .ok f1 ∧ Advances n f f1 (idx.map cnt).sum := by
  induction idx with
  | nil =>
    intro f hf
    refine ⟨f, rfl, hf, ?_⟩
    have := hf.2.2.1
    simp only [List.map_nil, List.sum_nil]
    omega
  | cons i idx ih =>
    intro f hf
    obtain ⟨f1, h1, hI1, hc1⟩ := hstep i (List.mem_cons_self i idx) f hf
    obtain ⟨f2, h2, hI2, hc2⟩ := ih (fun j hj => hstep j (List.mem_cons_of_mem i hj)) f1 hI1
    refine ⟨f2, ?_, hI2, ?_⟩
    · rw [List.foldlM_cons]
      simp only [bind, Except.bind, h1]
      exact h2
    · rw [hc2, hc1]
      simp only [List.map_cons, List.sum_cons]
      omega

theorem fillStep_advances (n : Nat) (rw w : List Vec) (k : Nat) (hk : k + 1 < rw.length)
    (hw : w.length = rw.length) (f : Fill) (hf : FillInv n f) :
    ∃ f1, fillStep rw (some w) f k = .ok f1 ∧ Advances n f f1 1 := by
  obtain ⟨hV, hW, hc, hwr⟩ := hf
  unfold fillStep
  by_cases hfull : f.colIndex ≥ f.V.length
  · rw [if_pos hfull]
    refine ⟨f, rfl, ⟨hV, hW, hc, hwr⟩, ?_⟩
    omega
  · rw [if_neg hfull]
    have h0 : rw[k]? = some rw[k] := List.getElem?_eq_getElem (by omega)
    have h1 : rw[k + 1]? = some rw[k + 1] := List.getElem?_eq_getElem (by omega)
    have h2 : w[k]? = some w[k] := List.getElem?_eq_getElem (by omega)
    have h3 : w[k + 1]? = some w[k + 1] := List.getElem?_eq_getElem (by omega)
    simp only [h0, h1, Option.some_bind, h2, h3]
    refine ⟨_, rfl, ⟨by simp [hV], by simp [hW], by simp only; omega, ?_⟩, by simp only; omega⟩
    simp [hwr, List.range_succ]

theorem sum_map_const_one (l : List Nat) : (l.map (fun _ => 1)).sum = l.length := by
  induction l with
  | nil => rfl
  | cons a l ih => simp [ih]; omega

theorem fillWindow_advances (n : Nat) (rw w : List Vec) (h2 : 2 ≤ rw.length)
    (hw : w.length = rw.length) (f : Fill) (hf : FillInv n f) :
    ∃ f1, fillWindow rw (some w) f = .ok f1 ∧ Advances n f f1 (rw.length - 1) := by
  unfold fillWindow
  rw [if_neg (by omega)]
  have key := foldlM_advances n (fun f k => fillStep rw (some w) f k) (fun _ => 1)
    (List.range (rw.length - 1))
    (fun k hk f hf => fillStep_advances n rw w k (by have := List.mem_range.mp hk; omega) hw f hf)
    f hf
  rw [sum_map_const_one, List.length_range] at key
  exact key

theorem sum_map_flatten {α : Type} (c : α → Nat) (ll : List (List α)) :
    (ll.map (fun l => (l.map c).sum)).sum = (ll.flatten.map c).sum := by
  induction ll with
  | nil => rfl
  | cons l ll ih => simp [ih]

theorem sum_map_flatten_flatten {α : Type} (c : α → Nat) (ll : List (List (List α))) :
    (ll.map (fun t => (t.flatten.map c).sum)).sum = (ll.flatten.flatten.map c).sum := by
  induction ll with
  | nil => rfl
  | cons l ll ih =>
    simp only [List.map_cons, List.sum_cons, List.flatten_cons, List.flatten_append,
      List.map_append, List.sum_append, ih]

theorem getD_mem_of_lt {α : Type} (l : List α) (d : α) (j : Nat) (hj : j < l.length) :
    l.getD j d ∈ l := by
  rw [List.getD_eq_getElem?_getD, List.getElem?_eq_getElem hj]
  exact List.getElem_mem hj

theorem fillGroup_advances (n : Nat) (rs ss : List (List Vec))
    (hs : ss.map List.length = rs.map List.length) (h2 : ∀ w ∈ rs, 2 ≤ w.length)
    (f : Fill) (hf : FillInv n f) :
    ∃ f1, fillGroup rs (some ss) f = .ok f1 ∧
      Advances n f f1 (rs.map (fun w => w.length - 1)).sum := by
  unfold fillGroup
  have hlen : ss.length = rs.length := by
    have := congrArg List.length hs
    simpa using this
  have key := foldlM_advances n
    (fun f j => fillWindow (rs.getD j []) ((some ss).bind (fun g => g[j]?)) f)
    (fun j => (rs.getD j []).length - 1) (List.range rs.length)
    (fun j hj f hf => by
      have hj1 : j < rs.length := List.mem_range.mp hj
      have hj2 : j < ss.length := by omega
      have e : (some ss).bind (fun g => g[j]?) = some (ss.getD j []) := by
        simp [List.getD_eq_getElem?_getD, List.getElem?_eq_getElem hj2]
      beta_reduce
      rw [e]
      exact fillWindow_advances n _ _ (h2 _ (getD_mem_of_lt rs [] j hj1))
        (map_getD_congr List.length ss rs [] hs j) f hf)
    f hf
  rw [map_getD_range rs [] (fun w => w.length - 1)] at key
  exact key

theorem fillStages_advances (n : Nat) (rst sst : List (List (List Vec)))
    (hs : stageShape sst = stageShape rst) (h2 : ∀ w ∈ rst.flatten, 2 ≤ w.length)
    (f : Fill) (hf : FillInv n f) :
    ∃ f1, fillStages rst sst f = .ok f1 ∧
      Advances n f f1 (rst.flatten.map (fun w => w.length - 1)).sum := by
  unfold fillStages
  have hlen : sst.length = rst.length := by
    have := congrArg List.length hs
    simpa [stageShape] using this
  have key := foldlM_advances n
    (fun f i => fillGroup (rst.getD i []) sst[i]? f)
    (fun i => ((rst.getD i []).map (fun w => w.length - 1)).sum)
    (List.range rst.length).reverse
    (fun i hi f hf => by
      have hi1 : i < rst.length := List.mem_range.mp (List.mem_reverse.mp hi)
      have hi2 : i < sst.length := by omega
      have e : sst[i]? = some (sst.getD i []) := by
        simp [List.getD_eq_getElem?_getD, List.getElem?_eq_getElem hi2]
      beta_reduce
      rw [e]
      exact fillGroup_advances n _ _
        (map_getD_congr (fun g : List (List Vec) => g.map List.length) sst rst [] hs i)
        (fun w hw => h2 w (List.mem_flatten.mpr ⟨_, getD_mem_of_lt rst [] i hi1, hw⟩)) f hf)
    f hf
  rw [List.map_reverse, List.sum_reverse,
    map_getD_range rst [] (fun g => (g.map (fun w => w.length - 1)).sum),
    sum_map_flatten] at key
  exact key

theorem fillTimes_advances (n : Nat) (rtl stl : List (List (List (List Vec))))
    (hs : timeShape stl = timeShape rtl) (h2 : ∀ w ∈ rtl.flatten.flatten, 2 ≤ w.length)
    (f : Fill) (hf : FillInv n f) :
    ∃ f1, fillTimes rtl stl f = .ok f1 ∧
      Advances n f f1 (rtl.flatten.flatten.map (fun w => w.length - 1)).sum := by
  unfold fillTimes
  have key := foldlM_advances n
    (fun f i => fillStages (rtl.getD i []) ((stl[i]?).getD []) f)
    (fun i => ((rtl.getD i []).flatten.map (fun w => w.length - 1)).sum)
    (List.range rtl.length)
    (fun i hi f hf => by
      have hi1 : i < rtl.length := List.mem_range.mp hi
      have e : (stl[i]?).getD [] = stl.getD i [] := by
        rw [List.getD_eq_getElem?_getD]
      beta_reduce
      rw [e]
      exact fillStages_advances n _ _
        (map_getD_congr stageShape stl rtl [] hs i)
        (fun w hw => h2 w (by
          obtain ⟨g, hg, hwg⟩ := List.mem_flatten.mp hw
          exact List.mem_flatten.mpr ⟨g, List.mem_flatten.mpr
            ⟨_, getD_mem_of_lt rtl [] i hi1, hg⟩, hwg⟩)) f hf)
    f hf
  rw [map_getD_range rtl [] (fun t => (t.flatten.map (fun w => w.length - 1)).sum),
    sum_map_flatten_flatten] at key
  exact key

theorem fillCurrent_advances (n : Nat) (res sols : List Vec) (hl : sols.length = res.length) :
    ∀ (m : Nat) (f0 : Fill), m ≤ n → m ≤ res.length - 1 → FillInv n f0 → f0.colIndex = 0 →
    ∃ f1, (List.range m).foldlM (fun f i => fillCurrent res sols f i) f0 = .ok f1 ∧
      FillInv n f1 ∧ f1.colIndex = m := by
  intro m
  induction m with
  | zero =>
    intro f0 _ _ hf hc
    exact ⟨f0, rfl, hf, hc⟩
  | succ m ih =>
    intro f0 hmn hmr hf hc
    obtain ⟨f1, h1, ⟨hV, hW, hcn, hwr⟩, hc1⟩ := ih f0 (by omega) (by omega) hf hc
    rw [List.range_succ, List.foldlM_append, h1]
    simp only [bind, Except.bind, List.foldlM_cons, List.foldlM_nil, pure, Except.pure]
    unfold fillCurrent
    rw [if_neg (by omega)]
    have e0 : res[m]? = some res[m] := List.getElem?_eq_getElem (by omega)
    have e1 : res[m + 1]? = some res[m + 1] := List.getElem?_eq_getElem (by omega)
    have e2 : sols[m]? = some sols[m] := List.getElem?_eq_getElem (by omega)
    have e3 : sols[m + 1]? = some sols[m + 1] := List.getElem?_eq_getElem (by omega)
    simp only [e0, e1, e2, e3]
    refine ⟨_, rfl, ⟨by simp [hV], by simp [hW], by simp only; omega, ?_⟩, by simp only; omega⟩
    simp [hwr, hc1, List.range_succ]

theorem stageShape_flatten (sst rst : List (List (List Vec)))
    (hs : stageShape sst = stageShape rst) :
    sst.flatten.map List.length = rst.flatten.map List.length := by
  have := congrArg List.flatten hs
  unfold stageShape at this
  rw [← List.map_flatten, ← List.map_flatten] at this
  exact this

theorem timeShape_flatten (stl rtl : List (List (List (List Vec))))
    (hs : timeShape stl = timeShape rtl) :
    stl.flatten.flatten.map List.length = rtl.flatten.flatten.map List.length := by
  apply stageShape_flatten
  have := congrArg List.flatten hs
  unfold timeShape stageShape at this
  rw [← List.map_flatten, ← List.map_flatten] at this
  exact this

theorem sum_windowColumns_of_lengths (a b : List (List Vec))
    (h : a.map List.length = b.map List.length) :
    (a.map windowColumns).sum = (b.map windowColumns).sum := by
  have e : ∀ l : List (List Vec),
      l.map windowColumns = (l.map List.length).map (fun k : Nat => (k : Int) - 1) := by
    intro l
    rw [List.map_map]
    rfl
  rw [e a, e b, h]

/-- The three fill loops and the assertion of line 288 succeed when the
histories have equal shapes and every retained window has two samples. -/
theorem constructVW_total {E : Type} (base : PostProcessing E) (rows : Nat)
    (hcur : base.sols.length = base.residuals.length)
    (hst : stageShape base.solsStageList = stageShape base.residualsStageList)
    (htl : timeShape base.solsTimeList = timeShape base.residualsTimeList)
    (h2s : ∀ w ∈ base.residualsStageList.flatten, 2 ≤ w.length)
    (h2t : ∀ w ∈ base.residualsTimeList.flatten.flatten, 2 ≤ w.length)
    (hpos : 0 < countColumns base rows) :
    ∃ f, fillLoops base rows (countColumns base rows).toNat = .ok f ∧
      f.colIndex = (countColumns base rows).toNat ∧
      f.V.length = (countColumns base rows).toNat ∧
      f.W.length = (countColumns base rows).toNat ∧
      f.writes.reverse = List.range (countColumns base rows).toNat ∧
      constructVW base rows (countColumns base rows).toNat
        = .ok (⟨rows, f.V⟩, ⟨rows, f.W⟩) := by
  have hcount := countColumns_eq base rows
  rw [sum_windowColumns_of_lengths _ _ (stageShape_flatten _ _ hst),
    sum_windowColumns_of_lengths _ _ (timeShape_flatten _ _ htl),
    sum_windowColumns_of_nonempty _
      (fun w hw => List.ne_nil_of_length_pos (by have := h2s w hw; omega)),
    sum_windowColumns_of_nonempty _
      (fun w hw => List.ne_nil_of_length_pos (by have := h2t w hw; omega))] at hcount
  generalize hn : (countColumns base rows).toNat = n
  have hnI : (n : Int) = countColumns base rows := by
    rw [← hn]
    exact Int.toNat_of_nonneg (Int.le_of_lt hpos)
  generalize hS : ((base.residualsStageList.flatten).map (fun w => w.length - 1)).sum = S
    at hcount
  generalize hT : ((base.residualsTimeList.flatten.flatten).map (fun w => w.length - 1)).sum
    = T at hcount
  have hblank : FillInv n
      (⟨List.replicate n (List.replicate rows 0), List.replicate n (List.replicate rows 0),
        0, []⟩ : Fill) := ⟨by simp, by simp, Nat.zero_le n, rfl⟩
  have hm1 : (min (max (windowColumns base.sols) 0) (n : Int)).toNat ≤ n := by omega
  have hm2 : (min (max (windowColumns base.sols) 0) (n : Int)).toNat
      ≤ base.residuals.length - 1 := by
    unfold windowColumns
    omega
  have hm3 : n ≤ (min (max (windowColumns base.sols) 0) (n : Int)).toNat + S + T := by
    unfold windowColumns
    omega
  obtain ⟨f1, e1, hI1, hc1⟩ := fillCurrent_advances n base.residuals base.sols hcur _ _
    hm1 hm2 hblank rfl
  obtain ⟨f2, e2, hI2, hc2⟩ := fillStages_advances n base.residualsStageList
    base.solsStageList hst h2s f1 hI1
  obtain ⟨f3, e3, hI3, hc3⟩ := fillTimes_advances n base.residualsTimeList
    base.solsTimeList htl h2t f2 hI2
  rw [hS] at hc2
  rw [hT] at hc3
  have hfin : f3.colIndex = n := by omega
  have hloops : fillLoops base rows n = .ok f3 := by
    unfold fillLoops
    simp only [bind, Except.bind, e1, e2, e3]
  refine ⟨f3, hloops, hfin, hI3.1, hI3.2.1, ?_, ?_⟩
  · rw [← hfin]
    exact hI3.2.2.2
  · unfold constructVW
    simp only [bind, Except.bind, hloops, hfin, ne_eq, not_true_eq_false, if_false]

/-- C17: the column-fill assertion is valid. When the solution and residual
histories have identical shapes (current window, stage history and time
history) and every retained window has at least 2 samples, then for
`nbCols = countColumns > 0` the three fill loops finish without fault with
`colIndex = nbCols`, `V` and `W` keep `nbCols` columns, the columns assigned
are `0, 1, .., nbCols - 1`, each once and in this order (so no index
`>= nbCols` is written), and `constructVW` passes its assertion. -/
theorem fill_assertion_valid {E : Type} (base : PostProcessing E) (rows : Nat)
    (hcur : base.sols.length = base.residuals.length)
    (hst : stageShape base.solsStageList = stageShape base.residualsStageList)
    (htl : timeShape base.solsTimeList = timeShape base.residualsTimeList)
    (h2s : ∀ w ∈ base.residualsStageList.flatten, 2 ≤ w.length)
    (h2t : ∀ w ∈ base.residualsTimeList.flatten.flatten, 2 ≤ w.length)
    (hpos : 0 < countColumns base rows) :
    ∃ f, fillLoops base rows (countColumns base rows).toNat = .ok f ∧
      f.colIndex = (countColumns base rows).toNat ∧
      f.V.length = (countColumns base rows).toNat ∧
      f.W.length = (countColumns base rows).toNat ∧
      f.writes.reverse = List.range (countColumns base rows).toNat ∧
      constructVW base rows (countColumns base rows).toNat
        = .ok (⟨rows, f.V⟩, ⟨rows, f.W⟩) :=
  constructVW_total base rows hcur hst htl h2s h2t hpos

/-- C17 on a history with a current window of 2 samples, one retained stage
window of 3 samples and one retained time window of 2 samples: three columns
are filled, in the order `0, 1, 2`. -/
theorem fill_assertion_valid_witness :
    0 < countColumns historyBase 3 ∧
    ∃ f, fillLoops historyBase 3 (countColumns historyBase 3).toNat = .ok f ∧
      f.colIndex = (countColumns historyBase 3).toNat ∧
      f.V.length = (countColumns historyBase 3).toNat ∧
      f.W.length = (countColumns historyBase 3).toNat ∧
      f.writes.reverse = List.range (countColumns historyBase 3).toNat ∧
      constructVW historyBase 3 (countColumns historyBase 3).toNat
        = .ok (⟨3, f.V⟩, ⟨3, f.W⟩) := by
  have hpos : 0 < countColumns historyBase 3 := by
    simp [countColumns, windowColumns, historyBase, sampleBase]
  exact ⟨hpos, fill_assertion_valid historyBase 3 (by simp [historyBase, sampleBase])
    (by simp [stageShape, historyBase, sampleBase])
    (by simp [timeShape, stageShape, historyBase, sampleBase])
    (by simp [historyBase, sampleBase])
    (by simp [historyBase, sampleBase]) hpos⟩

/-! ## The steps of the loop in closed form -/

theorem countColumns_le_rows {E : Type} (base : PostProcessing E) (rows : Nat) :
    countColumns base rows ≤ (rows : Int) := by
  rw [countColumns_eq]
  exact le_trans (min_le_left _ _) (min_le_left _ _)

theorem updateStep_relax {E : Type} (env : Env E) (l : Locals E)
    (h0 : countColumns l.base l.xk.length = 0) :
    updateStep env l
      = .inr { l with xk := fixedUnderRelaxation l.base l.self l.xk l.R l.yk } := by
  unfold updateStep
  simp only [h0]
  simp

theorem updateStep_anderson {E : Type} (env : Env E) (l : Locals E) (V W : Mat)
    (hpos : 0 < countColumns l.base l.xk.length)
    (hV : constructVW l.base l.xk.length (countColumns l.base l.xk.length).toNat = .ok (V, W)) :
    updateStep env l
      = .inr { l with
          xk := vadd l.xk
            (if l.self.scaling then
              removeScaling l.self
                (correction env l.self (applyScalingMat l.self V) (applyScalingMat l.self W)
                  l.R l.yk l.J).1
            else (correction env l.self V W l.R l.yk l.J).1)
          J := if l.self.scaling then
              (correction env l.self (applyScalingMat l.self V) (applyScalingMat l.self W)
                l.R l.yk l.J).2
            else (correction env l.self V W l.R l.yk l.J).2 } := by
  have hle := countColumns_le_rows l.base l.xk.length
  have hne : countColumns l.base l.xk.length ≠ 0 := ne_of_gt hpos
  unfold updateStep andersonUpdate
  simp only [hle, not_true_eq_false, if_false, hne, hpos, gt_iff_lt, if_true, hV]
  cases hsc : l.self.scaling <;> simp

theorem evaluateStep_ok {E : Type} (env : Env E) (y x0 : Vec) (rc : Bool) (l : Locals E)
    (e : E) (output R : Vec) (self1 : Anderson)
    (hev : env.evaluate l.base.fsi l.xk = some (e, output, R))
    (hlo : x0.length = output.length) (hlr : x0.length = R.length)
    (hc : (env.isConvergence e output (vsub (vadd output y) R) rc).2 = false)
    (hd : determineScalingFactors env
      { l.base with
        fsi := (env.isConvergence e output (vsub (vadd output y) R) rc).1
        residuals := R :: l.base.residuals
        sols := l.xk :: l.base.sols } l.self output = .ok self1)
    (hs : l.base.sols.length = l.base.residuals.length)
    (hx : l.xk.length = R.length)
    (hit : env.iter (env.isConvergence e output (vsub (vadd output y) R) rc).1
      ≤ l.base.maxIter) :
    evaluateStep env y x0 rc l
      = .inr
        ⟨{ l.base with
            fsi := (env.isConvergence e output (vsub (vadd output y) R) rc).1
            residuals := R :: l.base.residuals
            sols := l.xk :: l.base.sols },
          self1, l.xk,
          if self1.scaling then applyScaling self1 y else l.yk,
          l.J,
          if self1.scaling then applyScaling self1 R else R,
          l.xk :: l.calls,
          ⟨l.xk, output, R, l.xk :: l.base.sols, R :: l.base.residuals⟩ :: l.trace⟩ := by
  unfold evaluateStep
  simp only [hev, hlo.symm, hlr.symm, ne_eq, not_true_eq_false, or_self, if_false, hc,
    Bool.false_eq_true]
  unfold rescaleStep
  simp only [hd, List.length_cons, hs, ne_eq, not_true_eq_false, if_false, List.headD_cons,
    hx, hit]
  cases hsc : self1.scaling <;> simp [hs, hx, not_lt.mpr hit]

theorem startUp_ok {E : Type} (env : Env E) (base : PostProcessing E) (self : Anderson)
    (y x0 xk : Vec) (rc : Bool) (e : E) (output R : Vec) (self1 : Anderson)
    (hentry : entryAssertions env base y x0 xk = true)
    (hev : env.evaluate base.fsi x0 = some (e, output, R))
    (hd : determineScalingFactors env { base with residuals := [], sols := [], fsi := e }
      self output = .ok self1)
    (hlo : x0.length = output.length) (hlr : x0.length = R.length)
    (hc : (env.isConvergence e output (vsub (vadd output y) R) rc).2 = false) :
    startUp env base self y x0 xk rc
      = .inr
        ⟨{ base with
            fsi := (env.isConvergence e output (vsub (vadd output y) R) rc).1
            residuals := [R]
            sols := [x0] },
          self1, x0,
          if self1.scaling then applyScaling self1 y else y,
          Mat.empty,
          if self1.scaling then applyScaling self1 R else R,
          [x0],
          [⟨x0, output, R, [x0], [R]⟩]⟩ := by
  unfold startUp
  simp only [hentry, not_true_eq_false, if_false, hev, hd, hlo.symm, hlr.symm, ne_eq, or_self,
    hc, Bool.false_eq_true]
  cases hsc : self1.scaling <;> simp

/-! ## Linear fixed-point step -/

theorem matrix_fixed_point (n : Nat) (Vi V W A : Matrix (Fin n) (Fin n) ℚ) (x : Fin n → ℚ)
    (b : ℚ) (h1 : Vi * V = 1) (h2 : V = (A - 1) * W) :
    x + (b • (Matrix.mulVec (A - 1) x - 0)
        + Matrix.mulVec W (Matrix.mulVec Vi (0 - Matrix.mulVec (A - 1) x))
        + Matrix.mulVec (b • V) (Matrix.mulVec Vi (0 - Matrix.mulVec (A - 1) x))) = 0 := by
  have hright : V * Vi = 1 := Matrix.mul_eq_one_comm.mp h1
  have hWV : (W * Vi) * (A - 1) = 1 := by
    apply Matrix.mul_eq_one_comm.mp
    rw [← Matrix.mul_assoc, ← h2]
    exact hright
  rw [Matrix.smul_mulVec_assoc, Matrix.mulVec_mulVec, Matrix.mulVec_mulVec, hright,
    Matrix.one_mulVec, zero_sub, sub_zero, Matrix.mulVec_neg, Matrix.mulVec_mulVec,
    hWV, Matrix.one_mulVec, smul_neg]
  abel

theorem mulVec_replicate_zero (A : Mat) (n : Nat) :
    A.mulVec (List.replicate n 0) = List.replicate A.rows 0 := by
  apply ext_getD
  · rw [length_mulVec]; simp
  · intro i hi
    rw [length_mulVec] at hi
    rw [getD_mulVec _ _ _ hi]
    have e : ∀ l : Nat, A.entry i l * (List.replicate n (0 : ℚ)).getD l 0 = 0 := by
      intro l
      have : (List.replicate n (0 : ℚ)).getD l 0 = 0 := by
        simp only [List.getD_eq_getElem?_getD, List.getElem?_replicate]
        split <;> rfl
      rw [this, mul_zero]
    simp only [e]
    simp [List.getD_eq_getElem?_getD, List.getElem?_replicate, hi]

theorem toFun_replicate_zero (n : Nat) : toFun n (List.replicate n 0) = 0 := by
  funext i
  simp [toFun, List.getD_eq_getElem?_getD, List.getElem?_replicate]

theorem toMatrix_linear_differences (A W : Mat) (n : Nat)
    (hAr : A.rows = n) (hAc : A.cols = n) (hWc : W.cols = n) :
    ((A.mul W).sub W).toMatrix n n = (A.toMatrix n n - 1) * W.toMatrix n n := by
  have hmc : (A.mul W).cols = n := by unfold Mat.mul; rw [cols_ofFn, hWc]
  rw [toMatrix_sub _ _ n n (by show A.rows ≥ n; omega) (by omega),
    toMatrix_mul _ _ n n (by omega) (by omega), hAc, Matrix.sub_mul, Matrix.one_mul]

theorem toFun_linear_residual (A : Mat) (xk : Vec) (n : Nat)
    (hAr : A.rows = n) (hAc : A.cols = n) (hx : xk.length = n) :
    toFun n (vsub (A.mulVec xk) xk)
      = Matrix.mulVec (A.toMatrix n n - 1) (toFun n xk) := by
  rw [toFun_vsub _ _ n (by rw [length_mulVec, hAr, hx]),
    toFun_mulVec _ _ n (by omega), hAc, Matrix.sub_mulVec, Matrix.one_mulVec]

theorem toMatrix_left_inverse (Vi V : Mat) (n : Nat) (hIr : Vi.rows = n) (hIc : Vi.cols = n)
    (hVc : V.cols = n) (hinv : Vi.mul V = Mat.identity n) :
    Vi.toMatrix n n * V.toMatrix n n = 1 := by
  rw [← toMatrix_identity n, ← hinv, toMatrix_mul _ _ n n hIr.ge hVc.ge, hIc]

theorem length_correction_free {E : Type} (env : Env E) (self : Anderson) (V W : Mat)
    (R yk : Vec) (J : Mat) (n : Nat)
    (hVr : V.rows = n) (hWr : W.rows = n) (hR : R.length = n) (hy : yk.length = n)
    (hu : self.updateJacobian = false) :
    (correction env self V W R yk J).1.length = n := by
  have hSr : (V.smul self.beta).rows = n := hVr
  unfold correction
  simp only [hu, Bool.false_eq_true, if_false]
  rw [length_vadd, length_vadd, length_vsmul, length_vsub, length_mulVec, length_mulVec,
    hR, hy, hWr, hSr]
  simp

theorem toFun_correction_free {E : Type} (env : Env E) (self : Anderson) (V W : Mat)
    (R yk : Vec) (J : Mat) (n m : Nat)
    (hVr : V.rows = n) (hVc : V.cols = n) (hWr : W.rows = n) (hWc : W.cols = n)
    (hR : R.length = n) (hy : yk.length = n)
    (hUr : (env.svd V).matrixU.rows = n) (hUc : (env.svd V).matrixU.cols = m)
    (hs : (env.svd V).singularValues.length = m)
    (hMr : (env.svd V).matrixV.rows = n) (hMc : (env.svd V).matrixV.cols = m)
    (hu : self.updateJacobian = false) :
    toFun n (correction env self V W R yk J).1
      = self.beta • (toFun n R - toFun n yk)
        + Matrix.mulVec (W.toMatrix n n)
            (Matrix.mulVec ((Vinverse self.singularityLimit (env.svd V)).toMatrix n n)
              (toFun n yk - toFun n R))
        + Matrix.mulVec (self.beta • V.toMatrix n n)
            (Matrix.mulVec ((Vinverse self.singularityLimit (env.svd V)).toMatrix n n)
              (toFun n yk - toFun n R)) := by
  have hSc : (V.smul self.beta).cols = n := by unfold Mat.smul; rw [cols_ofFn, hVc]
  have hSr : (V.smul self.beta).rows = n := hVr
  have hcf := toFun_coefficients self.singularityLimit (env.svd V) (vsub yk R) n n m
    hMr hMc hs hUr hUc
  unfold correction
  simp only [hu, Bool.false_eq_true, if_false]
  rw [toFun_vadd _ _ n (by
      rw [length_vadd, length_vsmul, length_vsub, length_mulVec, length_mulVec, hR, hy,
        hWr, hSr]; simp),
    toFun_vadd _ _ n (by
      rw [length_vsmul, length_vsub, length_mulVec, hR, hy, hWr]; simp),
    toFun_vsmul, toFun_mulVec _ _ n (by omega), hWc, toFun_mulVec _ _ n (by omega), hSc,
    toMatrix_smul _ _ n n (by omega) (by omega), hcf,
    toFun_vsub _ _ n (by rw [hR, hy]), toFun_vsub _ _ n (by rw [hR, hy])]

/-- C16, amended: the exact core of the linear fixed-point scenario, for
dimension `n` (`4` in the scenario). In Jacobian-free mode, when the columns
of the square matrix `V` are the residual differences `A w - w` of the columns
`w` of `W`, the residual is `R = A xk - xk`, `yk = 0`, and `Vinverse * V` is
the identity (the residual differences are independent and no singular value
is truncated), the corrected iterate `xk + dx` is the zero vector, the fixed
point of `x -> A x`, for every `beta`. -/
theorem linear_fixed_point_step {E : Type} (env : Env E) (self : Anderson) (A V W : Mat)
    (xk R yk : Vec) (J : Mat) (n m : Nat)
    (hAr : A.rows = n) (hAc : A.cols = n)
    (hVr : V.rows = n) (hVc : V.cols = n) (hWr : W.rows = n) (hWc : W.cols = n)
    (hx : xk.length = n)
    (hUr : (env.svd V).matrixU.rows = n) (hUc : (env.svd V).matrixU.cols = m)
    (hs : (env.svd V).singularValues.length = m)
    (hMr : (env.svd V).matrixV.rows = n) (hMc : (env.svd V).matrixV.cols = m)
    (hu : self.updateJacobian = false)
    (hV : V = (A.mul W).sub W)
    (hR : R = vsub (A.mulVec xk) xk)
    (hy : yk = List.replicate n 0)
    (hinv : (Vinverse self.singularityLimit (env.svd V)).mul V = Mat.identity n) :
    vadd xk (correction env self V W R yk J).1 = List.replicate n 0 ∧
    A.mulVec (vadd xk (correction env self V W R yk J).1)
      = vadd xk (correction env self V W R yk J).1 := by
  have hRl : R.length = n := by rw [hR, length_vsub, length_mulVec, hAr, hx, Nat.min_self]
  have hyl : yk.length = n := by rw [hy, List.length_replicate]
  have hIc : (Vinverse self.singularityLimit (env.svd V)).cols = n := by
    unfold Vinverse Mat.mul Mat.transpose
    rw [cols_ofFn, cols_ofFn, hUr]
  have hdl := length_correction_free env self V W R yk J n hVr hWr hRl hyl hu
  have hIr : (Vinverse self.singularityLimit (env.svd V)).rows = n := hMr
  have hleft := toMatrix_left_inverse (Vinverse self.singularityLimit (env.svd V)) V n
    hIr hIc hVc hinv
  have hV2 : V.toMatrix n n = (A.toMatrix n n - 1) * W.toMatrix n n := by
    rw [← toMatrix_linear_differences A W n hAr hAc hWc, ← hV]
  have hR2 : toFun n R = Matrix.mulVec (A.toMatrix n n - 1) (toFun n xk) := by
    rw [hR]
    exact toFun_linear_residual A xk n hAr hAc hx
  have hy2 : toFun n yk = 0 := by rw [hy]; exact toFun_replicate_zero n
  have hzero : vadd xk (correction env self V W R yk J).1 = List.replicate n 0 := by
    apply eq_of_toFun_eq _ _ n
    · rw [length_vadd, hx, hdl, Nat.min_self]
    · exact List.length_replicate n 0
    · rw [toFun_vadd _ _ n (hx.trans hdl.symm), toFun_replicate_zero,
        toFun_correction_free env self V W R yk J n m hVr hVc hWr hWc hRl hyl hUr hUc hs
          hMr hMc hu, hy2, hR2]
      exact matrix_fixed_point n _ _ _ _ _ _ hleft hV2
  refine ⟨hzero, ?_⟩
  rw [hzero, mulVec_replicate_zero, hAr]

/-- C16, amended, at a diagonal contraction in dimension 4 with four
orthonormal residual differences: from `xk = [1, 2, 3, 4]` the Jacobian-free
correction reaches the fixed point `[0, 0, 0, 0]`. The SVD of the identity is
`U = I`, singular values `1`, `Vm = I`. -/
theorem linear_fixed_point_step_witness :
    IsThinSVD unitV4 (sampleEnv.svd unitV4) ∧
    unitV4 = (diagA.mul diagW).sub diagW ∧
    (Vinverse plainSelf.singularityLimit (sampleEnv.svd unitV4)).mul unitV4 = Mat.identity 4 ∧
    vadd [1, 2, 3, 4] (correction sampleEnv plainSelf unitV4 diagW
      (vsub (diagA.mulVec [1, 2, 3, 4]) [1, 2, 3, 4]) (List.replicate 4 0) Mat.empty).1
      = List.replicate 4 0 := by
  have hsvd : IsThinSVD unitV4 (sampleEnv.svd unitV4) := by
    norm_num [IsThinSVD, sampleEnv, unitV4, Mat.mul, Mat.asDiagonal, Mat.transpose,
      Mat.identity, Mat.ofFn, Mat.entry, Mat.cols, List.range_succ]
  have hV : unitV4 = (diagA.mul diagW).sub diagW := by
    norm_num [Mat.mul, Mat.sub, Mat.ofFn, Mat.entry, Mat.cols, unitV4, diagA, diagW,
      List.range_succ]
  have hinv : (Vinverse plainSelf.singularityLimit (sampleEnv.svd unitV4)).mul unitV4
      = Mat.identity 4 := by
    norm_num [Vinverse, singularValuesInv, Mat.mul, Mat.asDiagonal, Mat.transpose, Mat.identity,
      Mat.ofFn, Mat.entry, Mat.cols, sampleEnv, unitV4, plainSelf, List.range_succ]
  exact ⟨hsvd, hV, hinv,
    (linear_fixed_point_step sampleEnv plainSelf diagA unitV4 diagW [1, 2, 3, 4]
      _ _ Mat.empty 4 4 rfl rfl rfl rfl rfl rfl rfl rfl rfl rfl rfl
      (by simp [sampleEnv, unitV4, Mat.identity, Mat.ofFn, Mat.cols]) rfl hV rfl rfl hinv).1⟩

/-! ## Non-convergence -/

theorem singularValuesInv_truncated (lim : ℚ) (s : Vec) (h : ∀ sigma ∈ s, sigma ≤ lim) :
    singularValuesInv lim s = List.replicate s.length 0 := by
  induction s with
  | nil => rfl
  | cons a s ih =>
    have ha : ¬ a > lim := not_lt.mpr (h a (List.mem_cons_self a s))
    have := ih (fun x hx => h x (List.mem_cons_of_mem a hx))
    unfold singularValuesInv at this ⊢
    simp only [List.map_cons, ha, if_false, this, List.length_cons, List.replicate_succ]

theorem asDiagonal_zero_mulVec (m : Nat) (t : Vec) :
    (Mat.asDiagonal (List.replicate m 0)).mulVec t = List.replicate m 0 := by
  apply ext_getD
  · rw [length_mulVec]
    show (List.replicate m (0 : ℚ)).length = (List.replicate m (0 : ℚ)).length
    rfl
  · intro i _
    rw [getD_asDiagonal_mulVec]
    have : (List.replicate m (0 : ℚ)).getD i 0 = 0 := by
      simp only [List.getD_eq_getElem?_getD, List.getElem?_replicate]
      split <;> rfl
    rw [this, zero_mul]

theorem coefficients_truncated (lim : ℚ) (svd : SVD) (b : Vec)
    (h : ∀ sigma ∈ svd.singularValues, sigma ≤ lim) :
    coefficients lim svd b = List.replicate svd.matrixV.rows 0 := by
  unfold coefficients
  rw [singularValuesInv_truncated lim _ h, asDiagonal_zero_mulVec, mulVec_replicate_zero]

theorem correction_truncated {E : Type} (env : Env E) (self : Anderson) (V W : Mat)
    (R yk : Vec) (J : Mat) (hu : self.updateJacobian = false)
    (h : ∀ sigma ∈ (env.svd V).singularValues, sigma ≤ self.singularityLimit) :
    correction env self V W R yk J
      = (vadd (vadd (vsmul self.beta (vsub R yk)) (List.replicate W.rows 0))
          (List.replicate V.rows 0), J) := by
  unfold correction
  simp only [hu, Bool.false_eq_true, if_false]
  rw [coefficients_truncated _ _ _ h, mulVec_replicate_zero, mulVec_replicate_zero]
  rfl

theorem shiftSvd_truncated (V : Mat) :
    ∀ sigma ∈ (shiftSvd V).singularValues, sigma ≤ 1 / 1000 := by
  intro sigma hs
  unfold shiftSvd at hs
  simp only [List.mem_map, List.mem_range] at hs
  obtain ⟨j, _, rfl⟩ := hs
  have h2 : (1 : ℚ) ≤ 2 ^ j := one_le_pow₀ (by norm_num)
  have h3 : (225 : ℚ) / 2 ^ 20 / 2 ^ j ≤ 225 / 2 ^ 20 := by
    apply div_le_self (by norm_num) h2
  linarith [show (225 : ℚ) / 2 ^ 20 ≤ 1 / 1000 by norm_num]
theorem vec4_relax (R : Vec) (h : R.length = 4) :
    vadd (vadd (vsmul 1 (vsub R [0, 0, 0, 0])) (List.replicate 4 0)) (List.replicate 4 0) = R ∧
    vsmul 1 (vsub R [0, 0, 0, 0]) = R := by
  match R, h with
  | [a, b, c, d], _ => simp [vadd, vsub, vsmul, List.replicate]

theorem linear_iteration (l : Locals Unit) (hI : LinearInv l)
    (hc : linearCheck l = false) :
    iteration linearEnv [0, 0, 0, 0] linearX0 true l = .inr (linearNext l) ∧
    LinearInv (linearNext l) := by
  obtain ⟨hself, hyk, hx, hR, hS, hrel, hmax, hused, h1, h2, h3, h4⟩ := hI
  have hup : updateStep linearEnv l = .inr { l with xk := vadd l.xk l.R } := by
    rcases lt_trichotomy (countColumns l.base l.xk.length) 0 with hneg | h0 | hpos
    · exfalso
      rw [countColumns_eq, h1, h3, hused] at hneg
      simp at hneg
      omega
    · rw [updateStep_relax linearEnv l h0]
      have : fixedUnderRelaxation l.base l.self l.xk l.R l.yk = vadd l.xk l.R := by
        unfold fixedUnderRelaxation relaxationStep
        simp only [hself, hyk, hrel]
        simp [plainSelf, (vec4_relax l.R hR).2]
      rw [this]
    · obtain ⟨f, _, _, _, _, _, hV⟩ := constructVW_total l.base l.xk.length hS
        (by rw [h1, h2]) (by rw [h3, h4]) (by rw [h2]; simp) (by rw [h4]; simp) hpos
      rw [updateStep_anderson linearEnv l _ _ hpos hV]
      have hcorr : correction linearEnv l.self ⟨l.xk.length, f.V⟩ ⟨l.xk.length, f.W⟩ l.R l.yk l.J
          = (l.R, l.J) := by
        rw [correction_truncated linearEnv l.self _ _ _ _ _ (by rw [hself]; rfl)
          (by rw [hself]; exact shiftSvd_truncated _)]
        simp only [hself, hyk, hx]
        show (vadd (vadd (vsmul 1 (vsub l.R [0, 0, 0, 0])) (List.replicate 4 0))
          (List.replicate 4 0), l.J) = (l.R, l.J)
        rw [(vec4_relax l.R hR).1]
      have hsc : l.self.scaling = false := by rw [hself]; rfl
      simp only [hsc, Bool.false_eq_true, if_false, hcorr]
  have hxl : (vadd l.xk l.R).length = 4 := by rw [length_vadd, hx, hR]; rfl
  have hev : evaluateStep linearEnv [0, 0, 0, 0] linearX0 true
      { l with xk := vadd l.xk l.R } = .inr (linearNext l) := by
    have key := evaluateStep_ok linearEnv [0, 0, 0, 0] linearX0 true
      { l with xk := vadd l.xk l.R } () (shiftA.mulVec (vadd l.xk l.R))
      (vsub (shiftA.mulVec (vadd l.xk l.R)) (vadd l.xk l.R)) l.self rfl
      (by rw [length_mulVec]; rfl)
      (by rw [length_vsub, length_mulVec, hxl]; rfl)
      hc
      (by
        unfold determineScalingFactors
        simp only [hself]
        rfl)
      hS
      (by rw [length_vsub, length_mulVec, hxl]; rfl)
      hmax
    rw [key]
    have hsc : l.self.scaling = false := by rw [hself]; rfl
    simp only [hsc, Bool.false_eq_true, if_false]
    rfl
  refine ⟨?_, ?_⟩
  · unfold iteration
    rw [hup]
    exact hev
  · refine ⟨hself, hyk, hxl, ?_, ?_, hrel, hmax, hused, h1, h2, h3, h4⟩
    · show (vsub (shiftA.mulVec (vadd l.xk l.R)) (vadd l.xk l.R)).length = 4
      rw [length_vsub, length_mulVec, hxl]; rfl
    · show (vadd l.xk l.R :: l.base.sols).length
        = (vsub (shiftA.mulVec (vadd l.xk l.R)) (vadd l.xk l.R) :: l.base.residuals).length
      simp [hS]
theorem shiftA_mulVec (a b c d : ℚ) :
    shiftA.mulVec [a, b, c, d] = [1 / 2 * d, 1 / 2 * a, 1 / 2 * b, 1 / 2 * c] := by
  simp [shiftA, Mat.mulVec, Mat.entry, Mat.cols, List.range_succ]

theorem linear_step_values (l : Locals Unit) (x r x1 r1 : Vec) (hx : l.xk = x) (hr : l.R = r)
    (hv : vadd x r = x1) (hs : vsub (shiftA.mulVec x1) x1 = r1) :
    (linearNext l).xk = x1 ∧ (linearNext l).R = r1 ∧
    (linearNext l).base.residuals = r1 :: l.base.residuals ∧
    linearCheck l = residualCriterion (1 / 10 ^ 10) (shiftA.mulVec x1)
      (vsub (vadd (shiftA.mulVec x1) [0, 0, 0, 0]) r1) := by
  subst hx hr hv hs
  exact ⟨rfl, rfl, rfl, rfl⟩

theorem linear_state0 :
    (linearNext^[0] linearStart).xk = [304 / 2 ^ 20, 272 / 2 ^ 20, 196 / 2 ^ 20, 128 / 2 ^ 20] ∧
    (linearNext^[0] linearStart).R = [-240 / 2 ^ 20, -120 / 2 ^ 20, -60 / 2 ^ 20, -30 / 2 ^ 20] ∧
    (linearNext^[0] linearStart).base.residuals =
      [[-240 / 2 ^ 20, -120 / 2 ^ 20, -60 / 2 ^ 20, -30 / 2 ^ 20]] := by
  have h : vsub (shiftA.mulVec linearX0) linearX0
      = [-240 / 2 ^ 20, -120 / 2 ^ 20, -60 / 2 ^ 20, -30 / 2 ^ 20] := by
    unfold linearX0
    rw [shiftA_mulVec]
    norm_num [vsub]
  refine ⟨rfl, h, ?_⟩
  show [vsub (shiftA.mulVec linearX0) linearX0] = _
  rw [h]

theorem linear_state1 :
    (linearNext^[1] linearStart).xk = [64 / 2 ^ 20, 152 / 2 ^ 20, 136 / 2 ^ 20, 98 / 2 ^ 20] ∧
    (linearNext^[1] linearStart).R = [-15 / 2 ^ 20, -120 / 2 ^ 20, -60 / 2 ^ 20, -30 / 2 ^ 20] ∧
    (linearNext^[1] linearStart).base.residuals =
      [[-15 / 2 ^ 20, -120 / 2 ^ 20, -60 / 2 ^ 20, -30 / 2 ^ 20],
       [-240 / 2 ^ 20, -120 / 2 ^ 20, -60 / 2 ^ 20, -30 / 2 ^ 20]] ∧
    linearCheck (linearNext^[0] linearStart) = false := by
  obtain ⟨hx, hr, hres⟩ := linear_state0
  have h := linear_step_values (linearNext^[0] linearStart) _ _
    [64 / 2 ^ 20, 152 / 2 ^ 20, 136 / 2 ^ 20, 98 / 2 ^ 20]
    [-15 / 2 ^ 20, -120 / 2 ^ 20, -60 / 2 ^ 20, -30 / 2 ^ 20] hx hr
    (by norm_num [vadd]) (by rw [shiftA_mulVec]; norm_num [vsub])
  rw [Function.iterate_succ_apply']
  refine ⟨h.1, h.2.1, by rw [h.2.2.1, hres], ?_⟩
  rw [h.2.2.2, shiftA_mulVec]
  norm_num [residualCriterion, sqNorm, vadd, vsub]

theorem linear_state2 :
    (linearNext^[2] linearStart).xk = [49 / 2 ^ 20, 32 / 2 ^ 20, 76 / 2 ^ 20, 68 / 2 ^ 20] ∧
    (linearNext^[2] linearStart).R = [-15 / 2 ^ 20, -15 / 2 / 2 ^ 20, -60 / 2 ^ 20, -30 / 2 ^ 20] ∧
    (linearNext^[2] linearStart).base.residuals =
      [[-15 / 2 ^ 20, -15 / 2 / 2 ^ 20, -60 / 2 ^ 20, -30 / 2 ^ 20],
       [-15 / 2 ^ 20, -120 / 2 ^ 20, -60 / 2 ^ 20, -30 / 2 ^ 20],
       [-240 / 2 ^ 20, -120 / 2 ^ 20, -60 / 2 ^ 20, -30 / 2 ^ 20]] ∧
    linearCheck (linearNext^[1] linearStart) = false := by
  obtain ⟨hx, hr, hres, _⟩ := linear_state1
  have h := linear_step_values (linearNext^[1] linearStart) _ _
    [49 / 2 ^ 20, 32 / 2 ^ 20, 76 / 2 ^ 20, 68 / 2 ^ 20]
    [-15 / 2 ^ 20, -15 / 2 / 2 ^ 20, -60 / 2 ^ 20, -30 / 2 ^ 20] hx hr
    (by norm_num [vadd]) (by rw [shiftA_mulVec]; norm_num [vsub])
  rw [Function.iterate_succ_apply']
  refine ⟨h.1, h.2.1, by rw [h.2.2.1, hres], ?_⟩
  rw [h.2.2.2, shiftA_mulVec]
  norm_num [residualCriterion, sqNorm, vadd, vsub]

theorem linear_state3 :
    (linearNext^[3] linearStart).xk = [34 / 2 ^ 20, 49 / 2 / 2 ^ 20, 16 / 2 ^ 20, 38 / 2 ^ 20] ∧
    (linearNext^[3] linearStart).R = [-15 / 2 ^ 20, -15 / 2 / 2 ^ 20, -15 / 4 / 2 ^ 20, -30 / 2 ^ 20] ∧
    (linearNext^[3] linearStart).base.residuals =
      [[-15 / 2 ^ 20, -15 / 2 / 2 ^ 20, -15 / 4 / 2 ^ 20, -30 / 2 ^ 20],
       [-15 / 2 ^ 20, -15 / 2 / 2 ^ 20, -60 / 2 ^ 20, -30 / 2 ^ 20],
       [-15 / 2 ^ 20, -120 / 2 ^ 20, -60 / 2 ^ 20, -30 / 2 ^ 20],
       [-240 / 2 ^ 20, -120 / 2 ^ 20, -60 / 2 ^ 20, -30 / 2 ^ 20]] ∧
    linearCheck (linearNext^[2] linearStart) = false := by
  obtain ⟨hx, hr, hres, _⟩ := linear_state2
  have h := linear_step_values (linearNext^[2] linearStart) _ _
    [34 / 2 ^ 20, 49 / 2 / 2 ^ 20, 16 / 2 ^ 20, 38 / 2 ^ 20]
    [-15 / 2 ^ 20, -15 / 2 / 2 ^ 20, -15 / 4 / 2 ^ 20, -30 / 2 ^ 20] hx hr
    (by norm_num [vadd]) (by rw [shiftA_mulVec]; norm_num [vsub])
  rw [Function.iterate_succ_apply']
  refine ⟨h.1, h.2.1, by rw [h.2.2.1, hres], ?_⟩
  rw [h.2.2.2, shiftA_mulVec]
  norm_num [residualCriterion, sqNorm, vadd, vsub]

theorem linear_state4 :
    (linearNext^[4] linearStart).xk = [19 / 2 ^ 20, 17 / 2 ^ 20, 49 / 4 / 2 ^ 20, 8 / 2 ^ 20] ∧
    (linearNext^[4] linearStart).R = [-15 / 2 ^ 20, -15 / 2 / 2 ^ 20, -15 / 4 / 2 ^ 20, -15 / 8 / 2 ^ 20] ∧
    (linearNext^[4] linearStart).base.residuals =
      [[-15 / 2 ^ 20, -15 / 2 / 2 ^ 20, -15 / 4 / 2 ^ 20, -15 / 8 / 2 ^ 20],
       [-15 / 2 ^ 20, -15 / 2 / 2 ^ 20, -15 / 4 / 2 ^ 20, -30 / 2 ^ 20],
       [-15 / 2 ^ 20, -15 / 2 / 2 ^ 20, -60 / 2 ^ 20, -30 / 2 ^ 20],
       [-15 / 2 ^ 20, -120 / 2 ^ 20, -60 / 2 ^ 20, -30 / 2 ^ 20],
       [-240 / 2 ^ 20, -120 / 2 ^ 20, -60 / 2 ^ 20, -30 / 2 ^ 20]] ∧
    linearCheck (linearNext^[3] linearStart) = false := by
  obtain ⟨hx, hr, hres, _⟩ := linear_state3
  have h := linear_step_values (linearNext^[3] linearStart) _ _
    [19 / 2 ^ 20, 17 / 2 ^ 20, 49 / 4 / 2 ^ 20, 8 / 2 ^ 20]
    [-15 / 2 ^ 20, -15 / 2 / 2 ^ 20, -15 / 4 / 2 ^ 20, -15 / 8 / 2 ^ 20] hx hr
    (by norm_num [vadd]) (by rw [shiftA_mulVec]; norm_num [vsub])
  rw [Function.iterate_succ_apply']
  refine ⟨h.1, h.2.1, by rw [h.2.2.1, hres], ?_⟩
  rw [h.2.2.2, shiftA_mulVec]
  norm_num [residualCriterion, sqNorm, vadd, vsub]

theorem linear_state5 :
    (linearNext^[5] linearStart).xk = [4 / 2 ^ 20, 19 / 2 / 2 ^ 20, 17 / 2 / 2 ^ 20, 49 / 8 / 2 ^ 20] ∧
    (linearNext^[5] linearStart).R = [-15 / 16 / 2 ^ 20, -15 / 2 / 2 ^ 20, -15 / 4 / 2 ^ 20, -15 / 8 / 2 ^ 20] ∧
    (linearNext^[5] linearStart).base.residuals =
      [[-15 / 16 / 2 ^ 20, -15 / 2 / 2 ^ 20, -15 / 4 / 2 ^ 20, -15 / 8 / 2 ^ 20],
       [-15 / 2 ^ 20, -15 / 2 / 2 ^ 20, -15 / 4 / 2 ^ 20, -15 / 8 / 2 ^ 20],
       [-15 / 2 ^ 20, -15 / 2 / 2 ^ 20, -15 / 4 / 2 ^ 20, -30 / 2 ^ 20],
       [-15 / 2 ^ 20, -15 / 2 / 2 ^ 20, -60 / 2 ^ 20, -30 / 2 ^ 20],
       [-15 / 2 ^ 20, -120 / 2 ^ 20, -60 / 2 ^ 20, -30 / 2 ^ 20],
       [-240 / 2 ^ 20, -120 / 2 ^ 20, -60 / 2 ^ 20, -30 / 2 ^ 20]] ∧
    linearCheck (linearNext^[4] linearStart) = false := by
  obtain ⟨hx, hr, hres, _⟩ := linear_state4
  have h := linear_step_values (linearNext^[4] linearStart) _ _
    [4 / 2 ^ 20, 19 / 2 / 2 ^ 20, 17 / 2 / 2 ^ 20, 49 / 8 / 2 ^ 20]
    [-15 / 16 / 2 ^ 20, -15 / 2 / 2 ^ 20, -15 / 4 / 2 ^ 20, -15 / 8 / 2 ^ 20] hx hr
    (by norm_num [vadd]) (by rw [shiftA_mulVec]; norm_num [vsub])
  rw [Function.iterate_succ_apply']
  refine ⟨h.1, h.2.1, by rw [h.2.2.1, hres], ?_⟩
  rw [h.2.2.2, shiftA_mulVec]
  norm_num [residualCriterion, sqNorm, vadd, vsub]

theorem linear_loop : ∀ (n : Nat) (l : Locals Unit), LinearInv l →
    (∀ k, k < n → linearCheck (linearNext^[k] l) = false) →
    loop linearEnv [0, 0, 0, 0] linearX0 true n l = stop .exhausted (linearNext^[n] l) := by
  intro n
  induction n with
  | zero => intro l _ _; rfl
  | succ n ih =>
    intro l hI hc
    obtain ⟨h1, h2⟩ := linear_iteration l hI (hc 0 (Nat.succ_pos n))
    simp only [loop, h1]
    rw [ih (linearNext l) h2 (fun k hk => by
      have := hc (k + 1) (Nat.succ_lt_succ hk)
      rwa [Function.iterate_succ_apply] at this)]
    rw [Function.iterate_succ_apply]

theorem linear_startUp :
    startUp linearEnv linearBase plainSelf [0, 0, 0, 0] linearX0 [0, 0, 0, 0] true
      = .inr linearStart := by
  rw [startUp_ok linearEnv linearBase plainSelf [0, 0, 0, 0] linearX0 [0, 0, 0, 0] true ()
    (shiftA.mulVec linearX0) (vsub (shiftA.mulVec linearX0) linearX0) plainSelf
    (by simp [entryAssertions, linearEnv, sampleEnv, linearBase, sampleBase, linearX0])
    rfl rfl rfl rfl
    (by
      norm_num [linearEnv, residualCriterion, sqNorm, vsub, vadd, shiftA, Mat.mulVec, Mat.entry,
        Mat.cols, linearX0, List.range_succ])]
  rfl

theorem linear_run_state :
    performPostProcessing linearEnv linearBase plainSelf [0, 0, 0, 0] linearX0 [0, 0, 0, 0] true
      = stop .exhausted (linearNext^[5] linearStart) := by
  unfold performPostProcessing
  rw [linear_startUp]
  simp only
  have hfuel : (linearStart.base.maxIter - 1).toNat = 5 := rfl
  rw [hfuel]
  apply linear_loop 5 linearStart
  · exact ⟨rfl, rfl, rfl, rfl, rfl, rfl, by decide, rfl, rfl, rfl, rfl, rfl⟩
  · intro k hk
    interval_cases k
    · exact linear_state1.2.2.2
    · exact linear_state2.2.2.2
    · exact linear_state3.2.2.2
    · exact linear_state4.2.2.2
    · exact linear_state5.2.2.2
theorem linear_run_svd (k : Nat) (hk : k ∈ [1, 2, 3, 4]) :
    IsThinSVD ⟨4, diffsUpTo k ((linearNext^[5] linearStart).base.residuals.drop (5 - k))⟩
      (shiftSvd ⟨4, diffsUpTo k ((linearNext^[5] linearStart).base.residuals.drop (5 - k))⟩) := by
  rw [linear_state5.2.2.1]
  simp only [List.mem_cons, List.mem_singleton, List.not_mem_nil, or_false] at hk
  rcases hk with rfl | rfl | rfl | rfl <;>
    norm_num [IsThinSVD, shiftSvd, diffsUpTo, vsub, Mat.mul, Mat.asDiagonal, Mat.transpose,
      Mat.identity, Mat.ofFn, Mat.entry, Mat.cols, List.range_succ]
/-- C16, refuted: the evaluator is `evaluate(x) = (A x, A x - x)` for the
scaled cyclic shift `A` (`A^4 = I/16`, spectral radius `1/2`), scaling is off,
the mode is Jacobian-free, `y = 0`, there is no stage or time history and
`maxUsedIterations = 4`. From `linearX0` the residual differences are
`225/2^20 / 2^j` times the unit vector `j`, so the matrices `V` have the exact
singular value decompositions returned by `shiftSvd`, with all singular values
below `singularityLimit = 1e-3`: every mode is truncated and each step is the
plain fixed-point step. After five loop iterations (six evaluations) the call
is exhausted and every recorded residual has a norm above `1e-10`. -/
theorem linear_scenario_not_converged :
    (∀ e x, linearEnv.evaluate e x = some (e, shiftA.mulVec x, vsub (shiftA.mulVec x) x)) ∧
    (∀ e a b rc, linearEnv.isConvergence e a b rc = (e, residualCriterion (1 / 10 ^ 10) a b)) ∧
    (shiftA.mul shiftA).mul (shiftA.mul shiftA) = Mat.smul (1 / 16) (Mat.identity 4) ∧
    plainSelf.scaling = false ∧ plainSelf.updateJacobian = false ∧
    linearBase.maxUsedIterations = 4 ∧
    linearBase.solsStageList = [] ∧ linearBase.residualsStageList = [] ∧
    linearBase.solsTimeList = [] ∧ linearBase.residualsTimeList = [] ∧
    (performPostProcessing linearEnv linearBase plainSelf [0, 0, 0, 0] linearX0 [0, 0, 0, 0]
      true).status = .exhausted ∧
    (performPostProcessing linearEnv linearBase plainSelf [0, 0, 0, 0] linearX0 [0, 0, 0, 0]
      true).final.calls.length = 6 ∧
    (performPostProcessing linearEnv linearBase plainSelf [0, 0, 0, 0] linearX0 [0, 0, 0, 0]
      true).final.base.residuals =
      [[-15 / 16 / 2 ^ 20, -15 / 2 / 2 ^ 20, -15 / 4 / 2 ^ 20, -15 / 8 / 2 ^ 20],
       [-15 / 2 ^ 20, -15 / 2 / 2 ^ 20, -15 / 4 / 2 ^ 20, -15 / 8 / 2 ^ 20],
       [-15 / 2 ^ 20, -15 / 2 / 2 ^ 20, -15 / 4 / 2 ^ 20, -30 / 2 ^ 20],
       [-15 / 2 ^ 20, -15 / 2 / 2 ^ 20, -60 / 2 ^ 20, -30 / 2 ^ 20],
       [-15 / 2 ^ 20, -120 / 2 ^ 20, -60 / 2 ^ 20, -30 / 2 ^ 20],
       [-240 / 2 ^ 20, -120 / 2 ^ 20, -60 / 2 ^ 20, -30 / 2 ^ 20]] ∧
    (∀ r ∈ (performPostProcessing linearEnv linearBase plainSelf [0, 0, 0, 0] linearX0
      [0, 0, 0, 0] true).final.base.residuals, (1 / 10 ^ 10) ^ 2 ≤ sqNorm r) ∧
    (∀ k ∈ [1, 2, 3, 4],
      IsThinSVD
        ⟨4, diffsUpTo k ((performPostProcessing linearEnv linearBase plainSelf [0, 0, 0, 0]
          linearX0 [0, 0, 0, 0] true).final.base.residuals.drop (5 - k))⟩
        (shiftSvd
          ⟨4, diffsUpTo k ((performPostProcessing linearEnv linearBase plainSelf [0, 0, 0, 0]
            linearX0 [0, 0, 0, 0] true).final.base.residuals.drop (5 - k))⟩)) ∧
    (∀ V, ∀ sigma ∈ (shiftSvd V).singularValues, sigma ≤ plainSelf.singularityLimit) := by
  have hA : (shiftA.mul shiftA).mul (shiftA.mul shiftA)
      = Mat.smul (1 / 16) (Mat.identity 4) := by
    norm_num [shiftA, Mat.mul, Mat.smul, Mat.identity, Mat.ofFn, Mat.entry, Mat.cols,
      List.range_succ]
  have hrun := linear_run_state
  have hres : (performPostProcessing linearEnv linearBase plainSelf [0, 0, 0, 0] linearX0
      [0, 0, 0, 0] true).final.base.residuals = (linearNext^[5] linearStart).base.residuals := by
    rw [hrun]; rfl
  refine ⟨fun _ _ => rfl, fun _ _ _ _ => rfl, hA, rfl, rfl, rfl, rfl, rfl, rfl, rfl,
    ?_, ?_, ?_, ?_, ?_, ?_⟩
  · rw [hrun]; rfl
  · rw [hrun]; rfl
  · rw [hres]; exact linear_state5.2.2.1
  · rw [hres, linear_state5.2.2.1]
    intro r hr
    simp only [List.mem_cons, List.mem_singleton, List.not_mem_nil, or_false] at hr
    rcases hr with rfl | rfl | rfl | rfl | rfl | rfl <;> norm_num [sqNorm]
  · intro k hk
    rw [hres]
    exact linear_run_svd k hk
  · intro V sigma hs
    exact shiftSvd_truncated V sigma hs

end fsi
